import Mathlib

/-!
Segmented Sieve of Eratosthenes (`primesieve.c`).

A shallow embedding of `siv`, `sivfirstseg` and `sivseg` from `src/primesieve.c`,
and theorems about them.

Modelling conventions.

* `large` (`unsigned long long`) and `smlarge` (`unsigned long`) values are natural
  numbers.  The first embedding (`siv`, `sivfirstseg`, `sivseg`) computes with exact
  arithmetic; the second one (`siv64`, `sivfirstseg64`, `sivseg64`) reduces every
  operation modulo `2^64`, both types being taken 64 bits wide.  `stoull` and `powull`
  are embedded with 64-bit arithmetic only.  The two embeddings agree for bounds up to
  `2^64 - 2^32` (`siv64_eq_of_le`); for a larger bound below `2^64` the 64-bit window
  loop wraps and does not end, and `sivPrefix64` gives the state of such a run after
  any number of passes.
* C arrays are lists; `a[i] = v` is `List.set`, a read `a[i]` is `List.getD` (with
  default `0`, or `false` for the byte array `segment`).
* A `while`/`for` loop whose number of iterations is not bounded by its header is a
  function recursing on a fuel argument and returning `none` when the fuel is used
  up; `for (k = a; k < n; k++)` loops without a `break` that changes the bound recurse
  on the number of remaining iterations.
* `fprintf(outfile, "%llu\n", v)` appends `v` to the list of emitted values.  The two
  header lines and the trailer written by `siv` are not part of that list.
* `segsize = ceill(sqrtl(maxnum))` is taken in exact arithmetic: the least natural
  number whose square is at least `maxnum`.
* The lengths of C strings and the `int` counters that run over them are exact.
-/

namespace Primesieve

/-! ## Exact ceiling of the square root -/

/-- Linear search for the least `k` at or after the given one with `maxnum ≤ k * k`. -/
def ceilSqrtFrom (maxnum : Nat) : Nat → Nat → Nat
  | 0, k => k
  | fuel + 1, k => if maxnum ≤ k * k then k else ceilSqrtFrom maxnum fuel (k + 1)

/-- Exact value of `ceill(sqrtl(maxnum))`: the least natural number whose square is
at least `maxnum`. -/
def ceilSqrt (maxnum : Nat) : Nat := ceilSqrtFrom maxnum maxnum 0

/-! ## Loops shared by the two sieves -/

/-- Crossing-out loop.  In `sivfirstseg`:
`while (j < segsize) { segment[j] = 0; j += i; }`, in `sivseg`:
`for (j = next[i]; j < segsize; j += xprimes[i]) { segment[j] = 0; }`.
Returns the segment and the final value of `j`.  The sum `j + step` is exact here; the
source takes it modulo `2^64` (`crossOut64`), which is the same loop when
`segsize + step ≤ 2^64` (`crossOut64_eq`). -/
def crossOut : Nat → List Bool → Nat → Nat → Nat → Option (List Bool × Nat)
  | 0, _, _, _, _ => none
  | fuel + 1, segment, segsize, step, j =>
    if j < segsize then
      crossOut fuel (segment.set j false) segsize step (j + step)
    else
      some (segment, j)

/-! ## The base sieve `sivfirstseg` -/

/-- Search loop of `sivfirstseg`:
`for (large j = i + 1; j < segsize; j++) if (segment[j] == 1) { i = j; done = 0; break; }`.
The first argument is the number of iterations left, `segsize - j`.  The result is
`some j` when the loop breaks at `j` (then `done = 0`), and `none` when it runs to
the end (`done` stays `1`). -/
def findNextFrom (segment : List Bool) : Nat → Nat → Option Nat
  | 0, _ => none
  | n + 1, j => if segment.getD j false = true then some j else findNextFrom segment n (j + 1)

/-- Search for the next prime after `i` in the base segment, see `findNextFrom`. -/
def findNext (segment : List Bool) (segsize i : Nat) : Option Nat :=
  findNextFrom segment (segsize - (i + 1)) (i + 1)

/-- Memory written by `sivfirstseg`, with its counter `found`. -/
structure FirstState where
  /-- Array `primes` (the `xprimes` of the caller). -/
  primes : List Nat
  /-- Array `next`. -/
  next : List Nat
  /-- Counter `found`. -/
  found : Nat
deriving DecidableEq, Repr

/-- Loop `while (!(done)) { ... }` of `sivfirstseg`, entered with cursor `i`.  The
square `i * i` is exact here; the source takes it modulo `2^64` (`sivfirstsegLoop64`),
which is the same loop when `segsize ≤ 2^32` (`sivfirstsegLoop64_eq`). -/
def sivfirstsegLoop : Nat → Nat → List Bool → Nat → FirstState → Option FirstState
  | 0, _, _, _, _ => none
  | fuel + 1, segsize, segment, i, st =>
    -- primes[found] = i;
    let primes := st.primes.set st.found i
    -- large j = i * i; while (j < segsize) { segment[j] = 0; j += i; }
    match crossOut fuel segment segsize i (i * i) with
    | none => none
    | some (segment, j) =>
      -- next[found] = j - segsize;
      let next := st.next.set st.found (j - segsize)
      -- done = 1; for (...) { ... }  found++;
      match findNext segment segsize i with
      | none => some { primes := primes, next := next, found := st.found + 1 }
      | some i =>
        sivfirstsegLoop fuel segsize segment i
          { primes := primes, next := next, found := st.found + 1 }

/-- Initial contents of `segment` in `sivfirstseg`:
`segment[0] = 0; segment[1] = 0; for (i = 2; i < segsize; i++) segment[i] = 1;`. -/
def firstSegment (segsize : Nat) : List Bool :=
  ((List.replicate segsize true).set 0 false).set 1 false

/-- Result of a call of `sivfirstseg`. -/
structure FirstResult where
  /-- Values printed, in order. -/
  emitted : List Nat
  /-- Return value (`found`). -/
  found : Nat
  /-- Array `primes` after the call. -/
  primes : List Nat
  /-- Array `next` after the call. -/
  next : List Nat
deriving DecidableEq, Repr

/-- Function `sivfirstseg(outfile, primes, next, segsize)`. -/
def sivfirstseg (fuel : Nat) (primes next : List Nat) (segsize : Nat) : Option FirstResult :=
  match sivfirstsegLoop fuel segsize (firstSegment segsize) 2
      { primes := primes, next := next, found := 0 } with
  | none => none
  | some st =>
    -- for (large i = 0; i < found; i++) fprintf(outfile, "%lu\n", primes[i]);
    some { emitted := (List.range st.found).map (fun k => st.primes.getD k 0),
           found := st.found, primes := st.primes, next := st.next }

/-! ## The segment sieve `sivseg` -/

/-- Sieving loop of `sivseg`:
`for (large i = 0; i < numof_xprimes; i++) { for (j = next[i]; ...) ...; next[i] = j - segsize; }`.
The sixth argument is the number of iterations left, `numof_xprimes - i`. -/
def sieveLoop (fuel : Nat) (xprimes : List Nat) (segsize : Nat) :
    List Bool → List Nat → Nat → Nat → Option (List Bool × List Nat)
  | segment, next, 0, _ => some (segment, next)
  | segment, next, n + 1, i =>
    match crossOut fuel segment segsize (xprimes.getD i 0) (next.getD i 0) with
    | none => none
    | some (segment, j) => sieveLoop fuel xprimes segsize segment (next.set i (j - segsize)) n (i + 1)

/-- Printing loop of `sivseg`:
`for (large i = 0; i < segsize; i++) if (segment[i]) { fprintf(.., i + startnum); numof_primes++; }`.
The third argument is the number of iterations left; the result is the list of
values printed and the final `numof_primes` when it starts from the given one.  The sum
`i + startnum` is exact here; the source takes it modulo `2^64` (`printLoop64`), which
is the same loop when `startnum + segsize ≤ 2^64` (`printLoop64_eq`). -/
def printLoop (segment : List Bool) (startnum : Nat) : Nat → Nat → Nat → List Nat × Nat
  | 0, _, numof_primes => ([], numof_primes)
  | n + 1, i, numof_primes =>
    if segment.getD i false = true then
      let r := printLoop segment startnum n (i + 1) (numof_primes + 1)
      ((i + startnum) :: r.1, r.2)
    else
      printLoop segment startnum n (i + 1) numof_primes

/-- Result of a call of `sivseg`. -/
structure SegResult where
  /-- Values printed, in order. -/
  emitted : List Nat
  /-- Return value (`numof_primes`). -/
  count : Nat
  /-- Array `next` after the call. -/
  next : List Nat
deriving DecidableEq, Repr

/-- Function `sivseg(outfile, xprimes, next, segsize, numof_xprimes, startnum)`. -/
def sivseg (fuel : Nat) (xprimes next : List Nat) (segsize numof_xprimes startnum : Nat) :
    Option SegResult :=
  match sieveLoop fuel xprimes segsize (List.replicate segsize true) next numof_xprimes 0 with
  | none => none
  | some (segment, next) =>
    let r := printLoop segment startnum segsize 0 0
    some { emitted := r.1, count := r.2, next := next }

/-! ## The driver `siv` -/

/-- Record of one call of `sivseg` made by the driver. -/
structure SegCall where
  /-- Value of the variable `segsize` when the loop body is entered; the truncation
  test computes `i + segsize` with it. -/
  segsizeIn : Nat
  /-- Argument `segsize` of the call (after truncation). -/
  segsize : Nat
  /-- Argument `startnum` of the call (the loop variable `i`). -/
  startnum : Nat
  /-- Argument `xprimes`. -/
  xprimes : List Nat
  /-- Argument `numof_xprimes`. -/
  numof_xprimes : Nat
  /-- Array `next` when the call is made. -/
  next : List Nat
  /-- Values printed by the call. -/
  emitted : List Nat
  /-- Return value of the call. -/
  count : Nat
deriving DecidableEq, Repr

/-- Outcome of a run of `siv`.  The fields `emitted` and `numof_primes` are what the
program writes; `base` and `calls` record the calls that were made. -/
structure SivResult where
  /-- Values printed between the header and the trailer, in order. -/
  emitted : List Nat
  /-- Final value of `numof_primes`, printed after `Primes found:`. -/
  numof_primes : Nat
  /-- Call of `sivfirstseg`, when one was made. -/
  base : Option FirstResult
  /-- Calls of `sivseg`, in call order. -/
  calls : List SegCall
deriving DecidableEq, Repr

/-- Loop `for (large i = segsize; i < maxnum; i += segsize) { ... }` of `siv`, entered
with the given values of `segsize`, `i` and `next`; `acc` holds what has been written
and counted so far.  The sums `i + segsize` are exact here; the source takes them modulo
`2^64` (`sivLoop64`), which is the same loop when `maxnum ≤ 2^64 - 2^32`
(`sivLoop64_eq`); for a larger bound below `2^64` the loop of the source does not end
(`siv64_beyond`). -/
def sivLoop : Nat → Nat → List Nat → Nat → Nat → Nat → List Nat → SivResult → Option SivResult
  | 0, _, _, _, _, _, _, _ => none
  | fuel + 1, maxnum, xprimes, numof_xprimes, segsize, i, next, acc =>
    if i < maxnum then
      -- segsize = (i + segsize > maxnum) ? (maxnum - i) : (segsize);
      let segsize1 := if i + segsize > maxnum then maxnum - i else segsize
      -- numof_primes += sivseg(outfile, xprimes, next, segsize, numof_xprimes, i);
      match sivseg fuel xprimes next segsize1 numof_xprimes i with
      | none => none
      | some r =>
        sivLoop fuel maxnum xprimes numof_xprimes segsize1 (i + segsize1) r.next
          { emitted := acc.emitted ++ r.emitted,
            numof_primes := acc.numof_primes + r.count,
            base := acc.base,
            calls := acc.calls ++ [{ segsizeIn := segsize, segsize := segsize1, startnum := i,
                                     xprimes := xprimes, numof_xprimes := numof_xprimes,
                                     next := next, emitted := r.emitted, count := r.count }] }
    else
      some acc

/-- Function `siv(outfile, maxnum)`. -/
def siv (fuel maxnum : Nat) : Option SivResult :=
  if maxnum < 5 then
    if maxnum > 2 then
      if maxnum > 3 then
        some { emitted := [2, 3], numof_primes := 2, base := none, calls := [] }
      else
        some { emitted := [2], numof_primes := 1, base := none, calls := [] }
    else
      some { emitted := [], numof_primes := 0, base := none, calls := [] }
  else
    let segsize := ceilSqrt maxnum
    -- xprimes = malloc(...); next = malloc(...);
    let xprimes := List.replicate segsize 0
    let next := List.replicate segsize 0
    -- numof_xprimes = sivfirstseg(outfile, xprimes, next, segsize); numof_primes = numof_xprimes;
    match sivfirstseg fuel xprimes next segsize with
    | none => none
    | some b =>
      sivLoop fuel maxnum b.primes b.found segsize segsize b.next
        { emitted := b.emitted, numof_primes := b.found, base := some b, calls := [] }

/-! ## The base sieve with checked array accesses

The functions of this section follow `sivfirstseg` statement by statement like the ones
above, and in addition give `none` as soon as an array is read or written at a position
that is not one of its cells. -/

/-- Crossing-out loop of `sivfirstseg` with the write `segment[j] = 0` checked. -/
def crossOutChecked : Nat → List Bool → Nat → Nat → Nat → Option (List Bool × Nat)
  | 0, _, _, _, _ => none
  | fuel + 1, segment, segsize, step, j =>
    if j < segsize then
      if j < segment.length then
        crossOutChecked fuel (segment.set j false) segsize step (j + step)
      else none
    else
      some (segment, j)

/-- Search loop of `sivfirstseg` with the read `segment[j]` checked; `some none` when the
loop runs to the end, `some (some j)` when it breaks at `j`. -/
def findNextFromChecked (segment : List Bool) : Nat → Nat → Option (Option Nat)
  | 0, _ => some none
  | n + 1, j =>
    if j < segment.length then
      if segment.getD j false = true then some (some j)
      else findNextFromChecked segment n (j + 1)
    else none

/-- Loop of `sivfirstseg` with the writes `primes[found] = i`, `next[found] = j - segsize`
and the accesses to `segment` checked. -/
def sivfirstsegLoopChecked : Nat → Nat → List Bool → Nat → FirstState → Option FirstState
  | 0, _, _, _, _ => none
  | fuel + 1, segsize, segment, i, st =>
    if st.found < st.primes.length ∧ st.found < st.next.length then
      let primes := st.primes.set st.found i
      match crossOutChecked fuel segment segsize i (i * i) with
      | none => none
      | some (segment, j) =>
        let next := st.next.set st.found (j - segsize)
        match findNextFromChecked segment (segsize - (i + 1)) (i + 1) with
        | none => none
        | some none => some { primes := primes, next := next, found := st.found + 1 }
        | some (some i) =>
          sivfirstsegLoopChecked fuel segsize segment i
            { primes := primes, next := next, found := st.found + 1 }
    else none

/-- Function `sivfirstseg` with every array access checked: `segment` has `segsize`
cells, so `segment[0] = 0; segment[1] = 0;` need `1 < segsize`, and the printing loop
reads `primes[0 .. found)`. -/
def sivfirstsegChecked (fuel : Nat) (primes next : List Nat) (segsize : Nat) :
    Option FirstResult :=
  if 1 < segsize then
    match sivfirstsegLoopChecked fuel segsize (firstSegment segsize) 2
        { primes := primes, next := next, found := 0 } with
    | none => none
    | some st =>
      if st.found ≤ st.primes.length then
        some { emitted := (List.range st.found).map (fun k => st.primes.getD k 0),
               found := st.found, primes := st.primes, next := st.next }
      else none
  else none

/-! ## The sieve in 64-bit unsigned arithmetic

The functions of this section follow `siv`, `sivfirstseg` and `sivseg` statement by
statement like the ones above, with every sum and product of `large` values reduced
modulo `2^64` and every difference `a - b` computed as `(a + 2^64 - b) % 2^64`.  A
counter `k` of a loop `for (k = a; k < n; k++)` cannot wrap, since `k < n < 2^64` when it
is incremented; these loops keep their number of remaining iterations as argument. -/

/-- Crossing-out loop with `j += step` modulo `2^64`. -/
def crossOut64 : Nat → List Bool → Nat → Nat → Nat → Option (List Bool × Nat)
  | 0, _, _, _, _ => none
  | fuel + 1, segment, segsize, step, j =>
    if j < segsize then
      crossOut64 fuel (segment.set j false) segsize step ((j + step) % 2 ^ 64)
    else
      some (segment, j)

/-- Search loop of `sivfirstseg` started at `j = i + 1` modulo `2^64`. -/
def findNext64 (segment : List Bool) (segsize i : Nat) : Option Nat :=
  findNextFrom segment (segsize - (i + 1) % 2 ^ 64) ((i + 1) % 2 ^ 64)

/-- Loop of `sivfirstseg` in 64-bit arithmetic. -/
def sivfirstsegLoop64 : Nat → Nat → List Bool → Nat → FirstState → Option FirstState
  | 0, _, _, _, _ => none
  | fuel + 1, segsize, segment, i, st =>
    let primes := st.primes.set st.found i
    match crossOut64 fuel segment segsize i ((i * i) % 2 ^ 64) with
    | none => none
    | some (segment, j) =>
      let next := st.next.set st.found ((j + 2 ^ 64 - segsize) % 2 ^ 64)
      match findNext64 segment segsize i with
      | none => some { primes := primes, next := next, found := (st.found + 1) % 2 ^ 64 }
      | some i =>
        sivfirstsegLoop64 fuel segsize segment i
          { primes := primes, next := next, found := (st.found + 1) % 2 ^ 64 }

/-- Function `sivfirstseg` in 64-bit arithmetic. -/
def sivfirstseg64 (fuel : Nat) (primes next : List Nat) (segsize : Nat) : Option FirstResult :=
  match sivfirstsegLoop64 fuel segsize (firstSegment segsize) 2
      { primes := primes, next := next, found := 0 } with
  | none => none
  | some st =>
    some { emitted := (List.range st.found).map (fun k => st.primes.getD k 0),
           found := st.found, primes := st.primes, next := st.next }

/-- Sieving loop of `sivseg` in 64-bit arithmetic. -/
def sieveLoop64 (fuel : Nat) (xprimes : List Nat) (segsize : Nat) :
    List Bool → List Nat → Nat → Nat → Option (List Bool × List Nat)
  | segment, next, 0, _ => some (segment, next)
  | segment, next, n + 1, i =>
    match crossOut64 fuel segment segsize (xprimes.getD i 0) (next.getD i 0) with
    | none => none
    | some (segment, j) =>
      sieveLoop64 fuel xprimes segsize segment
        (next.set i ((j + 2 ^ 64 - segsize) % 2 ^ 64)) n (i + 1)

/-- Printing loop of `sivseg` with `i + startnum` and `numof_primes++` modulo `2^64`. -/
def printLoop64 (segment : List Bool) (startnum : Nat) : Nat → Nat → Nat → List Nat × Nat
  | 0, _, numof_primes => ([], numof_primes)
  | n + 1, i, numof_primes =>
    if segment.getD i false = true then
      let r := printLoop64 segment startnum n (i + 1) ((numof_primes + 1) % 2 ^ 64)
      (((i + startnum) % 2 ^ 64) :: r.1, r.2)
    else
      printLoop64 segment startnum n (i + 1) numof_primes

/-- Function `sivseg` in 64-bit arithmetic. -/
def sivseg64 (fuel : Nat) (xprimes next : List Nat) (segsize numof_xprimes startnum : Nat) :
    Option SegResult :=
  match sieveLoop64 fuel xprimes segsize (List.replicate segsize true) next numof_xprimes 0 with
  | none => none
  | some (segment, next) =>
    let r := printLoop64 segment startnum segsize 0 0
    some { emitted := r.1, count := r.2, next := next }

/-- Window loop of `siv` in 64-bit arithmetic. -/
def sivLoop64 : Nat → Nat → List Nat → Nat → Nat → Nat → List Nat → SivResult →
    Option SivResult
  | 0, _, _, _, _, _, _, _ => none
  | fuel + 1, maxnum, xprimes, numof_xprimes, segsize, i, next, acc =>
    if i < maxnum then
      let segsize1 :=
        if (i + segsize) % 2 ^ 64 > maxnum then (maxnum + 2 ^ 64 - i) % 2 ^ 64 else segsize
      match sivseg64 fuel xprimes next segsize1 numof_xprimes i with
      | none => none
      | some r =>
        sivLoop64 fuel maxnum xprimes numof_xprimes segsize1 ((i + segsize1) % 2 ^ 64) r.next
          { emitted := acc.emitted ++ r.emitted,
            numof_primes := (acc.numof_primes + r.count) % 2 ^ 64,
            base := acc.base,
            calls := acc.calls ++ [{ segsizeIn := segsize, segsize := segsize1, startnum := i,
                                     xprimes := xprimes, numof_xprimes := numof_xprimes,
                                     next := next, emitted := r.emitted, count := r.count }] }
    else
      some acc

/-- Function `siv` in 64-bit arithmetic, for a bound below `2^64`. -/
def siv64 (fuel maxnum : Nat) : Option SivResult :=
  if maxnum < 5 then
    if maxnum > 2 then
      if maxnum > 3 then
        some { emitted := [2, 3], numof_primes := 2, base := none, calls := [] }
      else
        some { emitted := [2], numof_primes := 1, base := none, calls := [] }
    else
      some { emitted := [], numof_primes := 0, base := none, calls := [] }
  else
    let segsize := ceilSqrt maxnum
    let xprimes := List.replicate segsize 0
    let next := List.replicate segsize 0
    match sivfirstseg64 fuel xprimes next segsize with
    | none => none
    | some b =>
      sivLoop64 fuel maxnum b.primes b.found segsize segsize b.next
        { emitted := b.emitted, numof_primes := b.found, base := some b, calls := [] }

/-- State of the window loop of `siv` when its condition `i < maxnum` is tested: the
variables `segsize` and `i`, the array `next`, and what has been written, counted and
called so far. -/
structure LoopState where
  /-- Variable `segsize`. -/
  segsize : Nat
  /-- Loop variable `i`. -/
  i : Nat
  /-- Array `next`. -/
  next : List Nat
  /-- Output, count and calls so far. -/
  acc : SivResult
deriving DecidableEq, Repr

/-- The first `k` passes through the window loop of `siv` in 64-bit arithmetic, from the
state `st`: the state in which the loop condition is tested for the `(k + 1)`-th time,
or the state in which it has failed earlier.  The body is that of `sivLoop64`; `fuel`
is the fuel of each `sivseg64` call.  This describes also the runs that never leave the
loop. -/
def sivLoopPrefix64 (fuel maxnum : Nat) (xprimes : List Nat) (numof_xprimes : Nat) :
    Nat → LoopState → Option LoopState
  | 0, st => some st
  | k + 1, st =>
    if st.i < maxnum then
      let segsize1 :=
        if (st.i + st.segsize) % 2 ^ 64 > maxnum then (maxnum + 2 ^ 64 - st.i) % 2 ^ 64
        else st.segsize
      match sivseg64 fuel xprimes st.next segsize1 numof_xprimes st.i with
      | none => none
      | some r =>
        sivLoopPrefix64 fuel maxnum xprimes numof_xprimes k
          { segsize := segsize1, i := (st.i + segsize1) % 2 ^ 64, next := r.next,
            acc :=
              { emitted := st.acc.emitted ++ r.emitted,
                numof_primes := (st.acc.numof_primes + r.count) % 2 ^ 64,
                base := st.acc.base,
                calls := st.acc.calls ++
                  [{ segsizeIn := st.segsize, segsize := segsize1, startnum := st.i,
                     xprimes := xprimes, numof_xprimes := numof_xprimes,
                     next := st.next, emitted := r.emitted, count := r.count }] } }
    else
      some st

/-- The run of `siv` in 64-bit arithmetic on a bound `maxnum ≥ 5` (second branch of
`siv`) up to the end of the `k`-th pass through the window loop.  A run of `siv64` that
returns is such a run, with the loop condition false at its end (`siv64_prefix`). -/
def sivPrefix64 (fuel k maxnum : Nat) : Option LoopState :=
  let segsize := ceilSqrt maxnum
  let xprimes := List.replicate segsize 0
  let next := List.replicate segsize 0
  match sivfirstseg64 fuel xprimes next segsize with
  | none => none
  | some b =>
    sivLoopPrefix64 fuel maxnum b.primes b.found k
      { segsize := segsize, i := segsize, next := b.next,
        acc := { emitted := b.emitted, numof_primes := b.found, base := some b, calls := [] } }

/-! ## Reading the bound: `stoull` and `powull` -/

/-- Loop of `powull`: `for (int i = 0; i < exp; i++) { result *= base; }` on 64-bit
unsigned values.  The second argument is the number of iterations left. -/
def powullLoop (base : Nat) : Nat → Nat → Nat
  | 0, result => result
  | n + 1, result => powullLoop base n ((result * base) % 2 ^ 64)

/-- Function `powull(base, exp)`. -/
def powull (base exp : Nat) : Nat := powullLoop base exp 1

/-- Loop of `stoull` over the characters `string[i ..]` that are left, with the value of
`num`; `digits - i - 1` is the number of characters after the current one.  The sum and
the product are those of 64-bit unsigned values.  The character is taken with its code
(for a `char` that is signed, a code above 127 gives a negative `digit`; both readings
leave the loop through `return 0`). -/
def stoullLoop : List Char → Nat → Nat
  | [], num => num
  | ch :: rest, num =>
    -- digit = (int) string[i] - 48;
    let digit : Int := (ch.toNat : Int) - 48
    -- if (digit < 0 || digit > 9) return 0;
    if digit < 0 ∨ digit > 9 then 0
    -- num += digit * powull(10, digits - i - 1);
    else stoullLoop rest ((num + (digit.toNat * powull 10 rest.length) % 2 ^ 64) % 2 ^ 64)

/-- Function `stoull(string)`; the argument is the list of the characters before the
terminating NUL. -/
def stoull (string : List Char) : Nat := stoullLoop string 0

/-! ## Specification vocabulary -/

/-- The increasing list of all primes below `n`. -/
def primesBelow (n : Nat) : List Nat := (List.range n).filter (fun p => decide (Nat.Prime p))

/-- The number written by a string of decimal digits. -/
def decimalValue (string : List Char) : Nat :=
  string.foldl (fun a ch => 10 * a + (ch.toNat - 48)) 0

/-- The increasing list of all primes in the window `[start, start + size)`. -/
def primesIn (start size : Nat) : List Nat :=
  (List.range' start size).filter (fun p => decide (Nat.Prime p))

/-- The carry `c` of the prime `p` for a window beginning at `start`: `c + start` is
the least element of `{p², p² + p, p² + 2p, ...}` that is at least `start`. -/
def IsCarry (p start c : Nat) : Prop :=
  (∃ t, c + start = p * p + t * p) ∧ ∀ t, start ≤ p * p + t * p → c + start ≤ p * p + t * p


/-- The base segment `seg` of length `S` has been sieved with every prime below `b`:
a position is still marked exactly when it is at least 2 and is not one of the
crossed-out multiples `q² + t q` of such a prime `q`. -/
def Sieved (S b : Nat) (seg : List Bool) : Prop :=
  ∀ m, seg.getD m false = true ↔
    2 ≤ m ∧ m < S ∧ ∀ q, q.Prime → q < b → ¬ (q * q ≤ m ∧ q ∣ m)

/-- The windows of the calls `cs`, taken in order, tile `[a, b)`: the first begins at
`a`, each next one begins where the previous one ends, and the last ends at `b`. -/
def Tiles : Nat → Nat → List SegCall → Prop
  | a, b, [] => a = b
  | a, b, c :: cs => c.startnum = a ∧ Tiles (a + c.segsize) b cs

/-- Facts about one call of `sivseg` made by the driver for the bound `N`, with
`S = ceilSqrt N` and the base primes `xprimes[0 .. n)`. -/
structure CallOk (N S : Nat) (xprimes : List Nat) (n : Nat) (c : SegCall) : Prop where
  segsizeIn_eq : c.segsizeIn = S
  segsize_eq : c.segsize = min S (N - c.startnum)
  start_ge : S ≤ c.startnum
  start_lt : c.startnum < N
  dvd_start : S ∣ c.startnum
  xprimes_eq : c.xprimes = xprimes
  numof_eq : c.numof_xprimes = n
  carries : ∀ k, k < n → IsCarry (xprimes.getD k 0) c.startnum (c.next.getD k 0)
  emitted_eq : c.emitted = primesIn c.startnum c.segsize
  count_eq : c.count = c.emitted.length

/-- Facts about what the driver has written, counted and called when its loop variable
is `i`, after a base sieve call with result `b`. -/
structure AccOk (N S : Nat) (b : FirstResult) (i : Nat) (acc : SivResult) : Prop where
  emitted_eq : acc.emitted = primesBelow i
  numof_eq : acc.numof_primes = acc.emitted.length
  base_eq : acc.base = some b
  tiles : Tiles S i acc.calls
  calls_ok : ∀ c, c ∈ acc.calls → CallOk N S b.primes b.found c
  emitted_split : acc.emitted = b.emitted ++ (acc.calls.map (fun c => c.emitted)).flatten
  numof_split : acc.numof_primes = b.found + (acc.calls.map (fun c => c.count)).sum

/-- The call `siv(outfile, maxnum)` returns with outcome `r`: every run with at least
`maxnum + 2` units of fuel returns `r`, and no run returns anything else. -/
def SivReturns (maxnum : Nat) (r : SivResult) : Prop :=
  (∀ fuel, maxnum + 2 ≤ fuel → siv fuel maxnum = some r) ∧
    ∀ fuel r1, siv fuel maxnum = some r1 → r1 = r

/-- The call `siv(outfile, maxnum)` returns with outcome `r` in 64-bit arithmetic: every
run of `siv64` with at least `maxnum + 2` units of fuel returns `r`, and no run returns
anything else. -/
def Siv64Returns (maxnum : Nat) (r : SivResult) : Prop :=
  (∀ fuel, maxnum + 2 ≤ fuel → siv64 fuel maxnum = some r) ∧
    ∀ fuel r1, siv64 fuel maxnum = some r1 → r1 = r

/-- Modular power by repeated squaring: `a ^ e % m` for `e < 2 ^ fuel`. -/
def powMod (a m : Nat) : Nat → Nat → Nat
  | 0, _ => 1 % m
  | f + 1, e =>
    if e = 0 then 1 % m
    else
      let h := powMod a m f (e / 2)
      if e % 2 = 0 then (h * h) % m else ((h * h) % m * a) % m

/-! ## The exact square root -/

theorem ceilSqrtFrom_spec (N : Nat) : ∀ fuel k, (∀ k1, k1 < k → k1 * k1 < N) →
    N ≤ (k + fuel) * (k + fuel) →
    N ≤ ceilSqrtFrom N fuel k * ceilSqrtFrom N fuel k ∧
      ∀ k1, k1 < ceilSqrtFrom N fuel k → k1 * k1 < N := by
  intro fuel
  induction fuel with
  | zero =>
    intro k hk hb
    simpa [ceilSqrtFrom] using And.intro hb hk
  | succ fuel ih =>
    intro k hk hb
    unfold ceilSqrtFrom
    by_cases h : N ≤ k * k
    · simpa [h] using hk
    · simp only [h, if_false]
      apply ih
      · intro k1 hk1
        rcases Nat.lt_succ_iff_lt_or_eq.mp hk1 with h1 | h1
        · exact hk k1 h1
        · subst h1; omega
      · have : k + 1 + fuel = k + (fuel + 1) := by omega
        rw [this]; exact hb

theorem ceilSqrt_spec (N : Nat) :
    N ≤ ceilSqrt N * ceilSqrt N ∧ ∀ k, k < ceilSqrt N → k * k < N := by
  unfold ceilSqrt
  apply ceilSqrtFrom_spec
  · intro k1 hk1; omega
  · simp only [Nat.zero_add]
    exact Nat.le_mul_self N

theorem ceilSqrt_eq (N s : Nat) (h1 : N ≤ s * s) (h2 : ∀ k, k < s → k * k < N) :
    ceilSqrt N = s := by
  obtain ⟨a, b⟩ := ceilSqrt_spec N
  rcases Nat.lt_trichotomy (ceilSqrt N) s with h | h | h
  · have := h2 _ h; omega
  · exact h
  · have := b _ h; omega

theorem ceilSqrt_eq_of_pred (N s : Nat) (h1 : N ≤ s * s) (h2 : (s - 1) * (s - 1) < N) :
    ceilSqrt N = s := by
  apply ceilSqrt_eq N s h1
  intro k hk
  have : k ≤ s - 1 := by omega
  calc k * k ≤ (s - 1) * (s - 1) := Nat.mul_le_mul this this
    _ < N := h2

theorem ceilSqrt_pred_lt (N : Nat) (h : 0 < ceilSqrt N) :
    (ceilSqrt N - 1) * (ceilSqrt N - 1) < N :=
  (ceilSqrt_spec N).2 _ (by omega)

theorem ceilSqrt_ge_three (N : Nat) (h : 5 ≤ N) : 3 ≤ ceilSqrt N := by
  by_contra hc
  have h1 := (ceilSqrt_spec N).1
  have : ceilSqrt N ≤ 2 := by omega
  have := Nat.mul_le_mul this this
  omega

theorem ceilSqrt_le_self (N : Nat) : ceilSqrt N ≤ N := by
  by_contra hc
  have h1 := (ceilSqrt_spec N).2 N (by omega)
  have := Nat.le_mul_self N
  omega

theorem two_mul_ceilSqrt_le (N : Nat) : 2 * ceilSqrt N ≤ N + 2 := by
  rcases Nat.eq_zero_or_pos (ceilSqrt N) with h | h
  · omega
  · have h1 := ceilSqrt_pred_lt N h
    obtain ⟨s, hs⟩ : ∃ s, ceilSqrt N = s + 1 := ⟨ceilSqrt N - 1, by omega⟩
    rw [hs] at h1 ⊢
    simp only [Nat.add_sub_cancel] at h1
    nlinarith [sq_nonneg ((s : Int) - 1)]

/-! ## The byte array `segment` -/

theorem getD_set_false (seg : List Bool) (j m : Nat) :
    (seg.set j false).getD m false = (if m = j then false else seg.getD m false) := by
  simp only [List.getD_eq_getElem?_getD, List.getElem?_set]
  by_cases h : j = m
  · subst h
    by_cases h2 : j < seg.length <;> simp [h2]
  · have h3 : ¬ m = j := fun e => h e.symm
    simp [h, h3]

theorem getD_replicate_true (n m : Nat) :
    (List.replicate n true).getD m false = decide (m < n) := by
  simp only [List.getD_eq_getElem?_getD, List.getElem?_replicate]
  by_cases h : m < n <;> simp [h]

theorem getD_firstSegment (n m : Nat) :
    (firstSegment n).getD m false = decide (2 ≤ m ∧ m < n) := by
  unfold firstSegment
  rw [getD_set_false, getD_set_false, getD_replicate_true]
  by_cases h1 : m = 1
  · subst h1; simp
  · by_cases h0 : m = 0
    · subst h0; simp
    · have : 2 ≤ m := by omega
      simp [h1, h0, this]

/-- Effect of the crossing-out loop: it stops at the first `j + t * step` that is not
below `segsize`, and clears exactly the positions `j + s * step` with `s < t`. -/
theorem crossOut_spec (segsize step : Nat) (hstep : 0 < step) :
    ∀ fuel seg j, segsize - j < fuel →
      ∃ seg1 t, crossOut fuel seg segsize step j = some (seg1, j + t * step) ∧
        segsize ≤ j + t * step ∧ (∀ s, s < t → j + s * step < segsize) ∧
        ∀ m, (seg1.getD m false = true ↔
          seg.getD m false = true ∧ ∀ s, s < t → m ≠ j + s * step) := by
  intro fuel
  induction fuel with
  | zero => intro seg j h; omega
  | succ fuel ih =>
    intro seg j h
    unfold crossOut
    by_cases hj : j < segsize
    · simp only [hj, if_true]
      obtain ⟨seg1, t, e, h1, h2, h3⟩ := ih (seg.set j false) (j + step) (by omega)
      refine ⟨seg1, t + 1, ?_, ?_, ?_, ?_⟩
      · rw [e]
        have : j + step + t * step = j + (t + 1) * step := by ring
        rw [this]
      · have : j + step + t * step = j + (t + 1) * step := by ring
        omega
      · intro s hs
        cases s with
        | zero => simpa using hj
        | succ s =>
          have := h2 s (by omega)
          have e2 : j + step + s * step = j + (s + 1) * step := by ring
          omega
      · intro m
        rw [h3 m, getD_set_false]
        constructor
        · rintro ⟨a, b⟩
          by_cases hm : m = j
          · simp [hm] at a
          · simp only [hm, if_false] at a
            refine ⟨a, ?_⟩
            intro s hs
            cases s with
            | zero => simpa using hm
            | succ s =>
              have := b s (by omega)
              have e2 : j + step + s * step = j + (s + 1) * step := by ring
              omega
        · rintro ⟨a, b⟩
          have hm : m ≠ j := by simpa using b 0 (by omega)
          refine ⟨by simpa [hm] using a, ?_⟩
          intro s hs
          have := b (s + 1) (by omega)
          have e2 : j + step + s * step = j + (s + 1) * step := by ring
          omega
    · simp only [hj, if_false]
      exact ⟨seg, 0, by simp, by omega, by intro s hs; omega, by intro m; simp⟩

/-! ## Arithmetic progressions of multiples and carries -/

theorem progression_iff (p m : Nat) :
    (∃ t, m = p * p + t * p) ↔ p * p ≤ m ∧ p ∣ m := by
  constructor
  · rintro ⟨t, rfl⟩
    exact ⟨Nat.le_add_right _ _, Dvd.intro (p + t) (by ring)⟩
  · rintro ⟨h1, h2⟩
    have h3 : p ∣ m - p * p := Nat.dvd_sub' h2 (Dvd.intro p rfl)
    obtain ⟨u, hu⟩ := h3
    exact ⟨u, by rw [Nat.mul_comm u p, ← hu]; omega⟩

theorem crossed_iff (segsize step j t m : Nat) (h1 : segsize ≤ j + t * step)
    (h2 : ∀ s, s < t → j + s * step < segsize) :
    (∃ s, s < t ∧ m = j + s * step) ↔ m < segsize ∧ ∃ s, m = j + s * step := by
  constructor
  · rintro ⟨s, hs, rfl⟩
    exact ⟨h2 s hs, s, rfl⟩
  · rintro ⟨hm, s, rfl⟩
    refine ⟨s, ?_, rfl⟩
    by_contra hc
    have : t * step ≤ s * step := Nat.mul_le_mul_right step (by omega)
    omega

theorem IsCarry.zero (p : Nat) : IsCarry p 0 (p * p) :=
  ⟨⟨0, by simp⟩, fun t _ => by simp⟩

theorem IsCarry.hit_iff {p start c : Nat} (h : IsCarry p start c) (hp : 0 < p) (m : Nat) :
    (∃ s, m = c + s * p) ↔ p * p ≤ start + m ∧ p ∣ start + m := by
  obtain ⟨⟨t0, e0⟩, hl⟩ := h
  rw [← progression_iff p (start + m)]
  constructor
  · rintro ⟨s, rfl⟩
    exact ⟨t0 + s, by rw [Nat.add_mul]; omega⟩
  · rintro ⟨u, hu⟩
    have h1 := hl u (by omega)
    have h2 : t0 ≤ u := by
      by_contra hc
      have : (u + 1) * p ≤ t0 * p := Nat.mul_le_mul_right p (by omega)
      rw [Nat.add_mul] at this
      omega
    refine ⟨u - t0, ?_⟩
    have h3 : u * p = t0 * p + (u - t0) * p := by
      rw [← Nat.add_mul]; congr 1; omega
    omega

theorem IsCarry.advance {p start c : Nat} (h : IsCarry p start c) (hp : 0 < p) (W t : Nat)
    (h1 : W ≤ c + t * p) (h2 : ∀ s, s < t → c + s * p < W) :
    IsCarry p (start + W) (c + t * p - W) := by
  obtain ⟨⟨t0, e0⟩, hl⟩ := h
  constructor
  · exact ⟨t0 + t, by rw [Nat.add_mul]; omega⟩
  · intro u hu
    have h3 := hl u (by omega)
    have h4 : t0 ≤ u := by
      by_contra hc
      have : (u + 1) * p ≤ t0 * p := Nat.mul_le_mul_right p (by omega)
      rw [Nat.add_mul] at this
      omega
    have h5 : u * p = t0 * p + (u - t0) * p := by
      rw [← Nat.add_mul]; congr 1; omega
    have h6 : t ≤ u - t0 := by
      by_contra hc
      have := h2 (u - t0) (by omega)
      omega
    have h7 : t * p ≤ (u - t0) * p := Nat.mul_le_mul_right p h6
    omega

/-! ## The search loop -/

theorem findNextFrom_none (seg : List Bool) : ∀ n j, findNextFrom seg n j = none →
    ∀ m, j ≤ m → m < j + n → seg.getD m false = false := by
  intro n
  induction n with
  | zero => intro j _ m h1 h2; omega
  | succ n ih =>
    intro j h m h1 h2
    unfold findNextFrom at h
    by_cases hj : seg.getD j false = true
    · rw [if_pos hj] at h
      exact absurd h (Option.some_ne_none j)
    · rw [if_neg hj] at h
      rcases Nat.eq_or_lt_of_le h1 with e | l
      · subst e; exact Bool.eq_false_iff.mpr hj
      · exact ih (j + 1) h m l (by omega)

theorem findNextFrom_some (seg : List Bool) : ∀ n j i, findNextFrom seg n j = some i →
    j ≤ i ∧ i < j + n ∧ seg.getD i false = true ∧
      ∀ m, j ≤ m → m < i → seg.getD m false = false := by
  intro n
  induction n with
  | zero => intro j i h; simp [findNextFrom] at h
  | succ n ih =>
    intro j i h
    unfold findNextFrom at h
    by_cases hj : seg.getD j false = true
    · rw [if_pos hj] at h
      have e : j = i := Option.some.inj h
      subst e
      exact ⟨le_refl _, by omega, hj, fun m h1 h2 => by omega⟩
    · rw [if_neg hj] at h
      obtain ⟨a, b, c, d⟩ := ih (j + 1) i h
      refine ⟨by omega, by omega, c, ?_⟩
      intro m h1 h2
      rcases Nat.eq_or_lt_of_le h1 with e | l
      · subst e; exact Bool.eq_false_iff.mpr hj
      · exact d m l h2

/-! ## Lists of primes -/

theorem mem_primesBelow (n p : Nat) : p ∈ primesBelow n ↔ p < n ∧ p.Prime := by
  simp [primesBelow]

theorem mem_primesIn (a w p : Nat) : p ∈ primesIn a w ↔ (a ≤ p ∧ p < a + w) ∧ p.Prime := by
  simp [primesIn, List.mem_range'_1]

theorem primesBelow_add (a w : Nat) : primesBelow (a + w) = primesBelow a ++ primesIn a w := by
  unfold primesBelow primesIn
  rw [← List.filter_append, List.range_eq_range', List.range_eq_range']
  have := List.range'_append 0 a w 1
  simp only [Nat.one_mul, Nat.zero_add] at this
  rw [this, Nat.add_comm]

theorem primesIn_eq_nil (a w : Nat) (h : ∀ m, a ≤ m → m < a + w → ¬ m.Prime) :
    primesIn a w = [] := by
  rw [List.eq_nil_iff_forall_not_mem]
  intro p hp
  rw [mem_primesIn] at hp
  exact h p hp.1.1 hp.1.2 hp.2

theorem primesIn_one_prime (a : Nat) (h : a.Prime) : primesIn a 1 = [a] := by
  simp [primesIn, h]

theorem primesBelow_eq_of_no_prime (a b : Nat) (hab : a ≤ b)
    (h : ∀ m, a ≤ m → m < b → ¬ m.Prime) : primesBelow b = primesBelow a := by
  obtain ⟨w, rfl⟩ := Nat.exists_eq_add_of_le hab
  rw [primesBelow_add, primesIn_eq_nil a w h, List.append_nil]

theorem primesBelow_succ_prime (a : Nat) (h : a.Prime) :
    primesBelow (a + 1) = primesBelow a ++ [a] := by
  rw [primesBelow_add, primesIn_one_prime a h]

theorem primesBelow_two : primesBelow 2 = [] := by
  rw [List.eq_nil_iff_forall_not_mem]
  intro p hp
  rw [mem_primesBelow] at hp
  have := hp.2.two_le
  omega

theorem primesBelow_pairwise (n : Nat) : (primesBelow n).Pairwise (fun a b => a < b) :=
  List.Pairwise.filter _ (List.pairwise_lt_range n)

theorem primesIn_pairwise (a w : Nat) : (primesIn a w).Pairwise (fun a b => a < b) :=
  List.Pairwise.filter _ (List.pairwise_lt_range' a w)

theorem length_primesBelow_le (n : Nat) : (primesBelow n).length + 2 ≤ n ∨ n < 2 := by
  by_cases h : n < 2
  · exact Or.inr h
  · left
    obtain ⟨w, rfl⟩ := Nat.exists_eq_add_of_le (Nat.le_of_not_lt h)
    rw [primesBelow_add, primesBelow_two, List.nil_append]
    have : (primesIn 2 w).length ≤ (List.range' 2 w).length := List.length_filter_le _ _
    simp only [List.length_range'] at this
    omega

/-! ## Arrays of numbers -/

theorem getD_set_nat (l : List Nat) (a v k : Nat) :
    (l.set a v).getD k 0 = if k = a ∧ a < l.length then v else l.getD k 0 := by
  simp only [List.getD_eq_getElem?_getD, List.getElem?_set]
  by_cases h : a = k
  · subst h
    by_cases h2 : a < l.length
    · simp [h2]
    · have : l[a]? = none := List.getElem?_eq_none (by omega)
      simp [h2, this]
  · have h3 : ¬ k = a := fun e => h e.symm
    simp [h, h3]

theorem take_set_succ (l : List Nat) (a v : Nat) (h : a < l.length) :
    (l.set a v).take (a + 1) = l.take a ++ [v] := by
  induction l generalizing a with
  | nil => simp at h
  | cons x xs ih =>
    cases a with
    | zero => simp
    | succ a =>
      simp only [List.length_cons] at h
      simp only [List.set_cons_succ, List.take_succ_cons, List.cons_append, List.cons.injEq,
        true_and]
      exact ih a (by omega)

theorem map_getD_range (l : List Nat) : ∀ n, n ≤ l.length →
    (List.range n).map (fun k => l.getD k 0) = l.take n := by
  intro n
  induction n with
  | zero => intro _; simp
  | succ n ih =>
    intro h
    rw [List.range_succ, List.map_append, ih (by omega), List.take_succ]
    have : l[n]? = some (l.getD n 0) := by
      rw [List.getD_eq_getElem?_getD, List.getElem?_eq_getElem (by omega)]
      simp
    rw [this]
    simp

/-! ## The base sieve -/

theorem Sieved.prime_true {S b : Nat} {seg : List Bool} (h : Sieved S b seg) (q : Nat)
    (hq : q.Prime) (hS : q < S) (hb : b ≤ q) : seg.getD q false = true := by
  rw [h q]
  refine ⟨hq.two_le, hS, ?_⟩
  rintro q1 hq1 hlt ⟨_, hd⟩
  have := (Nat.prime_dvd_prime_iff_eq hq1 hq).mp hd
  omega

theorem Sieved.true_prime {S b : Nat} {seg : List Bool} (h : Sieved S b seg) (m : Nat)
    (hm : seg.getD m false = true)
    (hlow : ∀ k, b ≤ k → k < m → seg.getD k false = false) : m.Prime := by
  obtain ⟨h2, hS, hq⟩ := (h m).mp hm
  by_contra hc
  have hp : (Nat.minFac m).Prime := Nat.minFac_prime (by omega)
  have hd : Nat.minFac m ∣ m := Nat.minFac_dvd m
  have hsq : Nat.minFac m * Nat.minFac m ≤ m := by
    have := Nat.minFac_sq_le_self (by omega : 0 < m) hc
    rwa [sq] at this
  have hge : b ≤ Nat.minFac m := by
    by_contra hlt
    exact hq _ hp (by omega) ⟨hsq, hd⟩
  have hlt : Nat.minFac m < m := by
    have := hp.two_le
    nlinarith
  have h1 := h.prime_true _ hp (by omega) hge
  have h3 := hlow _ hge hlt
  rw [h1] at h3
  exact Bool.noConfusion h3

theorem Sieved.mono {S b : Nat} {seg : List Bool} (h : Sieved S b seg) (b1 : Nat)
    (hb : b ≤ b1) (hno : ∀ m, b ≤ m → m < b1 → ¬ m.Prime) : Sieved S b1 seg := by
  intro m
  rw [h m]
  constructor
  · rintro ⟨h2, hS, hq⟩
    refine ⟨h2, hS, ?_⟩
    intro q hq1 hlt
    by_cases hqb : q < b
    · exact hq q hq1 hqb
    · exact absurd hq1 (hno q (by omega) hlt)
  · rintro ⟨h2, hS, hq⟩
    exact ⟨h2, hS, fun q hq1 hlt => hq q hq1 (by omega)⟩

theorem Sieved.cross {S i t : Nat} {seg seg1 : List Bool} (h : Sieved S i seg) (hi : i.Prime)
    (h1 : S ≤ i * i + t * i) (h2 : ∀ s, s < t → i * i + s * i < S)
    (h3 : ∀ m, (seg1.getD m false = true ↔
      seg.getD m false = true ∧ ∀ s, s < t → m ≠ i * i + s * i)) :
    Sieved S (i + 1) seg1 := by
  intro m
  rw [h3 m, h m]
  have key : (∀ s, s < t → m ≠ i * i + s * i) ↔ ¬ (m < S ∧ i * i ≤ m ∧ i ∣ m) := by
    rw [← progression_iff i m, ← crossed_iff S i (i * i) t m h1 h2]
    constructor
    · rintro a ⟨s, hs, e⟩
      exact a s hs e
    · intro a s hs e
      exact a ⟨s, hs, e⟩
  rw [key]
  constructor
  · rintro ⟨⟨a, b, c⟩, d⟩
    refine ⟨a, b, ?_⟩
    intro q hq hlt hh
    rcases Nat.lt_succ_iff_lt_or_eq.mp hlt with l | e
    · exact c q hq l hh
    · subst e; exact d ⟨b, hh⟩
  · rintro ⟨a, b, c⟩
    exact ⟨⟨a, b, fun q hq hlt => c q hq (by omega)⟩, fun hh => c i hi (by omega) hh.2⟩

theorem sieved_firstSegment (S : Nat) : Sieved S 2 (firstSegment S) := by
  intro m
  rw [getD_firstSegment]
  simp only [decide_eq_true_eq]
  constructor
  · rintro ⟨a, b⟩
    refine ⟨a, b, ?_⟩
    intro q hq hlt
    have := hq.two_le
    omega
  · rintro ⟨a, b, _⟩
    exact ⟨a, b⟩

/-- The loop of `sivfirstseg`, entered at a prime cursor `i` with the segment sieved by
the primes below `i` and these primes stored with their carries, returns with all
primes below `S` stored with their carries. -/
theorem sivfirstsegLoop_spec (S : Nat) : ∀ fuel seg i st, 2 * S - i ≤ fuel → i < S →
    i.Prime → st.found + 2 ≤ i → S ≤ st.primes.length → S ≤ st.next.length →
    Sieved S i seg → st.primes.take st.found = primesBelow i →
    (∀ k, k < st.found → IsCarry (st.primes.getD k 0) S (st.next.getD k 0)) →
    ∃ st1, sivfirstsegLoop fuel S seg i st = some st1 ∧
      st1.primes.length = st.primes.length ∧ st1.next.length = st.next.length ∧
      st1.found + 2 ≤ S ∧ st1.primes.take st1.found = primesBelow S ∧
      ∀ k, k < st1.found → IsCarry (st1.primes.getD k 0) S (st1.next.getD k 0) := by
  intro fuel
  induction fuel with
  | zero => intro seg i st hf hi; omega
  | succ fuel ih =>
    intro seg i st hf hiS hip hfound hlp hln hsv htake hcarry
    have hi2 := hip.two_le
    have hii : 0 < i * i := Nat.mul_pos (by omega) (by omega)
    obtain ⟨seg1, t, e, h1, h2, h3⟩ :=
      crossOut_spec S i (by omega) fuel seg (i * i) (by omega)
    have hsv1 : Sieved S (i + 1) seg1 := hsv.cross hip h1 h2 h3
    -- the arrays after the two writes
    have htake1 : (st.primes.set st.found i).take (st.found + 1) = primesBelow (i + 1) := by
      rw [take_set_succ _ _ _ (by omega), htake, primesBelow_succ_prime i hip]
    have hcarry1 : ∀ k, k < st.found + 1 →
        IsCarry ((st.primes.set st.found i).getD k 0) S
          ((st.next.set st.found (i * i + t * i - S)).getD k 0) := by
      intro k hk
      rw [getD_set_nat, getD_set_nat]
      by_cases hkf : k = st.found
      · have a1 : k = st.found ∧ st.found < st.primes.length := ⟨hkf, by omega⟩
        have a2 : k = st.found ∧ st.found < st.next.length := ⟨hkf, by omega⟩
        rw [if_pos a1, if_pos a2]
        have := (IsCarry.zero i).advance (by omega) S t h1 h2
        simpa using this
      · have a1 : ¬ (k = st.found ∧ st.found < st.primes.length) := fun a => hkf a.1
        have a2 : ¬ (k = st.found ∧ st.found < st.next.length) := fun a => hkf a.1
        rw [if_neg a1, if_neg a2]
        exact hcarry k (by omega)
    unfold sivfirstsegLoop
    simp only [e]
    cases hfn : findNext seg1 S i with
    | none =>
      simp only []
      refine ⟨_, rfl, by simp, by simp, by simp only []; omega, ?_, hcarry1⟩
      simp only []
      rw [htake1]
      symm
      apply primesBelow_eq_of_no_prime (i + 1) S (by omega)
      intro m hm1 hm2 hmp
      have a := hsv1.prime_true m hmp hm2 hm1
      have b := findNextFrom_none seg1 _ _ hfn m hm1 (by omega)
      rw [a] at b
      exact Bool.noConfusion b
    | some i1 =>
      simp only []
      obtain ⟨b1, b2, b3, b4⟩ := findNextFrom_some seg1 _ _ _ hfn
      have hno : ∀ m, i + 1 ≤ m → m < i1 → ¬ m.Prime := by
        intro m hm1 hm2 hmp
        have a := hsv1.prime_true m hmp (by omega) hm1
        have b := b4 m hm1 hm2
        rw [a] at b
        exact Bool.noConfusion b
      have hi1p : i1.Prime := hsv1.true_prime i1 b3 b4
      obtain ⟨st1, e1, c1, c2, c3, c4, c5⟩ :=
        ih seg1 i1 { primes := st.primes.set st.found i,
                     next := st.next.set st.found (i * i + t * i - S),
                     found := st.found + 1 }
          (by omega) (by omega) hi1p (by simp only []; omega) (by simpa using hlp)
          (by simpa using hln) (hsv1.mono i1 b1 hno)
          (by
            simp only []
            rw [htake1]
            exact (primesBelow_eq_of_no_prime (i + 1) i1 b1 hno).symm)
          hcarry1
      exact ⟨st1, e1, by simpa using c1, by simpa using c2, c3, c4, c5⟩

/-- The base sieve, called with arrays of at least `S` cells and `S ≥ 3`, stores and
prints the primes below `S`, and stores the carry of each of them for a window
beginning at `S`. -/
theorem sivfirstseg_spec (S fuel : Nat) (primes next : List Nat) (hS : 3 ≤ S)
    (hf : 2 * S ≤ fuel) (hlp : S ≤ primes.length) (hln : S ≤ next.length) :
    ∃ b, sivfirstseg fuel primes next S = some b ∧
      b.emitted = primesBelow S ∧ b.found = (primesBelow S).length ∧
      b.primes.take b.found = primesBelow S ∧
      b.primes.length = primes.length ∧ b.next.length = next.length ∧
      b.found + 2 ≤ S ∧
      ∀ k, k < b.found → IsCarry (b.primes.getD k 0) S (b.next.getD k 0) := by
  obtain ⟨st1, e1, c1, c2, c3, c4, c5⟩ :=
    sivfirstsegLoop_spec S fuel (firstSegment S) 2
      { primes := primes, next := next, found := 0 } (by omega) (by omega) Nat.prime_two
      (by simp) hlp hln (sieved_firstSegment S) (by simp [primesBelow_two]) (by simp)
  simp only [] at c1 c2
  have hlen : st1.found = (primesBelow S).length := by
    rw [← c4, List.length_take]
    omega
  unfold sivfirstseg
  simp only [e1]
  refine ⟨_, rfl, ?_, hlen, c4, c1, c2, c3, c5⟩
  simp only []
  rw [map_getD_range _ _ (by omega), c4]

/-! ## The segment sieve -/

/-- Effect of the sieving loop of `sivseg` on the segment and on the carries, for
positive `xprimes[i .. i + n)`. -/
theorem sieveLoop_spec (fuel W : Nat) (xprimes : List Nat) (hf : W < fuel) :
    ∀ n seg next i, (∀ k, i ≤ k → k < i + n → 0 < xprimes.getD k 0) →
    ∃ seg1 next1, sieveLoop fuel xprimes W seg next n i = some (seg1, next1) ∧
      next1.length = next.length ∧
      (∀ m, (seg1.getD m false = true ↔ seg.getD m false = true ∧
        ∀ k, i ≤ k → k < i + n →
          ¬ (m < W ∧ ∃ s, m = next.getD k 0 + s * xprimes.getD k 0))) ∧
      (∀ k, k < i ∨ i + n ≤ k → next1.getD k 0 = next.getD k 0) ∧
      (i + n ≤ next.length → ∀ k, i ≤ k → k < i + n →
        ∃ t, next1.getD k 0 = next.getD k 0 + t * xprimes.getD k 0 - W ∧
          W ≤ next.getD k 0 + t * xprimes.getD k 0 ∧
          ∀ s, s < t → next.getD k 0 + s * xprimes.getD k 0 < W) := by
  intro n
  induction n with
  | zero =>
    intro seg next i _
    refine ⟨seg, next, rfl, rfl, ?_, fun _ _ => rfl, ?_⟩
    · intro m
      constructor
      · intro h; exact ⟨h, fun k h1 h2 => by omega⟩
      · intro h; exact h.1
    · intro _ k h1 h2; omega
  | succ n ih =>
    intro seg next i hpos
    obtain ⟨seg1, t, e, h1, h2, h3⟩ :=
      crossOut_spec W (xprimes.getD i 0) (hpos i (le_refl _) (by omega)) fuel seg
        (next.getD i 0) (by omega)
    obtain ⟨seg2, next2, e2, c1, c2, c3, c4⟩ :=
      ih seg1 (next.set i (next.getD i 0 + t * xprimes.getD i 0 - W)) (i + 1)
        (fun k hk1 hk2 => hpos k (by omega) (by omega))
    have hread : ∀ k, i + 1 ≤ k →
        (next.set i (next.getD i 0 + t * xprimes.getD i 0 - W)).getD k 0 = next.getD k 0 := by
      intro k hk
      rw [getD_set_nat, if_neg (fun a => by omega)]
    unfold sieveLoop
    simp only [e]
    refine ⟨seg2, next2, e2, by rw [c1, List.length_set], ?_, ?_, ?_⟩
    · intro m
      rw [c2 m, h3 m]
      have key : (∀ s, s < t → m ≠ next.getD i 0 + s * xprimes.getD i 0) ↔
          ¬ (m < W ∧ ∃ s, m = next.getD i 0 + s * xprimes.getD i 0) := by
        rw [← crossed_iff W _ _ t m h1 h2]
        constructor
        · rintro a ⟨s, hs, e⟩
          exact a s hs e
        · intro a s hs e
          exact a ⟨s, hs, e⟩
      rw [key]
      constructor
      · rintro ⟨⟨a, b⟩, c⟩
        refine ⟨a, ?_⟩
        intro k hk1 hk2
        rcases Nat.eq_or_lt_of_le hk1 with e | l
        · subst e; exact b
        · have := c k l (by omega)
          rwa [hread k l] at this
      · rintro ⟨a, b⟩
        refine ⟨⟨a, b i (le_refl _) (by omega)⟩, ?_⟩
        intro k hk1 hk2
        rw [hread k hk1]
        exact b k (by omega) (by omega)
    · intro k hk
      rw [c3 k (by omega), getD_set_nat, if_neg (fun a => by omega)]
    · intro hlen k hk1 hk2
      rcases Nat.eq_or_lt_of_le hk1 with e | l
      · subst e
        refine ⟨t, ?_, h1, h2⟩
        rw [c3 i (Or.inl (by omega)), getD_set_nat, if_pos ⟨rfl, by omega⟩]
      · obtain ⟨t1, d1, d2, d3⟩ := c4 (by rw [List.length_set]; omega) k l (by omega)
        rw [hread k l] at d1 d2 d3
        exact ⟨t1, d1, d2, d3⟩

/-- The printing loop of `sivseg` prints `i + startnum` for the marked positions in
increasing order and adds their number to `numof_primes`. -/
theorem printLoop_spec (seg : List Bool) (start : Nat) : ∀ n i c,
    printLoop seg start n i c =
      (((List.range' i n).filter (fun j => seg.getD j false)).map (fun j => j + start),
       c + ((List.range' i n).filter (fun j => seg.getD j false)).length) := by
  intro n
  induction n with
  | zero => intro i c; simp [printLoop]
  | succ n ih =>
    intro i c
    unfold printLoop
    rw [List.range'_succ]
    by_cases h : seg.getD i false = true
    · rw [if_pos h, ih]
      simp only [List.filter_cons, h, if_true, List.map_cons, List.length_cons, Prod.mk.injEq,
        true_and]
      omega
    · rw [if_neg h, ih]
      have h1 : seg.getD i false = false := Bool.eq_false_iff.mpr h
      simp only [List.filter_cons, h1, Bool.false_eq_true, if_false]

theorem prime_iff_not_crossed (S m : Nat) (h1 : 2 ≤ m) (h2 : S ≤ m) (h3 : m < S * S) :
    m.Prime ↔ ∀ q, q.Prime → q < S → ¬ (q * q ≤ m ∧ q ∣ m) := by
  constructor
  · rintro hm q hq hlt ⟨_, hd⟩
    have := (Nat.prime_dvd_prime_iff_eq hq hm).mp hd
    omega
  · intro h
    by_contra hc
    have hp : (Nat.minFac m).Prime := Nat.minFac_prime (by omega)
    have hsq : Nat.minFac m * Nat.minFac m ≤ m := by
      have := Nat.minFac_sq_le_self (by omega : 0 < m) hc
      rwa [sq] at this
    have hlt : Nat.minFac m < S := by
      by_contra hge
      have : S * S ≤ Nat.minFac m * Nat.minFac m :=
        Nat.mul_le_mul (by omega) (by omega)
      omega
    exact h _ hp hlt ⟨hsq, Nat.minFac_dvd m⟩

/-- Reading the stored base primes: the cells `xprimes[0 .. n)` hold exactly the primes
below `S`. -/
theorem xprimes_facts (S n : Nat) (xprimes : List Nat) (hx : xprimes.take n = primesBelow S)
    (hn : n = (primesBelow S).length) :
    (∀ k, k < n → (xprimes.getD k 0).Prime ∧ xprimes.getD k 0 < S) ∧
      ∀ q, q.Prime → q < S → ∃ k, k < n ∧ xprimes.getD k 0 = q := by
  have hlen : n ≤ xprimes.length := by
    have := congrArg List.length hx
    rw [List.length_take] at this
    omega
  have hget : ∀ k, k < n → (primesBelow S)[k]? = some (xprimes.getD k 0) := by
    intro k hk
    rw [← hx, List.getElem?_take_of_lt hk, List.getD_eq_getElem?_getD,
      List.getElem?_eq_getElem (by omega)]
    simp
  constructor
  · intro k hk
    have hm : xprimes.getD k 0 ∈ primesBelow S := List.getElem?_mem (hget k hk)
    rw [mem_primesBelow] at hm
    exact ⟨hm.2, hm.1⟩
  · intro q hq hlt
    have hm : q ∈ primesBelow S := (mem_primesBelow S q).mpr ⟨hlt, hq⟩
    obtain ⟨k, hk, e⟩ := List.mem_iff_getElem.mp hm
    refine ⟨k, by omega, ?_⟩
    have h1 := hget k (by omega)
    rw [List.getElem?_eq_getElem hk, e] at h1
    exact (Option.some.inj h1).symm

/-- The segment sieve on a window `[start, start + W)` lying in `[S, S * S]`, called
with the primes below `S` and their carries for `start`: it prints the primes of the
window, returns their number, and leaves the carries for `start + W`. -/
theorem sivseg_spec (S start W n fuel : Nat) (xprimes next : List Nat) (hS : 2 ≤ S)
    (hst : S ≤ start) (hW : start + W ≤ S * S) (hx : xprimes.take n = primesBelow S)
    (hn : n = (primesBelow S).length)
    (hc : ∀ k, k < n → IsCarry (xprimes.getD k 0) start (next.getD k 0)) (hf : W < fuel) :
    ∃ r, sivseg fuel xprimes next W n start = some r ∧
      r.emitted = primesIn start W ∧ r.count = (primesIn start W).length ∧
      r.next.length = next.length ∧
      (n ≤ next.length →
        ∀ k, k < n → IsCarry (xprimes.getD k 0) (start + W) (r.next.getD k 0)) := by
  obtain ⟨hA, hB⟩ := xprimes_facts S n xprimes hx hn
  obtain ⟨seg1, next1, e, c1, c2, c3, c4⟩ :=
    sieveLoop_spec fuel W xprimes hf n (List.replicate W true) next 0
      (fun k _ hk => (hA k (by omega)).1.pos)
  have hseg : ∀ j, j < W → (seg1.getD j false = true ↔ (start + j).Prime) := by
    intro j hj
    rw [c2 j, getD_replicate_true, prime_iff_not_crossed S (start + j) (by omega) (by omega)
      (by omega)]
    simp only [decide_eq_true_eq]
    constructor
    · rintro ⟨_, a⟩ q hq hlt hh
      obtain ⟨k, hk, rfl⟩ := hB q hq hlt
      apply a k (Nat.zero_le _) (by omega)
      exact ⟨hj, ((hc k hk).hit_iff (hA k hk).1.pos j).mpr hh⟩
    · intro a
      refine ⟨hj, ?_⟩
      rintro k _ hk ⟨_, hh⟩
      have hk1 : k < n := by omega
      exact a _ (hA k hk1).1 (hA k hk1).2 (((hc k hk1).hit_iff (hA k hk1).1.pos j).mp hh)
  have hfilter : (List.range' 0 W).filter (fun j => seg1.getD j false) =
      (List.range' 0 W).filter (fun j => decide ((start + j).Prime)) := by
    apply List.filter_congr
    intro j hj
    rw [List.mem_range'_1] at hj
    have := hseg j (by omega)
    show seg1.getD j false = decide ((start + j).Prime)
    by_cases hp : (start + j).Prime
    · rw [this.mpr hp]
      exact (decide_eq_true hp).symm
    · have h1 : ¬ seg1.getD j false = true := fun a => hp (this.mp a)
      rw [Bool.eq_false_iff.mpr h1]
      exact (decide_eq_false hp).symm
  have hout : ((List.range' 0 W).filter (fun j => seg1.getD j false)).map (fun j => j + start) =
      primesIn start W := by
    rw [hfilter]
    unfold primesIn
    rw [List.range'_eq_map_range start W, List.filter_map, ← List.range_eq_range']
    apply List.map_congr_left
    intro j _
    exact Nat.add_comm j start
  unfold sivseg
  simp only [e, printLoop_spec, Nat.zero_add]
  refine ⟨_, rfl, hout, ?_, c1, ?_⟩
  · simp only []
    rw [← hout, List.length_map]
  · intro hlen k hk
    obtain ⟨t, d1, d2, d3⟩ := c4 (by omega) k (Nat.zero_le _) (by omega)
    simp only []
    rw [d1]
    exact (hc k hk).advance (hA k hk).1.pos W t d2 d3

/-! ## The driver -/

theorem Tiles.snoc {a b : Nat} {cs : List SegCall} (h : Tiles a b cs) (c : SegCall)
    (hc : c.startnum = b) : Tiles a (b + c.segsize) (cs ++ [c]) := by
  induction cs generalizing a with
  | nil =>
    simp only [Tiles] at h
    subst h
    simp [Tiles, hc]
  | cons d ds ih =>
    simp only [Tiles] at h
    simp only [List.cons_append, Tiles]
    exact ⟨h.1, ih h.2⟩

/-- The window loop of `siv`: entered at `i` with everything below `i` written and the
carries set for `i`, it returns with everything below `N` written. -/
theorem sivLoop_spec (N S : Nat) (b : FirstResult) (hS : 2 ≤ S) (hN : N ≤ S * S)
    (hx : b.primes.take b.found = primesBelow S) (hn : b.found = (primesBelow S).length) :
    ∀ fuel segsize i next acc, (N - i) + S + 2 ≤ fuel → S ≤ i → i ≤ N →
    (i < N → segsize = S ∧ S ∣ i) → b.found ≤ next.length →
    (∀ k, k < b.found → IsCarry (b.primes.getD k 0) i (next.getD k 0)) →
    AccOk N S b i acc →
    ∃ r, sivLoop fuel N b.primes b.found segsize i next acc = some r ∧ AccOk N S b N r := by
  intro fuel
  induction fuel with
  | zero => intro segsize i next acc hf; omega
  | succ fuel ih =>
    intro segsize i next acc hf hSi hiN hseg hlen hcarry hacc
    unfold sivLoop
    by_cases hlt : i < N
    · obtain ⟨rfl, hdvd⟩ := hseg hlt
      simp only [hlt, if_true]
      have hW : (if i + segsize > N then N - i else segsize) = min segsize (N - i) := by
        by_cases h : i + segsize > N
        · rw [if_pos h]; omega
        · rw [if_neg h]; omega
      rw [hW]
      obtain ⟨r, e, r1, r2, r3, r4⟩ :=
        sivseg_spec segsize i (min segsize (N - i)) b.found fuel b.primes next hS hSi
          (by omega) hx hn hcarry (by omega)
      simp only [e]
      apply ih
      · omega
      · omega
      · omega
      · intro h
        have : min segsize (N - i) = segsize := by omega
        rw [this]
        exact ⟨rfl, Dvd.dvd.add hdvd (dvd_refl _)⟩
      · omega
      · exact r4 hlen
      · constructor
        · simp only []
          rw [hacc.emitted_eq, r1, primesBelow_add]
        · simp only [List.length_append]
          rw [hacc.numof_eq, r2, r1]
        · exact hacc.base_eq
        · exact Tiles.snoc hacc.tiles
            { segsizeIn := segsize, segsize := min segsize (N - i), startnum := i,
              xprimes := b.primes, numof_xprimes := b.found, next := next,
              emitted := r.emitted, count := r.count } rfl
        · intro c hc
          simp only [List.mem_append, List.mem_singleton] at hc
          rcases hc with hc | rfl
          · exact hacc.calls_ok c hc
          · exact ⟨rfl, rfl, hSi, hlt, hdvd, rfl, rfl, hcarry, r1, by rw [r2, r1]⟩
        · simp only [List.map_append, List.flatten_append, List.map_cons, List.map_nil,
            List.flatten_cons, List.flatten_nil, List.append_nil]
          rw [hacc.emitted_split, List.append_assoc]
        · simp only [List.map_append, List.sum_append, List.map_cons, List.map_nil,
            List.sum_cons, List.sum_nil, Nat.add_zero]
          rw [hacc.numof_split, Nat.add_assoc]
    · simp only [hlt, if_false]
      have : i = N := by omega
      subst this
      exact ⟨acc, rfl, hacc⟩

/-- Facts about a finished run of `siv`. -/
theorem siv_spec_small (N fuel : Nat) (hN : N < 5) :
    siv fuel N = some { emitted := primesBelow N, numof_primes := (primesBelow N).length,
                        base := none, calls := [] } := by
  have h3 : primesBelow 3 = [2] := by
    rw [primesBelow_succ_prime 2 Nat.prime_two, primesBelow_two]; rfl
  have h4 : primesBelow 4 = [2, 3] := by
    rw [primesBelow_succ_prime 3 Nat.prime_three, h3]; rfl
  have h0 : primesBelow 0 = [] := rfl
  have h1 : primesBelow 1 = [] := by
    rw [primesBelow_eq_of_no_prime 0 1 (by omega) (by intro m _ hm hp; have := hp.two_le; omega)]
    rfl
  unfold siv
  have : N = 0 ∨ N = 1 ∨ N = 2 ∨ N = 3 ∨ N = 4 := by omega
  rcases this with rfl | rfl | rfl | rfl | rfl
  · simp [h0]
  · simp [h1]
  · simp [primesBelow_two]
  · simp [h3]
  · simp [h4]

/-- A run of `siv` on a bound `N ≥ 5` with enough fuel returns, after a base sieve call
on `ceilSqrt N` that found the primes below it, with everything below `N` written. -/
theorem siv_spec_large (N fuel : Nat) (hN : 5 ≤ N) (hf : N + 2 ≤ fuel) :
    ∃ r b, siv fuel N = some r ∧ AccOk N (ceilSqrt N) b N r ∧
      b.emitted = primesBelow (ceilSqrt N) ∧ b.found = (primesBelow (ceilSqrt N)).length ∧
      b.primes.take b.found = primesBelow (ceilSqrt N) ∧
      b.primes.length = ceilSqrt N ∧ b.found + 2 ≤ ceilSqrt N ∧
      (∀ k, k < b.found → IsCarry (b.primes.getD k 0) (ceilSqrt N) (b.next.getD k 0)) ∧
      b.next.length = ceilSqrt N := by
  have hS := ceilSqrt_ge_three N hN
  have hSN := ceilSqrt_le_self N
  have h2S := two_mul_ceilSqrt_le N
  obtain ⟨b, e, b1, b2, b3, b4, b5, b6, b7⟩ :=
    sivfirstseg_spec (ceilSqrt N) fuel (List.replicate (ceilSqrt N) 0)
      (List.replicate (ceilSqrt N) 0) hS (by omega) (by simp) (by simp)
  simp only [List.length_replicate] at b4 b5
  obtain ⟨r, er, hr⟩ :=
    sivLoop_spec N (ceilSqrt N) b (by omega) (ceilSqrt_spec N).1 b3 b2 fuel (ceilSqrt N)
      (ceilSqrt N) b.next
      { emitted := b.emitted, numof_primes := b.found, base := some b, calls := [] }
      (by omega) (le_refl _) hSN (fun _ => ⟨rfl, dvd_refl _⟩) (by omega) b7
      ⟨b1, by simp only []; rw [b2, b1], rfl, rfl, by simp, by simp, by simp⟩
  refine ⟨r, b, ?_, hr, b1, b2, b3, b4, b6, b7, b5⟩
  unfold siv
  have : ¬ N < 5 := by omega
  simp only [this, if_false, e]
  exact er

/-! ## More fuel does not change a result -/

theorem crossOut_mono (segsize step : Nat) : ∀ f seg j x, crossOut f seg segsize step j = some x →
    ∀ g, f ≤ g → crossOut g seg segsize step j = some x := by
  intro f
  induction f with
  | zero => intro seg j x h; simp [crossOut] at h
  | succ f ih =>
    intro seg j x h g hg
    obtain ⟨g1, rfl⟩ : ∃ g1, g = g1 + 1 := ⟨g - 1, by omega⟩
    unfold crossOut at h ⊢
    by_cases hj : j < segsize
    · rw [if_pos hj] at h ⊢
      exact ih _ _ _ h g1 (by omega)
    · rw [if_neg hj] at h ⊢
      exact h

theorem sivfirstsegLoop_mono (S : Nat) : ∀ f seg i st x,
    sivfirstsegLoop f S seg i st = some x →
    ∀ g, f ≤ g → sivfirstsegLoop g S seg i st = some x := by
  intro f
  induction f with
  | zero => intro seg i st x h; simp [sivfirstsegLoop] at h
  | succ f ih =>
    intro seg i st x h g hg
    obtain ⟨g1, rfl⟩ : ∃ g1, g = g1 + 1 := ⟨g - 1, by omega⟩
    unfold sivfirstsegLoop at h ⊢
    cases hc : crossOut f seg S i (i * i) with
    | none =>
      rw [hc] at h
      exact Option.noConfusion h
    | some y =>
      obtain ⟨seg1, j⟩ := y
      rw [crossOut_mono S i f seg (i * i) _ hc g1 (by omega)]
      simp only [hc] at h
      simp only []
      cases hn : findNext seg1 S i with
      | none =>
        simp only [hn] at h
        exact h
      | some i1 =>
        simp only [hn] at h
        exact ih _ _ _ _ h g1 (by omega)

theorem sivfirstseg_mono (S f g : Nat) (primes next : List Nat) (x : FirstResult)
    (h : sivfirstseg f primes next S = some x) (hg : f ≤ g) :
    sivfirstseg g primes next S = some x := by
  unfold sivfirstseg at h ⊢
  cases hc : sivfirstsegLoop f S (firstSegment S) 2 { primes := primes, next := next, found := 0 }
    with
  | none =>
    rw [hc] at h
    exact Option.noConfusion h
  | some st =>
    rw [sivfirstsegLoop_mono S f _ _ _ _ hc g hg]
    simp only [hc] at h
    exact h

theorem sieveLoop_mono (f g W : Nat) (xprimes : List Nat) (hg : f ≤ g) : ∀ n seg next i x,
    sieveLoop f xprimes W seg next n i = some x → sieveLoop g xprimes W seg next n i = some x := by
  intro n
  induction n with
  | zero => intro seg next i x h; simpa [sieveLoop] using h
  | succ n ih =>
    intro seg next i x h
    unfold sieveLoop at h ⊢
    cases hc : crossOut f seg W (xprimes.getD i 0) (next.getD i 0) with
    | none =>
      rw [hc] at h
      exact Option.noConfusion h
    | some y =>
      obtain ⟨seg1, j⟩ := y
      rw [crossOut_mono W _ f seg _ _ hc g hg]
      simp only [hc] at h
      exact ih _ _ _ _ h

theorem sivseg_mono (f g W n start : Nat) (xprimes next : List Nat) (x : SegResult)
    (h : sivseg f xprimes next W n start = some x) (hg : f ≤ g) :
    sivseg g xprimes next W n start = some x := by
  unfold sivseg at h ⊢
  cases hc : sieveLoop f xprimes W (List.replicate W true) next n 0 with
  | none =>
    rw [hc] at h
    exact Option.noConfusion h
  | some y =>
    rw [sieveLoop_mono f g W xprimes hg _ _ _ _ _ hc]
    simp only [hc] at h
    exact h

theorem sivLoop_mono (N n : Nat) (xprimes : List Nat) : ∀ f segsize i next acc x,
    sivLoop f N xprimes n segsize i next acc = some x →
    ∀ g, f ≤ g → sivLoop g N xprimes n segsize i next acc = some x := by
  intro f
  induction f with
  | zero => intro segsize i next acc x h; simp [sivLoop] at h
  | succ f ih =>
    intro segsize i next acc x h g hg
    obtain ⟨g1, rfl⟩ : ∃ g1, g = g1 + 1 := ⟨g - 1, by omega⟩
    unfold sivLoop at h ⊢
    by_cases hlt : i < N
    · rw [if_pos hlt] at h ⊢
      simp only [] at h ⊢
      cases hc : sivseg f xprimes next (if i + segsize > N then N - i else segsize) n i with
      | none =>
        rw [hc] at h
        exact Option.noConfusion h
      | some y =>
        rw [sivseg_mono f g1 _ _ _ _ _ _ hc (by omega)]
        simp only [hc] at h
        exact ih _ _ _ _ _ h g1 (by omega)
    · rw [if_neg hlt] at h ⊢
      exact h

theorem siv_mono (N f g : Nat) (x : SivResult) (h : siv f N = some x) (hg : f ≤ g) :
    siv g N = some x := by
  unfold siv at h ⊢
  by_cases hN : N < 5
  · rw [if_pos hN] at h ⊢
    exact h
  · rw [if_neg hN] at h ⊢
    simp only [] at h ⊢
    cases hc : sivfirstseg f (List.replicate (ceilSqrt N) 0) (List.replicate (ceilSqrt N) 0)
      (ceilSqrt N) with
    | none =>
      rw [hc] at h
      exact Option.noConfusion h
    | some b =>
      rw [sivfirstseg_mono _ f g _ _ _ hc hg]
      simp only [hc] at h
      exact sivLoop_mono _ _ _ _ _ _ _ _ _ h g hg

/-- Two runs of `siv` on the same bound that both return, return the same. -/
theorem siv_unique (N f g : Nat) (x y : SivResult) (hx : siv f N = some x)
    (hy : siv g N = some y) : x = y := by
  have h1 := siv_mono N f (max f g) x hx (Nat.le_max_left _ _)
  have h2 := siv_mono N g (max f g) y hy (Nat.le_max_right _ _)
  rw [h1] at h2
  exact Option.some.inj h2

/-! ## Finished runs of the driver -/

theorem Tiles.start_ge {a b : Nat} {cs : List SegCall} (h : Tiles a b cs) :
    ∀ c, c ∈ cs → a ≤ c.startnum := by
  induction cs generalizing a with
  | nil => intro c hc; simp at hc
  | cons d ds ih =>
    simp only [Tiles] at h
    intro c hc
    rcases List.mem_cons.mp hc with rfl | hc
    · omega
    · have := ih h.2 c hc
      omega

theorem Tiles.pairwise {a b : Nat} {cs : List SegCall} (h : Tiles a b cs) :
    cs.Pairwise (fun c d => c.startnum + c.segsize ≤ d.startnum) := by
  induction cs generalizing a with
  | nil => exact List.Pairwise.nil
  | cons d ds ih =>
    simp only [Tiles] at h
    refine List.Pairwise.cons ?_ (ih h.2)
    intro c hc
    have := h.2.start_ge c hc
    omega

theorem Tiles.exists_last {a b : Nat} {cs : List SegCall} (h : Tiles a b cs) (hab : a ≠ b) :
    ∃ c, c ∈ cs ∧ c.startnum + c.segsize = b := by
  induction cs generalizing a with
  | nil => exact absurd h hab
  | cons d ds ih =>
    simp only [Tiles] at h
    by_cases e : a + d.segsize = b
    · exact ⟨d, List.mem_cons_self _ _, by omega⟩
    · obtain ⟨c, hc, hcb⟩ := ih h.2 e
      exact ⟨c, List.mem_cons_of_mem _ hc, hcb⟩

theorem CallOk.size_bounds {N S n : Nat} {xp : List Nat} {c : SegCall} (h : CallOk N S xp n c)
    (hS : 0 < S) : 1 ≤ c.segsize ∧ c.segsize ≤ S ∧ c.startnum + c.segsize ≤ N := by
  have h1 := h.segsize_eq
  have h2 := h.start_lt
  omega

/-- The outcome of `siv` on any bound. -/
theorem siv_outcome (N : Nat) :
    ∃ r, SivReturns N r ∧ r.emitted = primesBelow N ∧
      r.numof_primes = (primesBelow N).length ∧
      (N < 5 → r.base = none ∧ r.calls = []) ∧
      (5 ≤ N → ∃ b, AccOk N (ceilSqrt N) b N r ∧
        b.emitted = primesBelow (ceilSqrt N) ∧ b.found = (primesBelow (ceilSqrt N)).length ∧
        b.primes.take b.found = primesBelow (ceilSqrt N) ∧ b.primes.length = ceilSqrt N ∧
        b.found + 2 ≤ ceilSqrt N ∧
        (∀ k, k < b.found → IsCarry (b.primes.getD k 0) (ceilSqrt N) (b.next.getD k 0)) ∧
        b.next.length = ceilSqrt N) := by
  by_cases hN : N < 5
  · refine ⟨_, ⟨fun fuel _ => siv_spec_small N fuel hN, ?_⟩, rfl, rfl, fun _ => ⟨rfl, rfl⟩,
      fun h => by omega⟩
    intro fuel r1 h1
    rw [siv_spec_small N fuel hN] at h1
    exact (Option.some.inj h1).symm
  · obtain ⟨r, b, e, hacc, hb⟩ := siv_spec_large N (N + 2) (by omega) (le_refl _)
    refine ⟨r, ⟨fun fuel hf => siv_mono N _ fuel r e hf, ?_⟩, hacc.emitted_eq, ?_,
      fun h => absurd h hN, fun _ => ⟨b, hacc, hb⟩⟩
    · intro fuel r1 h1
      exact siv_unique N _ _ _ _ h1 e
    · rw [hacc.numof_eq, hacc.emitted_eq]

/-! ## Theorems on the claims -/

/-- C1: for every bound `N ≥ 2` the driver returns, and the sequence it has emitted (for
`N ≥ 5`: the output of the base sieve followed by the outputs of the segment sieve
calls in call order) is the increasing list of all primes below `N`. -/
theorem siv_emits_primes_below (N : Nat) (_hN : 2 ≤ N) :
    ∃ r, SivReturns N r ∧ r.emitted = primesBelow N ∧
      (5 ≤ N → ∃ b, r.base = some b ∧
        b.emitted ++ (r.calls.map (fun c => c.emitted)).flatten = primesBelow N) := by
  obtain ⟨r, hr, h1, _, _, h4⟩ := siv_outcome N
  refine ⟨r, hr, h1, ?_⟩
  intro h5
  obtain ⟨b, hacc, _⟩ := h4 h5
  exact ⟨b, hacc.base_eq, by rw [← hacc.emitted_split, h1]⟩

theorem siv_emits_primes_below_witness :
    2 ≤ 10 ∧ ∃ r, SivReturns 10 r ∧ r.emitted = primesBelow 10 ∧
      (5 ≤ 10 → ∃ b, r.base = some b ∧
        b.emitted ++ (r.calls.map (fun c => c.emitted)).flatten = primesBelow 10) :=
  ⟨by decide, siv_emits_primes_below 10 (by decide)⟩

/-- C5: for every bound `N < 5` the driver returns without calling the base sieve or the
segment sieve; it emits `2` iff `N > 2` and then `3` iff `N > 3`, and reports the
number of emitted values: nothing and `0` for `N ≤ 2`, `[2]` and `1` for `N = 3`,
`[2, 3]` and `2` for `N = 4`. -/
theorem siv_small_bounds (N fuel : Nat) (hN : N < 5) :
    siv fuel N = some
      { emitted := (if N > 2 then [2] else []) ++ (if N > 3 then [3] else []),
        numof_primes := if N ≤ 2 then 0 else if N = 3 then 1 else 2,
        base := none, calls := [] } := by
  unfold siv
  have : N = 0 ∨ N = 1 ∨ N = 2 ∨ N = 3 ∨ N = 4 := by omega
  rcases this with rfl | rfl | rfl | rfl | rfl <;> simp

theorem siv_small_bounds_witness :
    3 < 5 ∧ siv 0 3 = some
      { emitted := (if 3 > 2 then [2] else []) ++ (if 3 > 3 then [3] else []),
        numof_primes := if 3 ≤ 2 then 0 else if 3 = 3 then 1 else 2,
        base := none, calls := [] } :=
  ⟨by decide, siv_small_bounds 3 0 (by decide)⟩

theorem SivReturns.of_eval {N : Nat} {r : SivResult} (h : siv (N + 2) N = some r) :
    SivReturns N r :=
  ⟨fun fuel hf => siv_mono N _ fuel r h hf, fun _ _ h1 => siv_unique N _ _ _ _ h1 h⟩

set_option maxRecDepth 100000 in
/-- C6: on the bounds 10, 30 and 100 the driver returns; for 10 it reports 4 and has
emitted 2, 3, 5, 7; for 30 it reports 10 and has emitted 2, 3, 5, 7, 11, 13, 17, 19,
23, 29; for 100 it reports 25 and the last value emitted is 97. -/
theorem siv_literal_bounds :
    (∃ r, SivReturns 10 r ∧ r.numof_primes = 4 ∧ r.emitted = [2, 3, 5, 7]) ∧
    (∃ r, SivReturns 30 r ∧ r.numof_primes = 10 ∧
      r.emitted = [2, 3, 5, 7, 11, 13, 17, 19, 23, 29]) ∧
    (∃ r, SivReturns 100 r ∧ r.numof_primes = 25 ∧ r.emitted.getLast? = some 97) := by
  refine ⟨?_, ?_, ?_⟩
  · cases h : siv (10 + 2) 10 with
    | none => exact absurd h (by decide)
    | some r =>
      have h1 : (siv (10 + 2) 10).map (fun r => (r.numof_primes, r.emitted)) =
          some (4, [2, 3, 5, 7]) := by decide
      rw [h] at h1
      have h2 := Option.some.inj h1
      exact ⟨r, SivReturns.of_eval h, congrArg Prod.fst h2, congrArg Prod.snd h2⟩
  · cases h : siv (30 + 2) 30 with
    | none => exact absurd h (by decide)
    | some r =>
      have h1 : (siv (30 + 2) 30).map (fun r => (r.numof_primes, r.emitted)) =
          some (10, [2, 3, 5, 7, 11, 13, 17, 19, 23, 29]) := by decide
      rw [h] at h1
      have h2 := Option.some.inj h1
      exact ⟨r, SivReturns.of_eval h, congrArg Prod.fst h2, congrArg Prod.snd h2⟩
  · cases h : siv (100 + 2) 100 with
    | none => exact absurd h (by decide)
    | some r =>
      have h1 : (siv (100 + 2) 100).map (fun r => (r.numof_primes, r.emitted.getLast?)) =
          some (25, some 97) := by decide
      rw [h] at h1
      have h2 := Option.some.inj h1
      exact ⟨r, SivReturns.of_eval h, congrArg Prod.fst h2, congrArg Prod.snd h2⟩

theorem primesBelow_three : primesBelow 3 = [2] := by
  rw [primesBelow_succ_prime 2 Nat.prime_two, primesBelow_two]; rfl

theorem primesBelow_four : primesBelow 4 = [2, 3] := by
  rw [primesBelow_succ_prime 3 Nat.prime_three, primesBelow_three]; rfl

/-- C9: for every bound `N` the driver returns a result (every run with at least `N + 2`
units of fuel returns it).  Every crossing-out loop with a positive step returns,
after at most `segsize - j + 1` tests of its condition. -/
theorem siv_terminates (N : Nat) :
    (∃ r, SivReturns N r) ∧
      ∀ segsize step j seg, 0 < step →
        ∃ x, crossOut (segsize - j + 1) seg segsize step j = some x := by
  constructor
  · obtain ⟨r, hr, _⟩ := siv_outcome N
    exact ⟨r, hr⟩
  · intro segsize step j seg hstep
    obtain ⟨seg1, t, e, _⟩ := crossOut_spec segsize step hstep (segsize - j + 1) seg j (by omega)
    exact ⟨_, e⟩

theorem ceilSqrt_le_two_pow (N : Nat) (hN : N ≤ 2 ^ 64) : ceilSqrt N ≤ 2 ^ 32 := by
  by_contra hc
  have h1 := ceilSqrt_pred_lt N (by omega)
  have h2 : 2 ^ 32 ≤ ceilSqrt N - 1 := by omega
  have h3 := Nat.mul_le_mul h2 h2
  have h4 : (2 : Nat) ^ 32 * 2 ^ 32 = 2 ^ 64 := by norm_num
  omega

theorem ceilSqrt_max : ceilSqrt (2 ^ 64 - 1) = 2 ^ 32 :=
  ceilSqrt_eq_of_pred _ _ (by norm_num) (by norm_num)

/-- C10, at `N = 2^64 - 1`: the bound is below `2^64`, the driver returns in exact
arithmetic, and for one of its windows the sum `i + segsize` of the truncation test is
not below `2^64`. -/
theorem siv_window_sum_overflows :
    2 ^ 64 - 1 < 2 ^ 64 ∧
      ∃ r, SivReturns (2 ^ 64 - 1) r ∧
        ∃ c, c ∈ r.calls ∧ ¬ (c.startnum + c.segsizeIn < 2 ^ 64) := by
  refine ⟨by norm_num, ?_⟩
  obtain ⟨r, hr, _, _, _, h4⟩ := siv_outcome (2 ^ 64 - 1)
  obtain ⟨b, hacc, _⟩ := h4 (by norm_num)
  rw [ceilSqrt_max] at hacc
  obtain ⟨c, hc, hlast⟩ := hacc.tiles.exists_last (by norm_num)
  refine ⟨r, hr, c, hc, ?_⟩
  have hok := hacc.calls_ok c hc
  have h1 := hok.segsizeIn_eq
  have h2 := hok.segsize_eq
  have h3 := hok.start_lt
  obtain ⟨k, hk⟩ := hok.dvd_start
  have e32 : (2 : Nat) ^ 32 = 4294967296 := by norm_num
  have e64 : (2 : Nat) ^ 64 = 18446744073709551616 := by norm_num
  rw [e32] at h1 h2 hk
  rw [e64] at h2 h3 hlast ⊢
  omega

/-- C10, amended: for every bound `N ≤ 2^64 - 2^32` the driver returns, and for every
window it processes the sum `i + segsize` of the truncation test, the advanced start
`i + segsize` and every printed `offset + startnum` are below `2^64` in exact
arithmetic. -/
theorem siv_window_sums_in_range (N : Nat) (hN : N ≤ 2 ^ 64 - 2 ^ 32) :
    ∃ r, SivReturns N r ∧
      ∀ c, c ∈ r.calls → c.startnum + c.segsizeIn < 2 ^ 64 ∧
        c.startnum + c.segsize < 2 ^ 64 ∧ ∀ v, v ∈ c.emitted → v < 2 ^ 64 := by
  obtain ⟨r, hr, _, _, h3, h4⟩ := siv_outcome N
  refine ⟨r, hr, ?_⟩
  intro c hc
  by_cases h5 : N < 5
  · rw [(h3 h5).2] at hc
    simp at hc
  · obtain ⟨b, hacc, _⟩ := h4 (by omega)
    have hok := hacc.calls_ok c hc
    have hS := ceilSqrt_ge_three N (by omega)
    have hS2 := ceilSqrt_le_two_pow N (by omega)
    have h1 := hok.segsizeIn_eq
    have h2 := hok.size_bounds (by omega)
    have h6 := hok.start_lt
    have e32 : (2 : Nat) ^ 32 = 4294967296 := by norm_num
    have e64 : (2 : Nat) ^ 64 = 18446744073709551616 := by norm_num
    rw [e32] at hS2 hN
    rw [e64] at hN ⊢
    refine ⟨by omega, by omega, ?_⟩
    intro v hv
    rw [hok.emitted_eq, mem_primesIn] at hv
    omega

theorem siv_window_sums_in_range_witness :
    10 ≤ 2 ^ 64 - 2 ^ 32 ∧
      ∃ r, SivReturns 10 r ∧
        ∀ c, c ∈ r.calls → c.startnum + c.segsizeIn < 2 ^ 64 ∧
          c.startnum + c.segsize < 2 ^ 64 ∧ ∀ v, v ∈ c.emitted → v < 2 ^ 64 :=
  ⟨by norm_num, siv_window_sums_in_range 10 (by norm_num)⟩

/-! ## The parser `stoull` -/

theorem powullLoop_spec (base : Nat) : ∀ n result,
    powullLoop base n result % 2 ^ 64 = (result * base ^ n) % 2 ^ 64 := by
  intro n
  induction n with
  | zero => intro result; simp [powullLoop]
  | succ n ih =>
    intro result
    unfold powullLoop
    rw [ih, pow_succ, Nat.mul_mod, Nat.mod_mod, ← Nat.mul_mod]
    congr 1
    ring

theorem powull_mod (base exp : Nat) : powull base exp % 2 ^ 64 = base ^ exp % 2 ^ 64 := by
  unfold powull
  rw [powullLoop_spec, Nat.one_mul]

theorem foldl_decimal (s : List Char) : ∀ a,
    s.foldl (fun a ch => 10 * a + (ch.toNat - 48)) a = a * 10 ^ s.length + decimalValue s := by
  unfold decimalValue
  induction s with
  | nil => intro a; simp
  | cons ch rest ih =>
    intro a
    simp only [List.foldl_cons, List.length_cons]
    rw [ih (10 * a + (ch.toNat - 48)), ih (10 * 0 + (ch.toNat - 48))]
    ring

theorem stoullLoop_digits : ∀ (s : List Char) (num : Nat),
    (∀ ch, ch ∈ s → 48 ≤ ch.toNat ∧ ch.toNat ≤ 57) → num < 2 ^ 64 →
    stoullLoop s num = (num + decimalValue s) % 2 ^ 64 := by
  intro s
  induction s with
  | nil =>
    intro num _ hnum
    simp only [stoullLoop, decimalValue, List.foldl_nil, Nat.add_zero]
    exact (Nat.mod_eq_of_lt hnum).symm
  | cons ch rest ih =>
    intro num hs hnum
    have hch := hs ch (List.mem_cons_self _ _)
    have hcond : ¬ (((ch.toNat : Int) - 48) < 0 ∨ ((ch.toNat : Int) - 48) > 9) := by omega
    have hd : (((ch.toNat : Int) - 48)).toNat = ch.toNat - 48 := by omega
    unfold stoullLoop
    simp only [hcond, if_false, hd]
    rw [ih _ (fun c hc => hs c (List.mem_cons_of_mem _ hc)) (Nat.mod_lt _ (by norm_num))]
    have hv : decimalValue (ch :: rest) =
        (ch.toNat - 48) * 10 ^ rest.length + decimalValue rest := by
      unfold decimalValue
      rw [List.foldl_cons, foldl_decimal]
      unfold decimalValue
      simp
    rw [hv]
    have key : (num + (ch.toNat - 48) * powull 10 rest.length % 2 ^ 64) % 2 ^ 64 =
        (num + (ch.toNat - 48) * 10 ^ rest.length) % 2 ^ 64 := by
      rw [Nat.add_mod, Nat.mod_mod, Nat.mul_mod, powull_mod, ← Nat.mul_mod, ← Nat.add_mod]
    rw [Nat.add_mod, Nat.mod_mod, key, ← Nat.add_mod, Nat.add_assoc]

theorem stoullLoop_invalid : ∀ (s : List Char) (num : Nat),
    (∃ ch, ch ∈ s ∧ ¬ (48 ≤ ch.toNat ∧ ch.toNat ≤ 57)) → stoullLoop s num = 0 := by
  intro s
  induction s with
  | nil => intro num h; obtain ⟨ch, hch, _⟩ := h; simp at hch
  | cons ch rest ih =>
    intro num h
    unfold stoullLoop
    by_cases hcond : (((ch.toNat : Int) - 48) < 0 ∨ ((ch.toNat : Int) - 48) > 9)
    · simp only [hcond, if_true]
    · simp only [hcond, if_false]
      apply ih
      obtain ⟨c, hc, hbad⟩ := h
      rcases List.mem_cons.mp hc with rfl | hc
      · exfalso; omega
      · exact ⟨c, hc, hbad⟩

/-- C11: on every string made only of ASCII decimal digits whose numeric value is below
`2^64`, `stoull` returns that value; on every string with at least one character that is
not an ASCII decimal digit, wherever it stands, `stoull` returns `0`. -/
theorem stoull_value_or_zero :
    (∀ s : List Char, (∀ ch, ch ∈ s → 48 ≤ ch.toNat ∧ ch.toNat ≤ 57) →
      decimalValue s < 2 ^ 64 → stoull s = decimalValue s) ∧
    (∀ s : List Char, (∃ ch, ch ∈ s ∧ ¬ (48 ≤ ch.toNat ∧ ch.toNat ≤ 57)) → stoull s = 0) := by
  constructor
  · intro s hs hv
    unfold stoull
    rw [stoullLoop_digits s 0 hs (by norm_num), Nat.zero_add, Nat.mod_eq_of_lt hv]
  · intro s hs
    exact stoullLoop_invalid s 0 hs

theorem stoull_value_or_zero_witness :
    stoull ['4', '2'] = decimalValue ['4', '2'] ∧ stoull ['4', 'x', '2'] = 0 :=
  ⟨stoull_value_or_zero.1 ['4', '2'] (by decide) (by decide),
   stoull_value_or_zero.2 ['4', 'x', '2'] ⟨'x', by decide, by decide⟩⟩

/-! ## Carries and windows of a run -/

theorem IsCarry.eq_sq {p start c : Nat} (h : IsCarry p start c) (hs : start ≤ p * p) :
    c = p * p - start := by
  obtain ⟨⟨t0, e0⟩, hl⟩ := h
  have h1 := hl 0 (by simpa using hs)
  simp only [Nat.zero_mul, Nat.add_zero] at h1
  have h2 : p * p ≤ c + start := by rw [e0]; exact Nat.le_add_right _ _
  omega

theorem Tiles.append_singleton {a b : Nat} {cs : List SegCall} {c : SegCall} :
    Tiles a b (cs ++ [c]) ↔ Tiles a c.startnum cs ∧ c.startnum + c.segsize = b := by
  induction cs generalizing a with
  | nil =>
    simp only [List.nil_append, Tiles]
    constructor
    · rintro ⟨h1, h2⟩; exact ⟨h1.symm, by omega⟩
    · rintro ⟨h1, h2⟩; exact ⟨h1.symm, by omega⟩
  | cons d ds ih =>
    show (d.startnum = a ∧ Tiles (a + d.segsize) b (ds ++ [c])) ↔
      (d.startnum = a ∧ Tiles (a + d.segsize) c.startnum ds) ∧ c.startnum + c.segsize = b
    rw [ih]
    constructor
    · rintro ⟨h1, h2, h3⟩; exact ⟨⟨h1, h2⟩, h3⟩
    · rintro ⟨⟨h1, h2⟩, h3⟩; exact ⟨h1, h2, h3⟩

/-- In exact arithmetic: for every window size `W ≥ 1` and base primes `xprimes[k] ≥ 1`, `k < n`, with
any carries `next[k]`, the segment sieve returns and the carry it has stored for the
prime `p = xprimes[k]` with incoming carry `c = next[k]` is `(c + t * p) - W` for the
least `t` with `c + t * p ≥ W`; it is `c - W` when `c ≥ W` and is below `p` when
`c < W`. -/
theorem sivseg_carry_update_exact (W fuel n start : Nat) (xprimes next : List Nat) (_hW : 1 ≤ W)
    (hpos : ∀ k, k < n → 1 ≤ xprimes.getD k 0) (hlen : n ≤ next.length) (hf : W < fuel) :
    ∃ r, sivseg fuel xprimes next W n start = some r ∧
      ∀ k, k < n →
        (∃ t, (W ≤ next.getD k 0 + t * xprimes.getD k 0 ∧
            ∀ s, s < t → next.getD k 0 + s * xprimes.getD k 0 < W) ∧
          r.next.getD k 0 = next.getD k 0 + t * xprimes.getD k 0 - W) ∧
        (W ≤ next.getD k 0 → r.next.getD k 0 = next.getD k 0 - W) ∧
        (next.getD k 0 < W → r.next.getD k 0 < xprimes.getD k 0) := by
  obtain ⟨seg1, next1, e, _, _, _, c4⟩ :=
    sieveLoop_spec fuel W xprimes hf n (List.replicate W true) next 0
      (fun k _ hk => hpos k (by omega))
  unfold sivseg
  simp only [e]
  refine ⟨_, rfl, ?_⟩
  intro k hk
  obtain ⟨t, d1, d2, d3⟩ := c4 (by omega) k (Nat.zero_le _) (by omega)
  simp only []
  refine ⟨⟨t, ⟨d2, d3⟩, d1⟩, ?_, ?_⟩
  · intro hge
    cases t with
    | zero => simpa using d1
    | succ u =>
      have := d3 0 (by omega)
      simp only [Nat.zero_mul, Nat.add_zero] at this
      omega
  · intro hlt
    cases t with
    | zero =>
      simp only [Nat.zero_mul, Nat.add_zero] at d2
      omega
    | succ u =>
      have h1 := d3 u (by omega)
      rw [d1, Nat.add_mul, Nat.one_mul]
      have := hpos k hk
      omega

theorem hit_iff_exists (p c j : Nat) : (c ≤ j ∧ p ∣ j - c) ↔ ∃ t, j = c + t * p := by
  constructor
  · rintro ⟨h1, u, hu⟩
    exact ⟨u, by rw [Nat.mul_comm u p, ← hu]; omega⟩
  · rintro ⟨t, rfl⟩
    exact ⟨Nat.le_add_right _ _, ⟨t, by rw [Nat.add_sub_cancel_left, Nat.mul_comm]⟩⟩

/-- In exact arithmetic: for every window size `W`, start, positive base primes `xprimes[k]` and carries
`next[k]`, `k < n`, the segment sieve returns; it has printed `j + startnum`, in
increasing order of `j`, for exactly the offsets `j < W` that are of the form
`next[k] + t * xprimes[k]` for no `k < n` and no `t`, and it returns the number of these
offsets. -/
theorem sivseg_crossing_rule_exact (W fuel n start : Nat) (xprimes next : List Nat)
    (hpos : ∀ k, k < n → 0 < xprimes.getD k 0) (_hlen : n ≤ next.length) (hf : W < fuel) :
    ∃ r, sivseg fuel xprimes next W n start = some r ∧
      r.emitted = ((List.range W).filter (fun j => decide (∀ k, k < n →
          ¬ (next.getD k 0 ≤ j ∧ xprimes.getD k 0 ∣ j - next.getD k 0)))).map
        (fun j => j + start) ∧
      r.count = ((List.range W).filter (fun j => decide (∀ k, k < n →
          ¬ (next.getD k 0 ≤ j ∧ xprimes.getD k 0 ∣ j - next.getD k 0)))).length ∧
      (∀ v, v ∈ r.emitted ↔ ∃ j, j < W ∧ v = j + start ∧
        ¬ ∃ k t, k < n ∧ j = next.getD k 0 + t * xprimes.getD k 0) ∧
      r.emitted.Pairwise (fun a b => a < b) := by
  obtain ⟨seg1, next1, e, _, c2, _, _⟩ :=
    sieveLoop_spec fuel W xprimes hf n (List.replicate W true) next 0
      (fun k _ hk => hpos k (by omega))
  have hseg : ∀ j, j < W → (seg1.getD j false = true ↔
      ∀ k, k < n → ¬ (next.getD k 0 ≤ j ∧ xprimes.getD k 0 ∣ j - next.getD k 0)) := by
    intro j hj
    rw [c2 j, getD_replicate_true]
    simp only [decide_eq_true_eq]
    constructor
    · rintro ⟨_, a⟩ k hk hh
      exact a k (Nat.zero_le _) (by omega) ⟨hj, (hit_iff_exists _ _ _).mp hh⟩
    · intro a
      refine ⟨hj, ?_⟩
      rintro k _ hk ⟨_, hh⟩
      exact a k (by omega) ((hit_iff_exists _ _ _).mpr hh)
  have hfilter : (List.range' 0 W).filter (fun j => seg1.getD j false) =
      (List.range W).filter (fun j => decide (∀ k, k < n →
        ¬ (next.getD k 0 ≤ j ∧ xprimes.getD k 0 ∣ j - next.getD k 0))) := by
    rw [List.range_eq_range']
    apply List.filter_congr
    intro j hj
    rw [List.mem_range'_1] at hj
    have := hseg j (by omega)
    show seg1.getD j false = decide _
    by_cases hp : ∀ k, k < n →
        ¬ (next.getD k 0 ≤ j ∧ xprimes.getD k 0 ∣ j - next.getD k 0)
    · rw [this.mpr hp]
      exact (decide_eq_true hp).symm
    · have h1 : ¬ seg1.getD j false = true := fun a => hp (this.mp a)
      rw [Bool.eq_false_iff.mpr h1]
      exact (decide_eq_false hp).symm
  unfold sivseg
  simp only [e, printLoop_spec, Nat.zero_add, hfilter]
  refine ⟨_, rfl, rfl, rfl, ?_, ?_⟩
  · intro v
    simp only [List.mem_map, List.mem_filter, List.mem_range, decide_eq_true_eq]
    constructor
    · rintro ⟨j, ⟨hj, hP⟩, rfl⟩
      refine ⟨j, hj, rfl, ?_⟩
      rintro ⟨k, t, hk, hh⟩
      exact hP k hk ((hit_iff_exists _ _ _).mpr ⟨t, hh⟩)
    · rintro ⟨j, hj, rfl, hP⟩
      refine ⟨j, ⟨hj, ?_⟩, rfl⟩
      intro k hk hh
      obtain ⟨t, ht⟩ := (hit_iff_exists _ _ _).mp hh
      exact hP ⟨k, t, hk, ht⟩
  · simp only []
    rw [List.pairwise_map]
    apply List.Pairwise.filter
    exact (List.pairwise_lt_range W).imp (fun h => by omega)

/-- C15: for every bound `N ≥ 5` the driver returns and the windows it passes to the
segment sieve tile `[S, N)`, `S = ceilSqrt N`: the first begins at `S`, each next one
begins at the previous start plus the previous size, the last ends at `N`; every size
is between `1` and `S`, every window but the last has size `S`, the last has size
`N - startnum`, and every window begins below `N`. -/
theorem siv_windows_tile (N : Nat) (hN : 5 ≤ N) :
    ∃ r, SivReturns N r ∧ Tiles (ceilSqrt N) N r.calls ∧ r.calls ≠ [] ∧
      (∀ c, c ∈ r.calls → 1 ≤ c.segsize ∧ c.segsize ≤ ceilSqrt N ∧
        ceilSqrt N ≤ c.startnum ∧ c.startnum < N ∧ c.startnum + c.segsize ≤ N) ∧
      (∀ c, c ∈ r.calls.dropLast → c.segsize = ceilSqrt N) ∧
      (∀ c, r.calls.getLast? = some c →
        c.segsize = N - c.startnum ∧ c.startnum + c.segsize = N) := by
  obtain ⟨r, hr, _, _, _, h4⟩ := siv_outcome N
  obtain ⟨b, hacc, _⟩ := h4 hN
  have hS := ceilSqrt_ge_three N hN
  have hlt : ceilSqrt N ≠ N := by
    intro e
    have h1 := ceilSqrt_pred_lt N (by omega)
    rw [e] at h1
    obtain ⟨m, rfl⟩ : ∃ m, N = m + 2 := ⟨N - 2, by omega⟩
    have e1 : m + 2 - 1 = m + 1 := by omega
    rw [e1] at h1
    nlinarith
  refine ⟨r, hr, hacc.tiles, ?_, ?_, ?_, ?_⟩
  · intro e
    have := hacc.tiles
    rw [e] at this
    exact hlt this
  · intro c hc
    have hok := hacc.calls_ok c hc
    have := hok.size_bounds (by omega)
    exact ⟨this.1, this.2.1, hok.start_ge, hok.start_lt, this.2.2⟩
  · intro c hc
    have hne : r.calls ≠ [] := by
      intro e
      rw [e] at hc
      simp at hc
    have hsplit := List.dropLast_append_getLast hne
    have htiles := hacc.tiles
    rw [← hsplit] at htiles
    have hpw := htiles.pairwise
    rw [List.pairwise_append] at hpw
    have h1 := hpw.2.2 c hc (r.calls.getLast hne) (List.mem_singleton.mpr rfl)
    have hc1 : c ∈ r.calls := List.mem_of_mem_dropLast hc
    have hok := hacc.calls_ok c hc1
    have hok2 := hacc.calls_ok _ (List.getLast_mem hne)
    have h2 := hok.segsize_eq
    have h3 := hok2.start_lt
    omega
  · intro c hc
    have hsplit := List.dropLast_append_getLast? c hc
    have htiles := hacc.tiles
    rw [← hsplit, Tiles.append_singleton] at htiles
    have := htiles.2
    omega

theorem siv_windows_tile_witness :
    5 ≤ 10 ∧ ∃ r, SivReturns 10 r ∧ Tiles (ceilSqrt 10) 10 r.calls ∧ r.calls ≠ [] ∧
      (∀ c, c ∈ r.calls → 1 ≤ c.segsize ∧ c.segsize ≤ ceilSqrt 10 ∧
        ceilSqrt 10 ≤ c.startnum ∧ c.startnum < 10 ∧ c.startnum + c.segsize ≤ 10) ∧
      (∀ c, c ∈ r.calls.dropLast → c.segsize = ceilSqrt 10) ∧
      (∀ c, r.calls.getLast? = some c →
        c.segsize = 10 - c.startnum ∧ c.startnum + c.segsize = 10) :=
  ⟨by decide, siv_windows_tile 10 (by decide)⟩

/-! ## The base primes of a run -/

theorem ceilSqrt_five : ceilSqrt 5 = 3 :=
  ceilSqrt_eq_of_pred 5 3 (by decide) (by decide)

/-- C16, at `N = 5`: `S = ceilSqrt 5 = 3` is prime, and the base primes the driver obtains
and hands to every segment sieve call are `[2]`, without `3`. -/
theorem base_primes_omit_sqrt_at_five :
    ceilSqrt 5 = 3 ∧ Nat.Prime 3 ∧
      ∃ r b, SivReturns 5 r ∧ r.base = some b ∧ b.primes.take b.found = [2] ∧
        3 ∉ b.primes.take b.found ∧
        ∀ c, c ∈ r.calls → c.xprimes.take c.numof_xprimes = [2] := by
  refine ⟨ceilSqrt_five, Nat.prime_three, ?_⟩
  obtain ⟨r, hr, _, _, _, h4⟩ := siv_outcome 5
  obtain ⟨b, hacc, _, _, hb3, _⟩ := h4 (le_refl _)
  rw [ceilSqrt_five, primesBelow_three] at hb3
  refine ⟨r, b, hr, hacc.base_eq, hb3, by rw [hb3]; decide, ?_⟩
  intro c hc
  have hok := hacc.calls_ok c hc
  rw [hok.xprimes_eq, hok.numof_eq, hb3]

/-- C16, amended: for every bound `N ≥ 5` with `S = ceilSqrt N`, the base primes that the
driver obtains from the base sieve and hands to every segment sieve call are the
increasing list of all primes `p < S`. -/
theorem siv_base_primes (N : Nat) (hN : 5 ≤ N) :
    ∃ r b, SivReturns N r ∧ r.base = some b ∧
      b.primes.take b.found = primesBelow (ceilSqrt N) ∧
      (∀ p, p ∈ b.primes.take b.found ↔ p.Prime ∧ p < ceilSqrt N) ∧
      (b.primes.take b.found).Pairwise (fun a b => a < b) ∧
      ∀ c, c ∈ r.calls → c.xprimes.take c.numof_xprimes = primesBelow (ceilSqrt N) := by
  obtain ⟨r, hr, _, _, _, h4⟩ := siv_outcome N
  obtain ⟨b, hacc, _, _, hb3, _⟩ := h4 hN
  refine ⟨r, b, hr, hacc.base_eq, hb3, ?_, by rw [hb3]; exact primesBelow_pairwise _, ?_⟩
  · intro p
    rw [hb3, mem_primesBelow]
    exact ⟨fun h => ⟨h.2, h.1⟩, fun h => ⟨h.2, h.1⟩⟩
  · intro c hc
    have hok := hacc.calls_ok c hc
    rw [hok.xprimes_eq, hok.numof_eq, hb3]

theorem siv_base_primes_witness :
    5 ≤ 10 ∧ ∃ r b, SivReturns 10 r ∧ r.base = some b ∧
      b.primes.take b.found = primesBelow (ceilSqrt 10) ∧
      (∀ p, p ∈ b.primes.take b.found ↔ p.Prime ∧ p < ceilSqrt 10) ∧
      (b.primes.take b.found).Pairwise (fun a b => a < b) ∧
      ∀ c, c ∈ r.calls → c.xprimes.take c.numof_xprimes = primesBelow (ceilSqrt 10) :=
  ⟨by decide, siv_base_primes 10 (by decide)⟩

/-- C17: for every bound `N` with `5 ≤ N < 2^64` and `S = ceilSqrt N`, the driver returns,
`S ≤ 2^32`, and every cursor value `i` the base sieve records (the cells
`primes[0 .. found)`, one per iteration of its loop) satisfies `i < S` and
`i * i < 2^64`: the square computed in `large j = i * i` has its exact value. -/
theorem siv_squares_in_range (N : Nat) (h5 : 5 ≤ N) (hN : N < 2 ^ 64) :
    ceilSqrt N ≤ 2 ^ 32 ∧
      ∃ r b, SivReturns N r ∧ r.base = some b ∧
        ∀ k, k < b.found → b.primes.getD k 0 < ceilSqrt N ∧
          b.primes.getD k 0 * b.primes.getD k 0 < 2 ^ 64 := by
  have hS := ceilSqrt_le_two_pow N (by omega)
  refine ⟨hS, ?_⟩
  obtain ⟨r, hr, _, _, _, h4⟩ := siv_outcome N
  obtain ⟨b, hacc, _, hb2, hb3, _⟩ := h4 h5
  refine ⟨r, b, hr, hacc.base_eq, ?_⟩
  intro k hk
  have h1 := ((xprimes_facts _ _ _ hb3 hb2).1 k hk).2
  refine ⟨h1, ?_⟩
  have h2 : b.primes.getD k 0 ≤ 2 ^ 32 - 1 := by omega
  have h3 := Nat.mul_le_mul h2 h2
  have h4 : (2 ^ 32 - 1) * (2 ^ 32 - 1) < 2 ^ 64 := by norm_num
  omega

theorem siv_squares_in_range_witness :
    5 ≤ 10 ∧ 10 < 2 ^ 64 ∧ ceilSqrt 10 ≤ 2 ^ 32 ∧
      ∃ r b, SivReturns 10 r ∧ r.base = some b ∧
        ∀ k, k < b.found → b.primes.getD k 0 < ceilSqrt 10 ∧
          b.primes.getD k 0 * b.primes.getD k 0 < 2 ^ 64 :=
  ⟨by decide, by norm_num, siv_squares_in_range 10 (by decide) (by norm_num)⟩

/-! ## Array accesses of the base sieve -/

theorem crossOut_exit (segsize step : Nat) : ∀ fuel seg j seg1 j1,
    crossOut fuel seg segsize step j = some (seg1, j1) →
    segsize ≤ j1 ∧ seg1.length = seg.length ∧
      ∀ m, segsize ≤ m → seg1.getD m false = seg.getD m false := by
  intro fuel
  induction fuel with
  | zero => intro seg j seg1 j1 h; simp [crossOut] at h
  | succ fuel ih =>
    intro seg j seg1 j1 h
    unfold crossOut at h
    by_cases hj : j < segsize
    · rw [if_pos hj] at h
      obtain ⟨a, b, c⟩ := ih _ _ _ _ h
      refine ⟨a, by rw [b, List.length_set], ?_⟩
      intro m hm
      rw [c m hm, getD_set_false, if_neg (by omega)]
    · rw [if_neg hj] at h
      have e := Option.some.inj h
      have e1 : seg = seg1 := congrArg Prod.fst e
      have e2 : j = j1 := congrArg Prod.snd e
      subst e1 e2
      exact ⟨by omega, rfl, fun _ _ => rfl⟩

theorem crossOutChecked_eq (segsize step : Nat) : ∀ fuel seg j, segsize ≤ seg.length →
    crossOutChecked fuel seg segsize step j = crossOut fuel seg segsize step j := by
  intro fuel
  induction fuel with
  | zero => intro seg j _; rfl
  | succ fuel ih =>
    intro seg j hlen
    unfold crossOutChecked crossOut
    by_cases hj : j < segsize
    · rw [if_pos hj, if_pos hj, if_pos (by omega)]
      exact ih _ _ (by rw [List.length_set]; exact hlen)
    · rw [if_neg hj, if_neg hj]

theorem findNextFromChecked_eq (seg : List Bool) : ∀ n j, j + n ≤ seg.length →
    findNextFromChecked seg n j = some (findNextFrom seg n j) := by
  intro n
  induction n with
  | zero => intro j _; rfl
  | succ n ih =>
    intro j hlen
    unfold findNextFromChecked findNextFrom
    rw [if_pos (by omega)]
    by_cases h : seg.getD j false = true
    · rw [if_pos h, if_pos h]
    · rw [if_neg h, if_neg h]
      exact ih _ (by omega)

theorem sivfirstsegLoopChecked_eq (S : Nat) : ∀ fuel seg i st, seg.length = S → i < S →
    st.found + 2 ≤ i → S ≤ st.primes.length → S ≤ st.next.length →
    sivfirstsegLoopChecked fuel S seg i st = sivfirstsegLoop fuel S seg i st := by
  intro fuel
  induction fuel with
  | zero => intro seg i st _ _ _ _ _; rfl
  | succ fuel ih =>
    intro seg i st hseg hi hfound hlp hln
    unfold sivfirstsegLoopChecked sivfirstsegLoop
    rw [if_pos ⟨by omega, by omega⟩, crossOutChecked_eq S i fuel seg (i * i) (by omega)]
    cases hc : crossOut fuel seg S i (i * i) with
    | none => rfl
    | some y =>
      obtain ⟨seg1, j1⟩ := y
      obtain ⟨_, hl1, _⟩ := crossOut_exit S i fuel seg (i * i) seg1 j1 hc
      simp only []
      rw [findNextFromChecked_eq seg1 _ _ (by omega)]
      unfold findNext
      cases hn : findNextFrom seg1 (S - (i + 1)) (i + 1) with
      | none => rfl
      | some i1 =>
        simp only []
        obtain ⟨b1, b2, _, _⟩ := findNextFrom_some seg1 _ _ _ hn
        exact ih seg1 i1 _ (by omega) (by omega) (by simp only []; omega)
          (by simpa using hlp) (by simpa using hln)

theorem length_firstSegment (S : Nat) : (firstSegment S).length = S := by
  simp [firstSegment]

/-- A run of `siv` on `N ≥ 5` calls the base sieve on `ceilSqrt N` with two arrays of
`ceilSqrt N` cells, and records that call. -/
theorem siv_base_call (N fuel : Nat) (hN : 5 ≤ N) (hf : N + 2 ≤ fuel) :
    ∃ r b, siv fuel N = some r ∧ r.base = some b ∧
      sivfirstseg fuel (List.replicate (ceilSqrt N) 0) (List.replicate (ceilSqrt N) 0)
        (ceilSqrt N) = some b ∧
      b.found + 2 ≤ ceilSqrt N ∧ b.primes.length = ceilSqrt N ∧
      b.next.length = ceilSqrt N := by
  have hS := ceilSqrt_ge_three N hN
  have hSN := ceilSqrt_le_self N
  have h2S := two_mul_ceilSqrt_le N
  obtain ⟨b, e, b1, b2, b3, b4, b5, b6, b7⟩ :=
    sivfirstseg_spec (ceilSqrt N) fuel (List.replicate (ceilSqrt N) 0)
      (List.replicate (ceilSqrt N) 0) hS (by omega) (by simp) (by simp)
  simp only [List.length_replicate] at b4 b5
  obtain ⟨r, er, hr⟩ :=
    sivLoop_spec N (ceilSqrt N) b (by omega) (ceilSqrt_spec N).1 b3 b2 fuel (ceilSqrt N)
      (ceilSqrt N) b.next
      { emitted := b.emitted, numof_primes := b.found, base := some b, calls := [] }
      (by omega) (le_refl _) hSN (fun _ => ⟨rfl, dvd_refl _⟩) (by omega) b7
      ⟨b1, by simp only []; rw [b2, b1], rfl, rfl, by simp, by simp, by simp⟩
  refine ⟨r, b, ?_, hr.base_eq, e, b6, b4, b5⟩
  unfold siv
  have : ¬ N < 5 := by omega
  simp only [this, if_false, e]
  exact er

/-- C18: for every bound `N ≥ 5` the driver calls the base sieve with
`S = ceilSqrt N ≥ 3` and two arrays of `S` cells; in that call no array is read or
written outside its cells (the base sieve with every access checked returns what the
base sieve returns), the counter `found` ends at most at `S - 2`, so every write
`primes[found]`, `next[found]` has `found < S`, and a crossing-out loop leaves every
position at or beyond `segsize` untouched. -/
theorem siv_base_index_safety (N : Nat) (hN : 5 ≤ N) :
    3 ≤ ceilSqrt N ∧
      (∃ r b, SivReturns N r ∧ r.base = some b ∧
        sivfirstseg (N + 2) (List.replicate (ceilSqrt N) 0) (List.replicate (ceilSqrt N) 0)
          (ceilSqrt N) = some b ∧
        sivfirstsegChecked (N + 2) (List.replicate (ceilSqrt N) 0)
          (List.replicate (ceilSqrt N) 0) (ceilSqrt N) = some b ∧
        b.found + 2 ≤ ceilSqrt N ∧ b.primes.length = ceilSqrt N ∧
        b.next.length = ceilSqrt N) ∧
      ∀ fuel seg segsize step j seg1 j1, crossOut fuel seg segsize step j = some (seg1, j1) →
        seg1.length = seg.length ∧
          ∀ m, segsize ≤ m → seg1.getD m false = seg.getD m false := by
  have hS := ceilSqrt_ge_three N hN
  refine ⟨hS, ?_, fun fuel seg segsize step j seg1 j1 h =>
    (crossOut_exit segsize step fuel seg j seg1 j1 h).2⟩
  obtain ⟨r, b, e, hb, eb, h1, h2, h3⟩ := siv_base_call N (N + 2) hN (le_refl _)
  refine ⟨r, b, SivReturns.of_eval e, hb, eb, ?_, h1, h2, h3⟩
  unfold sivfirstsegChecked
  rw [if_pos (by omega), sivfirstsegLoopChecked_eq (ceilSqrt N) _ _ _ _
    (length_firstSegment _) (by omega) (by simp) (by simp) (by simp)]
  unfold sivfirstseg at eb
  cases hl : sivfirstsegLoop (N + 2) (ceilSqrt N) (firstSegment (ceilSqrt N)) 2
      { primes := List.replicate (ceilSqrt N) 0, next := List.replicate (ceilSqrt N) 0,
        found := 0 } with
  | none =>
    rw [hl] at eb
    exact Option.noConfusion eb
  | some st =>
    rw [hl] at eb
    simp only [] at eb ⊢
    have e1 := Option.some.inj eb
    have hf : st.found = b.found := by rw [← e1]
    have hp : st.primes = b.primes := by rw [← e1]
    rw [if_pos (by rw [hf, hp, h2]; omega)]
    exact eb

theorem siv_base_index_safety_witness :
    5 ≤ 10 ∧ 3 ≤ ceilSqrt 10 ∧
      (∃ r b, SivReturns 10 r ∧ r.base = some b ∧
        sivfirstseg (10 + 2) (List.replicate (ceilSqrt 10) 0) (List.replicate (ceilSqrt 10) 0)
          (ceilSqrt 10) = some b ∧
        sivfirstsegChecked (10 + 2) (List.replicate (ceilSqrt 10) 0)
          (List.replicate (ceilSqrt 10) 0) (ceilSqrt 10) = some b ∧
        b.found + 2 ≤ ceilSqrt 10 ∧ b.primes.length = ceilSqrt 10 ∧
        b.next.length = ceilSqrt 10) ∧
      ∀ fuel seg segsize step j seg1 j1, crossOut fuel seg segsize step j = some (seg1, j1) →
        seg1.length = seg.length ∧
          ∀ m, segsize ≤ m → seg1.getD m false = seg.getD m false :=
  ⟨by decide, siv_base_index_safety 10 (by decide)⟩

/-! ## The subtraction that yields a carry -/

theorem crossOut_final (segsize step : Nat) : ∀ fuel seg j seg1 j1,
    crossOut fuel seg segsize step j = some (seg1, j1) → j1 = j ∨ j1 < segsize + step := by
  intro fuel
  induction fuel with
  | zero => intro seg j seg1 j1 h; simp [crossOut] at h
  | succ fuel ih =>
    intro seg j seg1 j1 h
    unfold crossOut at h
    by_cases hj : j < segsize
    · rw [if_pos hj] at h
      rcases ih _ _ _ _ h with e | l
      · right; omega
      · right; exact l
    · rw [if_neg hj] at h
      have e := Option.some.inj h
      have e2 : j = j1 := congrArg Prod.snd e
      left; exact e2.symm

theorem crossOut64_eq (segsize step : Nat) (h : segsize + step ≤ 2 ^ 64) : ∀ fuel seg j,
    crossOut64 fuel seg segsize step j = crossOut fuel seg segsize step j := by
  intro fuel
  induction fuel with
  | zero => intro seg j; rfl
  | succ fuel ih =>
    intro seg j
    unfold crossOut64 crossOut
    by_cases hj : j < segsize
    · rw [if_pos hj, if_pos hj, Nat.mod_eq_of_lt (by omega)]
      exact ih _ _
    · rw [if_neg hj, if_neg hj]

theorem sub64_eq (j s : Nat) (h1 : s ≤ j) (h2 : j < 2 ^ 64) :
    (j + 2 ^ 64 - s) % 2 ^ 64 = j - s := by
  have e : j + 2 ^ 64 - s = (j - s) + 2 ^ 64 := by omega
  rw [e, Nat.add_mod_right, Nat.mod_eq_of_lt (by omega)]

theorem sivfirstsegLoop64_eq (S : Nat) (hS : S ≤ 2 ^ 32) : ∀ fuel seg i st, i < S →
    st.found + 2 ≤ i →
    sivfirstsegLoop64 fuel S seg i st = sivfirstsegLoop fuel S seg i st := by
  have e32 : (2 : Nat) ^ 32 = 4294967296 := by norm_num
  have e64 : (2 : Nat) ^ 64 = 18446744073709551616 := by norm_num
  intro fuel
  induction fuel with
  | zero => intro seg i st _ _; rfl
  | succ fuel ih =>
    intro seg i st hi hfound
    have hsq : i * i < 2 ^ 64 := by
      have h1 : i ≤ 2 ^ 32 - 1 := by omega
      have h2 := Nat.mul_le_mul h1 h1
      have h3 : (2 ^ 32 - 1) * (2 ^ 32 - 1) < 2 ^ 64 := by norm_num
      omega
    unfold sivfirstsegLoop64 sivfirstsegLoop
    rw [Nat.mod_eq_of_lt hsq, crossOut64_eq S i (by omega) fuel seg (i * i)]
    cases hc : crossOut fuel seg S i (i * i) with
    | none => rfl
    | some y =>
      obtain ⟨seg1, j1⟩ := y
      have hge := (crossOut_exit S i fuel seg (i * i) seg1 j1 hc).1
      have hlt : j1 < 2 ^ 64 := by
        rcases crossOut_final S i fuel seg (i * i) seg1 j1 hc with e | l
        · omega
        · omega
      simp only []
      have hfn : findNext64 seg1 S i = findNext seg1 S i := by
        unfold findNext64 findNext
        rw [Nat.mod_eq_of_lt (by omega)]
      rw [sub64_eq j1 S hge hlt, hfn, Nat.mod_eq_of_lt (by omega : st.found + 1 < 2 ^ 64)]
      cases hn : findNext seg1 S i with
      | none => rfl
      | some i1 =>
        simp only []
        obtain ⟨b1, b2, _, _⟩ := findNextFrom_some seg1 _ _ _ hn
        exact ih seg1 i1 _ (by omega) (by simp only []; omega)

theorem sivfirstseg64_eq (S fuel : Nat) (primes next : List Nat) (h3 : 3 ≤ S)
    (hS : S ≤ 2 ^ 32) :
    sivfirstseg64 fuel primes next S = sivfirstseg fuel primes next S := by
  unfold sivfirstseg64 sivfirstseg
  rw [sivfirstsegLoop64_eq S hS fuel _ 2 _ (by omega) (by simp)]

theorem sieveLoop64_eq (fuel W : Nat) (xprimes : List Nat) : ∀ n seg next i,
    (∀ k, i ≤ k → k < i + n → W + xprimes.getD k 0 ≤ 2 ^ 64 ∧ next.getD k 0 < 2 ^ 64) →
    sieveLoop64 fuel xprimes W seg next n i = sieveLoop fuel xprimes W seg next n i := by
  intro n
  induction n with
  | zero => intro seg next i _; rfl
  | succ n ih =>
    intro seg next i hb
    obtain ⟨hb1, hb2⟩ := hb i (le_refl _) (by omega)
    unfold sieveLoop64 sieveLoop
    rw [crossOut64_eq W _ hb1 fuel seg _]
    cases hc : crossOut fuel seg W (xprimes.getD i 0) (next.getD i 0) with
    | none => rfl
    | some y =>
      obtain ⟨seg1, j1⟩ := y
      have hge := (crossOut_exit W _ fuel seg _ seg1 j1 hc).1
      have hlt : j1 < 2 ^ 64 := by
        rcases crossOut_final W _ fuel seg _ seg1 j1 hc with e | l
        · omega
        · omega
      simp only []
      rw [sub64_eq j1 W hge hlt]
      apply ih
      intro k hk1 hk2
      rw [getD_set_nat, if_neg (fun a => by omega)]
      exact hb k (by omega) (by omega)

theorem printLoop64_eq (seg : List Bool) (start : Nat) : ∀ n i c,
    start + (i + n) ≤ 2 ^ 64 → c + n < 2 ^ 64 →
    printLoop64 seg start n i c = printLoop seg start n i c := by
  intro n
  induction n with
  | zero => intro i c _ _; rfl
  | succ n ih =>
    intro i c h1 h2
    unfold printLoop64 printLoop
    by_cases h : seg.getD i false = true
    · rw [if_pos h, if_pos h, Nat.mod_eq_of_lt (by omega : c + 1 < 2 ^ 64),
        Nat.mod_eq_of_lt (by omega : i + start < 2 ^ 64), ih _ _ (by omega) (by omega)]
    · rw [if_neg h, if_neg h, ih _ _ (by omega) (by omega)]

theorem sivseg64_eq (fuel W n start : Nat) (xprimes next : List Nat)
    (hb : ∀ k, k < n → W + xprimes.getD k 0 ≤ 2 ^ 64 ∧ next.getD k 0 < 2 ^ 64)
    (hs : start + W ≤ 2 ^ 64) (hW : W < 2 ^ 64) :
    sivseg64 fuel xprimes next W n start = sivseg fuel xprimes next W n start := by
  unfold sivseg64 sivseg
  rw [sieveLoop64_eq fuel W xprimes n _ next 0 (fun k _ hk => hb k (by omega))]
  cases hc : sieveLoop fuel xprimes W (List.replicate W true) next n 0 with
  | none => rfl
  | some y =>
    obtain ⟨seg1, next1⟩ := y
    simp only []
    rw [printLoop64_eq seg1 start W 0 0 (by omega) (by omega)]

/-- What a returned call of `sivseg` on positive primes leaves: at most `segsize` values
counted, and carries bounded by the old carry or the prime. -/
theorem sivseg_result_bounds (fuel W n start : Nat) (xprimes next : List Nat) (r : SegResult)
    (h : sivseg fuel xprimes next W n start = some r)
    (hpos : ∀ k, k < n → 0 < xprimes.getD k 0) (hlen : n ≤ next.length) :
    r.next.length = next.length ∧ r.count ≤ W ∧
      ∀ k, k < n → r.next.getD k 0 ≤ next.getD k 0 ∨ r.next.getD k 0 < xprimes.getD k 0 := by
  have h1 := sivseg_mono fuel (max fuel (W + 1)) W n start xprimes next r h
    (Nat.le_max_left _ _)
  obtain ⟨seg1, next1, e, c1, _, _, c4⟩ :=
    sieveLoop_spec (max fuel (W + 1)) W xprimes (by omega) n (List.replicate W true) next 0
      (fun k _ hk => hpos k (by omega))
  unfold sivseg at h1
  simp only [e, printLoop_spec, Nat.zero_add] at h1
  have e1 := Option.some.inj h1
  rw [← e1]
  refine ⟨c1, ?_, ?_⟩
  · simp only []
    have := List.length_filter_le (fun j => seg1.getD j false) (List.range' 0 W)
    simp only [List.length_range'] at this
    exact this
  · intro k hk
    obtain ⟨t, d1, d2, d3⟩ := c4 (by omega) k (Nat.zero_le _) (by omega)
    simp only []
    cases t with
    | zero =>
      left
      rw [d1]
      omega
    | succ u =>
      right
      have := d3 u (by omega)
      rw [d1, Nat.add_mul, Nat.one_mul]
      have := hpos k hk
      omega

theorem sivLoop64_eq (N S n : Nat) (xprimes : List Nat) (hNS : N + S ≤ 2 ^ 64)
    (hN : N < 2 ^ 64) (hS : S ≤ 2 ^ 32) (hx : ∀ k, k < n → 0 < xprimes.getD k 0 ∧ xprimes.getD k 0 < S) :
    ∀ fuel segsize i next acc, i ≤ N → segsize ≤ S → n ≤ next.length →
    (∀ k, k < n → next.getD k 0 < 2 ^ 64) → acc.numof_primes ≤ i →
    sivLoop64 fuel N xprimes n segsize i next acc =
      sivLoop fuel N xprimes n segsize i next acc := by
  have e32 : (2 : Nat) ^ 32 = 4294967296 := by norm_num
  have e64 : (2 : Nat) ^ 64 = 18446744073709551616 := by norm_num
  intro fuel
  induction fuel with
  | zero => intro segsize i next acc _ _ _ _ _; rfl
  | succ fuel ih =>
    intro segsize i next acc hi hseg hlen hnext hnum
    unfold sivLoop64 sivLoop
    by_cases hlt : i < N
    · rw [if_pos hlt, if_pos hlt]
      have hW : (if (i + segsize) % 2 ^ 64 > N then (N + 2 ^ 64 - i) % 2 ^ 64 else segsize) =
          (if i + segsize > N then N - i else segsize) := by
        rw [Nat.mod_eq_of_lt (by omega : i + segsize < 2 ^ 64), sub64_eq N i (by omega) (by omega)]
      simp only []
      rw [hW]
      have hW1 : (if i + segsize > N then N - i else segsize) ≤ S := by
        by_cases hc : i + segsize > N
        · rw [if_pos hc]; omega
        · rw [if_neg hc]; exact hseg
      have hW2 : i + (if i + segsize > N then N - i else segsize) ≤ N := by
        by_cases hc : i + segsize > N
        · rw [if_pos hc]; omega
        · rw [if_neg hc]; omega
      generalize (if i + segsize > N then N - i else segsize) = W at hW1 hW2
      rw [sivseg64_eq fuel W n i xprimes next
        (fun k hk => ⟨by have := (hx k hk).2; omega, hnext k hk⟩) (by omega) (by omega)]
      cases hc : sivseg fuel xprimes next W n i with
      | none => rfl
      | some r =>
        obtain ⟨r1, r2, r3⟩ :=
          sivseg_result_bounds fuel W n i xprimes next r hc (fun k hk => (hx k hk).1) hlen
        simp only []
        rw [Nat.mod_eq_of_lt (by omega : i + W < 2 ^ 64),
          Nat.mod_eq_of_lt (by omega : acc.numof_primes + r.count < 2 ^ 64)]
        apply ih
        · exact hW2
        · exact hW1
        · omega
        · intro k hk
          have h1 := hnext k hk
          have h2 := (hx k hk).2
          rcases r3 k hk with a | a
          · omega
          · omega
        · simp only []
          omega
    · rw [if_neg hlt, if_neg hlt]

theorem IsCarry.le_sq {p start c : Nat} (h : IsCarry p start c) (hp : 0 < p) : c ≤ p * p := by
  obtain ⟨⟨t0, e0⟩, hl⟩ := h
  cases t0 with
  | zero =>
    simp only [Nat.zero_mul, Nat.add_zero] at e0
    omega
  | succ u =>
    rw [Nat.add_mul, Nat.one_mul] at e0
    have hpp : p ≤ p * p := Nat.le_mul_self p
    by_cases hs : start ≤ p * p + u * p
    · have := hl u hs
      omega
    · omega

theorem siv64_eq (N fuel : Nat) (h5 : 5 ≤ N) (hN : N ≤ 2 ^ 64 - 2 ^ 32) :
    siv64 fuel N = siv fuel N := by
  have e32 : (2 : Nat) ^ 32 = 4294967296 := by norm_num
  have e64 : (2 : Nat) ^ 64 = 18446744073709551616 := by norm_num
  have hS3 := ceilSqrt_ge_three N h5
  have hS := ceilSqrt_le_two_pow N (by omega)
  have hSN := ceilSqrt_le_self N
  unfold siv64 siv
  rw [if_neg (by omega), if_neg (by omega)]
  simp only []
  rw [sivfirstseg64_eq (ceilSqrt N) fuel _ _ hS3 hS]
  cases hb : sivfirstseg fuel (List.replicate (ceilSqrt N) 0) (List.replicate (ceilSqrt N) 0)
      (ceilSqrt N) with
  | none => rfl
  | some b =>
    simp only []
    obtain ⟨b1, eb1, _, c2, c3, _, c5, c6, c7⟩ :=
      sivfirstseg_spec (ceilSqrt N) (max fuel (2 * ceilSqrt N)) (List.replicate (ceilSqrt N) 0)
        (List.replicate (ceilSqrt N) 0) hS3 (Nat.le_max_right _ _) (by simp) (by simp)
    have hmono := sivfirstseg_mono (ceilSqrt N) fuel (max fuel (2 * ceilSqrt N)) _ _ b hb
      (Nat.le_max_left _ _)
    rw [hmono] at eb1
    have e : b = b1 := Option.some.inj eb1
    subst e
    simp only [List.length_replicate] at c5
    obtain ⟨hA, _⟩ := xprimes_facts _ _ _ c3 c2
    apply sivLoop64_eq N (ceilSqrt N) b.found b.primes (by omega) (by omega) hS
      (fun k hk => ⟨(hA k hk).1.pos, (hA k hk).2⟩)
    · exact hSN
    · exact le_refl _
    · omega
    · intro k hk
      have h1 := (c7 k hk).le_sq (hA k hk).1.pos
      have h2 : b.primes.getD k 0 ≤ 2 ^ 32 - 1 := by
        have := (hA k hk).2
        omega
      have h3 := Nat.mul_le_mul h2 h2
      have h4 : (2 ^ 32 - 1) * (2 ^ 32 - 1) < 2 ^ 64 := by norm_num
      omega
    · simp only []
      omega

/-- C19: for every bound `N` with `5 ≤ N ≤ 2^64 - 2^32`, the run of the driver in which
every sum, product and difference of `siv`, `sivfirstseg` and `sivseg` is taken modulo
`2^64` is the run in exact arithmetic, whatever the fuel; it returns, with the same
emitted sequence and the same count, the primes below `N` and their number. -/
theorem siv64_agrees (N : Nat) (h5 : 5 ≤ N) (hN : N ≤ 2 ^ 64 - 2 ^ 32) :
    (∀ fuel, siv64 fuel N = siv fuel N) ∧
      ∃ r, SivReturns N r ∧ (∀ fuel, N + 2 ≤ fuel → siv64 fuel N = some r) ∧
        r.emitted = primesBelow N ∧ r.numof_primes = (primesBelow N).length := by
  refine ⟨fun fuel => siv64_eq N fuel h5 hN, ?_⟩
  obtain ⟨r, hr, h1, h2, _⟩ := siv_outcome N
  refine ⟨r, hr, ?_, h1, h2⟩
  intro fuel hf
  rw [siv64_eq N fuel h5 hN]
  exact hr.1 fuel hf

theorem siv64_agrees_witness :
    5 ≤ 10 ∧ 10 ≤ 2 ^ 64 - 2 ^ 32 ∧ (∀ fuel, siv64 fuel 10 = siv fuel 10) ∧
      ∃ r, SivReturns 10 r ∧ (∀ fuel, 10 + 2 ≤ fuel → siv64 fuel 10 = some r) ∧
        r.emitted = primesBelow 10 ∧ r.numof_primes = (primesBelow 10).length :=
  ⟨by decide, by norm_num, siv64_agrees 10 (by decide) (by norm_num)⟩

/-! ## Bounds above `2^64 - 2^32` in 64-bit arithmetic -/

theorem siv64_eq_of_le (N fuel : Nat) (hN : N ≤ 2 ^ 64 - 2 ^ 32) :
    siv64 fuel N = siv fuel N := by
  by_cases h5 : 5 ≤ N
  · exact siv64_eq N fuel h5 hN
  · have h : N < 5 := by omega
    simp only [siv64, siv, if_pos h]

theorem siv64_outcome (N : Nat) (hN : N ≤ 2 ^ 64 - 2 ^ 32) :
    ∃ r, Siv64Returns N r ∧ SivReturns N r ∧ r.emitted = primesBelow N ∧
      r.numof_primes = (primesBelow N).length ∧
      (N < 5 → r.base = none ∧ r.calls = []) ∧
      (5 ≤ N → ∃ b, AccOk N (ceilSqrt N) b N r ∧
        b.emitted = primesBelow (ceilSqrt N) ∧ b.found = (primesBelow (ceilSqrt N)).length ∧
        b.primes.take b.found = primesBelow (ceilSqrt N) ∧ b.primes.length = ceilSqrt N ∧
        b.found + 2 ≤ ceilSqrt N ∧
        (∀ k, k < b.found → IsCarry (b.primes.getD k 0) (ceilSqrt N) (b.next.getD k 0)) ∧
        b.next.length = ceilSqrt N) := by
  obtain ⟨r, hr, h⟩ := siv_outcome N
  refine ⟨r, ⟨?_, ?_⟩, hr, h⟩
  · intro fuel hf
    rw [siv64_eq_of_le N fuel hN]
    exact hr.1 fuel hf
  · intro fuel r1 h1
    rw [siv64_eq_of_le N fuel hN] at h1
    exact hr.2 fuel r1 h1

theorem ceilSqrt_beyond (N : Nat) (h1 : 2 ^ 64 - 2 ^ 32 < N) (h2 : N < 2 ^ 64) :
    ceilSqrt N = 2 ^ 32 := by
  apply ceilSqrt_eq_of_pred
  · have : (2 : Nat) ^ 32 * 2 ^ 32 = 2 ^ 64 := by norm_num
    omega
  · have : (2 ^ 32 - 1) * (2 ^ 32 - 1) = 2 ^ 64 - 2 ^ 32 - (2 ^ 32 - 1) := by norm_num
    omega

theorem sivLoop64_beyond (N n : Nat) (xprimes : List Nat) (h1 : 2 ^ 64 - 2 ^ 32 < N)
    (h2 : N < 2 ^ 64) : ∀ fuel i next acc, 2 ^ 32 ∣ i → i < 2 ^ 64 →
    sivLoop64 fuel N xprimes n (2 ^ 32) i next acc = none := by
  intro fuel
  induction fuel with
  | zero => intro i next acc _ _; rfl
  | succ fuel ih =>
    intro i next acc hd hi
    unfold sivLoop64
    have hlt : i < N := by omega
    have hseg : ¬ ((i + 2 ^ 32) % 2 ^ 64 > N) := by omega
    rw [if_pos hlt]
    simp only [hseg, if_false]
    cases hc : sivseg64 fuel xprimes next (2 ^ 32) n i with
    | none => rfl
    | some r =>
      simp only []
      exact ih ((i + 2 ^ 32) % 2 ^ 64) r.next _ (by omega) (by omega)

/-- For a bound above `2^64 - 2^32` the driver never returns in 64-bit arithmetic. -/
theorem siv64_beyond (N : Nat) (h1 : 2 ^ 64 - 2 ^ 32 < N) (h2 : N < 2 ^ 64) :
    ∀ fuel, siv64 fuel N = none := by
  intro fuel
  unfold siv64
  have e32 : (2 : Nat) ^ 32 = 4294967296 := by norm_num
  have e64 : (2 : Nat) ^ 64 = 18446744073709551616 := by norm_num
  rw [if_neg (by omega), ceilSqrt_beyond N h1 h2]
  simp only []
  cases hb : sivfirstseg64 fuel (List.replicate (2 ^ 32) 0) (List.replicate (2 ^ 32) 0)
      (2 ^ 32) with
  | none => rfl
  | some b =>
    simp only []
    exact sivLoop64_beyond N b.found b.primes h1 h2 fuel (2 ^ 32) b.next _ (dvd_refl _)
      (by omega)

theorem primesIn_add (a w1 w2 : Nat) :
    primesIn a (w1 + w2) = primesIn a w1 ++ primesIn (a + w1) w2 := by
  unfold primesIn
  rw [← List.filter_append]
  have := List.range'_append a w1 w2 1
  simp only [Nat.one_mul] at this
  rw [this, Nat.add_comm]

/-- A call of `sivseg` on positive primes with carries for a position `v` returns and
leaves the carries for `v + W`. -/
theorem sivseg_advances (v W n start fuel : Nat) (xprimes next : List Nat)
    (hpos : ∀ k, k < n → 0 < xprimes.getD k 0) (hlen : n ≤ next.length)
    (hc : ∀ k, k < n → IsCarry (xprimes.getD k 0) v (next.getD k 0)) (hf : W < fuel) :
    ∃ r, sivseg fuel xprimes next W n start = some r ∧ r.next.length = next.length ∧
      ∀ k, k < n → IsCarry (xprimes.getD k 0) (v + W) (r.next.getD k 0) := by
  obtain ⟨seg1, next1, e, c1, _, _, c4⟩ :=
    sieveLoop_spec fuel W xprimes hf n (List.replicate W true) next 0
      (fun k _ hk => hpos k (by omega))
  unfold sivseg
  simp only [e]
  refine ⟨_, rfl, c1, ?_⟩
  intro k hk
  obtain ⟨t, d1, d2, d3⟩ := c4 (by omega) k (Nat.zero_le _) (by omega)
  simp only []
  rw [d1]
  exact (hc k hk).advance (hpos k hk) W t d2 d3

/-- The window loop of `siv` in 64-bit arithmetic on a bound above `2^64 - 2^32`: every
pass takes a window of `2^32` positions, the start advances by `2^32` modulo `2^64`,
and the carries follow the position `2^32 * m` that is not reduced. -/
theorem sivLoopPrefix64_beyond (N n fuel : Nat) (xp : List Nat) (h1 : 2 ^ 64 - 2 ^ 32 < N)
    (h2 : N < 2 ^ 64) (hf : 2 ^ 32 < fuel) (hx : xp.take n = primesBelow (2 ^ 32))
    (hn : n = (primesBelow (2 ^ 32)).length) :
    ∀ k m st, st.segsize = 2 ^ 32 → st.i = (2 ^ 32 * m) % 2 ^ 64 → n ≤ st.next.length →
    (∀ j, j < n → IsCarry (xp.getD j 0) (2 ^ 32 * m) (st.next.getD j 0)) →
    ∃ st1, sivLoopPrefix64 fuel N xp n k st = some st1 ∧ st1.segsize = 2 ^ 32 ∧
      st1.i = (2 ^ 32 * (m + k)) % 2 ^ 64 ∧ n ≤ st1.next.length ∧
      (∀ j, j < n → IsCarry (xp.getD j 0) (2 ^ 32 * (m + k)) (st1.next.getD j 0)) ∧
      (∃ L, st1.acc.calls = st.acc.calls ++ L ∧ L.length = k ∧
        ∀ t, t < k → ∃ c, L[t]? = some c ∧ c.startnum = (2 ^ 32 * (m + t)) % 2 ^ 64 ∧
          c.segsize = 2 ^ 32 ∧ c.xprimes = xp ∧ c.numof_xprimes = n ∧
          ∀ j, j < n → IsCarry (xp.getD j 0) (2 ^ 32 * (m + t)) (c.next.getD j 0)) ∧
      (1 ≤ m → m + k ≤ 2 ^ 32 →
        st1.acc.emitted = st.acc.emitted ++ primesIn (2 ^ 32 * m) (2 ^ 32 * k)) := by
  obtain ⟨hA, _⟩ := xprimes_facts _ _ _ hx hn
  have hsq : ∀ a, a < 2 ^ 32 → a * a < 2 ^ 64 := by
    intro a ha
    have h3 : a ≤ 2 ^ 32 - 1 := by omega
    have h4 := Nat.mul_le_mul h3 h3
    have h5 : (2 ^ 32 - 1) * (2 ^ 32 - 1) < 2 ^ 64 := by norm_num
    omega
  intro k
  induction k with
  | zero =>
    intro m st hseg hi hlen hc
    refine ⟨st, rfl, hseg, by simpa using hi, hlen, by simpa using hc,
      ⟨[], by simp, rfl, fun t ht => by omega⟩, ?_⟩
    intro _ _
    simp [primesIn]
  | succ k ih =>
    intro m st hseg hi hlen hc
    have hlt : st.i < N := by omega
    have hcond : ¬ ((st.i + 2 ^ 32) % 2 ^ 64 > N) := by omega
    have hb : ∀ j, j < n → 2 ^ 32 + xp.getD j 0 ≤ 2 ^ 64 ∧ st.next.getD j 0 < 2 ^ 64 := by
      intro j hj
      have a1 := (hA j hj).2
      have a2 := (hc j hj).le_sq (hA j hj).1.pos
      have a3 := hsq _ a1
      exact ⟨by omega, by omega⟩
    obtain ⟨r, er, r1, r2⟩ :=
      sivseg_advances (2 ^ 32 * m) (2 ^ 32) n st.i fuel xp st.next
        (fun j hj => (hA j hj).1.pos) hlen hc hf
    have e64 : sivseg64 fuel xp st.next (2 ^ 32) n st.i = some r := by
      rw [sivseg64_eq fuel (2 ^ 32) n st.i xp st.next hb (by omega) (by norm_num)]
      exact er
    obtain ⟨st1, e1, g1, g2, g3, g4, ⟨L1, g5, g6, g7⟩, g8⟩ :=
      ih (m + 1)
        { segsize := 2 ^ 32, i := (st.i + 2 ^ 32) % 2 ^ 64, next := r.next,
          acc :=
            { emitted := st.acc.emitted ++ r.emitted,
              numof_primes := (st.acc.numof_primes + r.count) % 2 ^ 64,
              base := st.acc.base,
              calls := st.acc.calls ++
                [{ segsizeIn := st.segsize, segsize := 2 ^ 32, startnum := st.i,
                   xprimes := xp, numof_xprimes := n,
                   next := st.next, emitted := r.emitted, count := r.count }] } }
        rfl (by simp only []; omega) (by simp only []; omega)
        (by
          intro j hj
          have := r2 j hj
          have e : 2 ^ 32 * (m + 1) = 2 ^ 32 * m + 2 ^ 32 := by ring
          rw [e]
          exact this)
    refine ⟨st1, ?_, g1, ?_, g3, ?_, ?_, ?_⟩
    · unfold sivLoopPrefix64
      rw [if_pos hlt]
      simp only [hseg, hcond, if_false, e64]
      rw [hseg] at e1
      exact e1
    · rw [g2]
      congr 1
      ring
    · intro j hj
      have := g4 j hj
      have e : 2 ^ 32 * (m + (k + 1)) = 2 ^ 32 * (m + 1 + k) := by ring
      rw [e]
      exact this
    · refine ⟨{ segsizeIn := st.segsize, segsize := 2 ^ 32, startnum := st.i,
                xprimes := xp, numof_xprimes := n,
                next := st.next, emitted := r.emitted, count := r.count } :: L1,
        ?_, by simp [g6], ?_⟩
      · rw [g5]
        simp
      · intro t ht
        cases t with
        | zero =>
          refine ⟨{ segsizeIn := st.segsize, segsize := 2 ^ 32, startnum := st.i,
                    xprimes := xp, numof_xprimes := n,
                    next := st.next, emitted := r.emitted, count := r.count },
            List.getElem?_cons_zero, ?_, rfl, rfl, rfl, ?_⟩
          · simpa using hi
          · simpa using hc
        | succ t =>
          obtain ⟨c, q1, q2, q3, q4, q5, q6⟩ := g7 t (by omega)
          refine ⟨c, by simpa using q1, ?_, q3, q4, q5, ?_⟩
          · rw [q2]
            congr 1
            ring
          · intro j hj
            have := q6 j hj
            have e : 2 ^ 32 * (m + (t + 1)) = 2 ^ 32 * (m + 1 + t) := by ring
            rw [e]
            exact this
    · intro hm hmk
      have hi2 : st.i = 2 ^ 32 * m := by omega
      obtain ⟨r0, er0, s1, _⟩ :=
        sivseg_spec (2 ^ 32) (2 ^ 32 * m) (2 ^ 32) n fuel xp st.next (by norm_num)
          (by omega)
          (by
            have : 2 ^ 32 * m + 2 ^ 32 = 2 ^ 32 * (m + 1) := by ring
            rw [this]
            exact Nat.mul_le_mul_left _ (by omega))
          hx hn hc hf
      rw [hi2] at er
      rw [er] at er0
      have e0 : r = r0 := Option.some.inj er0
      rw [g8 (by omega) (by omega)]
      simp only []
      rw [e0, s1, List.append_assoc]
      congr 1
      have e : 2 ^ 32 * (k + 1) = 2 ^ 32 + 2 ^ 32 * k := by ring
      rw [e, primesIn_add]
      congr 2

/-- The run of `siv` in 64-bit arithmetic on a bound above `2^64 - 2^32`, after the base
sieve and `k` passes through the window loop. -/
theorem sivPrefix64_beyond (N fuel k : Nat) (h1 : 2 ^ 64 - 2 ^ 32 < N) (h2 : N < 2 ^ 64)
    (hf : 2 ^ 33 ≤ fuel) :
    ∃ (st : LoopState) (b : FirstResult), sivPrefix64 fuel k N = some st ∧
      st.i = (2 ^ 32 * (1 + k)) % 2 ^ 64 ∧
      b.primes.take b.found = primesBelow (2 ^ 32) ∧
      b.found = (primesBelow (2 ^ 32)).length ∧ st.acc.calls.length = k ∧
      (∀ t, t < k → ∃ c, st.acc.calls[t]? = some c ∧
        c.startnum = (2 ^ 32 * (1 + t)) % 2 ^ 64 ∧ c.segsize = 2 ^ 32 ∧
        c.xprimes = b.primes ∧ c.numof_xprimes = b.found ∧
        ∀ j, j < b.found → IsCarry (b.primes.getD j 0) (2 ^ 32 * (1 + t)) (c.next.getD j 0)) ∧
      (1 + k ≤ 2 ^ 32 → st.acc.emitted = primesBelow (2 ^ 32 * (1 + k))) := by
  have e33 : (2 : Nat) ^ 33 = 2 * 2 ^ 32 := by norm_num
  obtain ⟨b, eb, b1, b2, b3, b4, b5, b6, b7⟩ :=
    sivfirstseg_spec (2 ^ 32) fuel (List.replicate (2 ^ 32) 0) (List.replicate (2 ^ 32) 0)
      (by norm_num) (by omega) (by rw [List.length_replicate])
      (by rw [List.length_replicate])
  rw [List.length_replicate] at b5
  obtain ⟨st, e, g1, g2, g3, g4, ⟨L, g5, g6, g7⟩, g8⟩ :=
    sivLoopPrefix64_beyond N b.found fuel b.primes h1 h2 (by omega) b3 b2 k 1
      { segsize := 2 ^ 32, i := 2 ^ 32, next := b.next,
        acc := { emitted := b.emitted, numof_primes := b.found, base := some b, calls := [] } }
      rfl (by norm_num) (by simp only []; omega)
      (by simpa using b7)
  simp only [List.nil_append] at g5
  refine ⟨st, b, ?_, g2, b3, b2, by rw [g5, g6], ?_, ?_⟩
  · unfold sivPrefix64
    rw [ceilSqrt_beyond N h1 h2]
    simp only []
    rw [sivfirstseg64_eq (2 ^ 32) fuel _ _ (by norm_num) (le_refl _), eb]
    exact e
  · intro t ht
    rw [g5]
    exact g7 t ht
  · intro hk
    rw [g8 (le_refl _) hk]
    simp only []
    rw [b1]
    have e : 2 ^ 32 * (1 + k) = 2 ^ 32 + 2 ^ 32 * k := by ring
    rw [e, primesBelow_add]
    simp

/-! ## Primality certificates -/

theorem powMod_spec (a m : Nat) : ∀ f e, e < 2 ^ f → powMod a m f e = a ^ e % m := by
  intro f
  induction f with
  | zero =>
    intro e he
    have : e = 0 := by simpa using he
    subst this
    simp [powMod]
  | succ f ih =>
    intro e he
    unfold powMod
    by_cases h0 : e = 0
    · subst h0
      simp
    · rw [if_neg h0]
      have hlt : e / 2 < 2 ^ f := by
        rw [pow_succ] at he
        omega
      simp only []
      rw [ih _ hlt]
      have hx : (a ^ (e / 2) % m * (a ^ (e / 2) % m)) % m = (a ^ (e / 2) * a ^ (e / 2)) % m :=
        (Nat.mul_mod _ _ m).symm
      by_cases hev : e % 2 = 0
      · rw [if_pos hev, hx, ← pow_add]
        congr 2
        omega
      · rw [if_neg hev, hx, Nat.mod_mul_mod, ← pow_add, ← pow_succ]
        congr 2
        omega

theorem prime_mem_of_dvd_prod (q : Nat) (hq : q.Prime) : ∀ l : List Nat, q ∣ l.prod →
    (∀ x, x ∈ l → x.Prime) → q ∈ l := by
  intro l
  induction l with
  | nil =>
    intro h _
    simp only [List.prod_nil] at h
    exact absurd (Nat.dvd_one.mp h) hq.ne_one
  | cons x xs ih =>
    intro h hp
    rw [List.prod_cons] at h
    rcases (Nat.Prime.dvd_mul hq).mp h with h1 | h1
    · have := (Nat.prime_dvd_prime_iff_eq hq (hp x (List.mem_cons_self _ _))).mp h1
      rw [this]
      exact List.mem_cons_self _ _
    · exact List.mem_cons_of_mem _ (ih h1 (fun y hy => hp y (List.mem_cons_of_mem _ hy)))

/-- Lucas test with the prime factors of `p - 1` listed in `l`. -/
theorem lucas_cert (p a : Nat) (l : List Nat) (hp : 1 < p) (hlt : p - 1 < 2 ^ 70)
    (hprod : l.prod = p - 1) (hprime : ∀ x, x ∈ l → x.Prime)
    (h1 : powMod a p 70 (p - 1) = 1)
    (hall : ∀ x, x ∈ l → powMod a p 70 ((p - 1) / x) ≠ 1) : p.Prime := by
  have hone : (1 : Nat) % p = 1 := Nat.mod_eq_of_lt hp
  apply lucas_primality p (a : ZMod p)
  · have h : ((a ^ (p - 1) : ℕ) : ZMod p) = ((1 : ℕ) : ZMod p) := by
      rw [ZMod.natCast_eq_natCast_iff', hone, ← powMod_spec a p 70 (p - 1) hlt]
      exact h1
    simpa using h
  · intro q hq hd
    have hmem : q ∈ l := prime_mem_of_dvd_prod q hq l (by rw [hprod]; exact hd) hprime
    have hle : (p - 1) / q < 2 ^ 70 := lt_of_le_of_lt (Nat.div_le_self _ _) hlt
    intro hc
    have h : ((a ^ ((p - 1) / q) : ℕ) : ZMod p) = ((1 : ℕ) : ZMod p) := by
      simpa using hc
    rw [ZMod.natCast_eq_natCast_iff', hone, ← powMod_spec a p 70 _ hle] at h
    exact hall q hmem h

set_option maxRecDepth 100000 in
theorem prime_5594472617641 : Nat.Prime 5594472617641 := by
  apply lucas_cert 5594472617641 13 [2, 2, 2, 3, 5, 1427, 2131, 15331]
    (by norm_num) (by norm_num) (by norm_num)
  · intro x hx
    simp only [List.mem_cons, List.mem_singleton, List.not_mem_nil, or_false] at hx
    rcases hx with rfl | rfl | rfl | rfl | rfl | rfl | rfl | rfl <;> norm_num
  · decide
  · decide

set_option maxRecDepth 100000 in
/-- The largest prime below `2^64`, `2^64 - 59`. -/
theorem prime_below_two_pow : Nat.Prime 18446744073709551557 := by
  apply lucas_cert 18446744073709551557 2 [2, 2, 11, 137, 547, 5594472617641]
    (by norm_num) (by norm_num) (by norm_num)
  · intro x hx
    simp only [List.mem_cons, List.mem_singleton, List.not_mem_nil, or_false] at hx
    rcases hx with rfl | rfl | rfl | rfl | rfl | rfl
    · norm_num
    · norm_num
    · norm_num
    · norm_num
    · norm_num
    · exact prime_5594472617641
  · decide
  · decide

set_option maxRecDepth 100000 in
theorem prime_above_two_pow : Nat.Prime 18446744073709558081 := by
  apply lucas_cert 18446744073709558081 7
    [2, 2, 2, 2, 2, 2, 3, 3, 5, 167, 167, 409, 761, 859, 859]
    (by norm_num) (by norm_num) (by norm_num)
  · intro x hx
    simp only [List.mem_cons, List.mem_singleton, List.not_mem_nil, or_false] at hx
    rcases hx with rfl | rfl | rfl | rfl | rfl | rfl | rfl | rfl | rfl | rfl | rfl | rfl | rfl |
      rfl | rfl <;> norm_num
  · decide
  · decide

/-! ## Returning runs of the 64-bit driver are finite prefix runs -/

theorem crossOut64_mono (segsize step : Nat) : ∀ f seg j x,
    crossOut64 f seg segsize step j = some x →
    ∀ g, f ≤ g → crossOut64 g seg segsize step j = some x := by
  intro f
  induction f with
  | zero => intro seg j x h; simp [crossOut64] at h
  | succ f ih =>
    intro seg j x h g hg
    obtain ⟨g1, rfl⟩ : ∃ g1, g = g1 + 1 := ⟨g - 1, by omega⟩
    unfold crossOut64 at h ⊢
    by_cases hj : j < segsize
    · rw [if_pos hj] at h ⊢
      exact ih _ _ _ h g1 (by omega)
    · rw [if_neg hj] at h ⊢
      exact h

theorem sivfirstsegLoop64_mono (S : Nat) : ∀ f seg i st x,
    sivfirstsegLoop64 f S seg i st = some x →
    ∀ g, f ≤ g → sivfirstsegLoop64 g S seg i st = some x := by
  intro f
  induction f with
  | zero => intro seg i st x h; simp [sivfirstsegLoop64] at h
  | succ f ih =>
    intro seg i st x h g hg
    obtain ⟨g1, rfl⟩ : ∃ g1, g = g1 + 1 := ⟨g - 1, by omega⟩
    unfold sivfirstsegLoop64 at h ⊢
    cases hc : crossOut64 f seg S i ((i * i) % 2 ^ 64) with
    | none =>
      rw [hc] at h
      exact Option.noConfusion h
    | some y =>
      obtain ⟨seg1, j⟩ := y
      rw [crossOut64_mono S i f seg _ _ hc g1 (by omega)]
      simp only [hc] at h
      simp only []
      cases hn : findNext64 seg1 S i with
      | none =>
        simp only [hn] at h
        exact h
      | some i1 =>
        simp only [hn] at h
        exact ih _ _ _ _ h g1 (by omega)

theorem sivfirstseg64_mono (S f g : Nat) (primes next : List Nat) (x : FirstResult)
    (h : sivfirstseg64 f primes next S = some x) (hg : f ≤ g) :
    sivfirstseg64 g primes next S = some x := by
  unfold sivfirstseg64 at h ⊢
  cases hc : sivfirstsegLoop64 f S (firstSegment S) 2
    { primes := primes, next := next, found := 0 } with
  | none =>
    rw [hc] at h
    exact Option.noConfusion h
  | some st =>
    rw [sivfirstsegLoop64_mono S f _ _ _ _ hc g hg]
    simp only [hc] at h
    exact h

theorem sieveLoop64_mono (f g W : Nat) (xprimes : List Nat) (hg : f ≤ g) :
    ∀ n seg next i x, sieveLoop64 f xprimes W seg next n i = some x →
      sieveLoop64 g xprimes W seg next n i = some x := by
  intro n
  induction n with
  | zero => intro seg next i x h; simpa [sieveLoop64] using h
  | succ n ih =>
    intro seg next i x h
    unfold sieveLoop64 at h ⊢
    cases hc : crossOut64 f seg W (xprimes.getD i 0) (next.getD i 0) with
    | none =>
      rw [hc] at h
      exact Option.noConfusion h
    | some y =>
      obtain ⟨seg1, j⟩ := y
      rw [crossOut64_mono W _ f seg _ _ hc g hg]
      simp only [hc] at h
      exact ih _ _ _ _ h

theorem sivseg64_mono (f g W n start : Nat) (xprimes next : List Nat) (x : SegResult)
    (h : sivseg64 f xprimes next W n start = some x) (hg : f ≤ g) :
    sivseg64 g xprimes next W n start = some x := by
  unfold sivseg64 at h ⊢
  cases hc : sieveLoop64 f xprimes W (List.replicate W true) next n 0 with
  | none =>
    rw [hc] at h
    exact Option.noConfusion h
  | some y =>
    rw [sieveLoop64_mono f g W xprimes hg _ _ _ _ _ hc]
    simp only [hc] at h
    exact h

/-- A run of the window loop in 64-bit arithmetic that returns is a run of some number
`k` of passes after which the loop condition fails. -/
theorem sivLoop64_prefix (N n F : Nat) (xprimes : List Nat) : ∀ f segsize i next acc r,
    sivLoop64 f N xprimes n segsize i next acc = some r → f ≤ F →
    ∃ k st, sivLoopPrefix64 F N xprimes n k
        { segsize := segsize, i := i, next := next, acc := acc } = some st ∧
      ¬ st.i < N ∧ st.acc = r := by
  intro f
  induction f with
  | zero => intro segsize i next acc r h; simp [sivLoop64] at h
  | succ f ih =>
    intro segsize i next acc r h hF
    unfold sivLoop64 at h
    by_cases hlt : i < N
    · rw [if_pos hlt] at h
      simp only [] at h
      cases hc : sivseg64 f xprimes next
          (if (i + segsize) % 2 ^ 64 > N then (N + 2 ^ 64 - i) % 2 ^ 64 else segsize) n i with
      | none =>
        rw [hc] at h
        exact Option.noConfusion h
      | some y =>
        have hy := sivseg64_mono f F _ _ _ _ _ _ hc (by omega)
        simp only [hc] at h
        obtain ⟨k, st, e, h1, h2⟩ := ih _ _ _ _ _ h (by omega)
        refine ⟨k + 1, st, ?_, h1, h2⟩
        rw [sivLoopPrefix64.eq_2, if_pos hlt]
        simp only [hy]
        exact e
    · rw [if_neg hlt] at h
      exact ⟨0, _, rfl, hlt, Option.some.inj h⟩

/-- A run of `siv` in 64-bit arithmetic on a bound `N ≥ 5` that returns is a run of the
base sieve and of some number `k` of passes through the window loop, after which the
loop condition fails. -/
theorem siv64_prefix (N f F : Nat) (r : SivResult) (h5 : 5 ≤ N) (h : siv64 f N = some r)
    (hF : f ≤ F) :
    ∃ k st, sivPrefix64 F k N = some st ∧ ¬ st.i < N ∧ st.acc = r := by
  unfold siv64 at h
  rw [if_neg (by omega)] at h
  simp only [] at h
  cases hc : sivfirstseg64 f (List.replicate (ceilSqrt N) 0) (List.replicate (ceilSqrt N) 0)
      (ceilSqrt N) with
  | none =>
    rw [hc] at h
    exact Option.noConfusion h
  | some b =>
    have hb := sivfirstseg64_mono _ f F _ _ _ hc hF
    simp only [hc] at h
    obtain ⟨k, st, e, h1, h2⟩ := sivLoop64_prefix N b.found F b.primes f _ _ _ _ r h hF
    refine ⟨k, st, ?_, h1, h2⟩
    unfold sivPrefix64
    simp only [hb]
    exact e

/-! ## Claims on the driver, for the 64-bit program -/

/-- C2, at `N = 2^64 - 100`: in 64-bit arithmetic the driver, after the base sieve and
`2^32 - 1` passes through its window loop, has printed the prime `2^64 - 59`, which is
not below `N`: the window beginning at `2^64 - 2^32` is not truncated. -/
theorem siv64_emits_above_bound :
    2 ^ 64 - 100 < 2 ^ 64 ∧
      ∃ fuel k st, sivPrefix64 fuel k (2 ^ 64 - 100) = some st ∧
        ∃ v, v ∈ st.acc.emitted ∧ ¬ v < 2 ^ 64 - 100 := by
  refine ⟨by norm_num, 2 ^ 33, 2 ^ 32 - 1, ?_⟩
  obtain ⟨st, b, e, _, _, _, _, _, hem⟩ :=
    sivPrefix64_beyond (2 ^ 64 - 100) (2 ^ 33) (2 ^ 32 - 1) (by norm_num) (by norm_num)
      (le_refl _)
  refine ⟨st, e, 18446744073709551557, ?_, by norm_num⟩
  rw [hem (by norm_num), mem_primesBelow]
  exact ⟨by norm_num, prime_below_two_pow⟩

/-- C2, amended: for every bound `N ≤ 2^64 - 2^32` the driver returns in 64-bit arithmetic
(with the result of the exact run), and every value `v` it has emitted, be it by the
base sieve or by a segment sieve call, satisfies `1 < v < N` and has no divisor other
than `1` and `v`. -/
theorem siv64_emits_only_primes (N : Nat) (hN : N ≤ 2 ^ 64 - 2 ^ 32) :
    ∃ r, Siv64Returns N r ∧ SivReturns N r ∧
      (∀ v, v ∈ r.emitted → 1 < v ∧ v < N ∧ ∀ d, d ∣ v → d = 1 ∨ d = v) ∧
      (∀ b, r.base = some b →
        ∀ v, v ∈ b.emitted → 1 < v ∧ v < N ∧ ∀ d, d ∣ v → d = 1 ∨ d = v) ∧
      (∀ c, c ∈ r.calls →
        ∀ v, v ∈ c.emitted → 1 < v ∧ v < N ∧ ∀ d, d ∣ v → d = 1 ∨ d = v) := by
  obtain ⟨r, hr64, hr, h1, _, h3, h4⟩ := siv64_outcome N hN
  have key : ∀ v, v ∈ r.emitted → 1 < v ∧ v < N ∧ ∀ d, d ∣ v → d = 1 ∨ d = v := by
    intro v hv
    rw [h1, mem_primesBelow] at hv
    exact ⟨hv.2.one_lt, hv.1, (Nat.prime_def.mp hv.2).2⟩
  refine ⟨r, hr64, hr, key, ?_, ?_⟩
  · intro b hb v hv
    by_cases h5 : N < 5
    · rw [(h3 h5).1] at hb
      exact Option.noConfusion hb
    · obtain ⟨b1, hacc, _⟩ := h4 (by omega)
      have e : b1 = b := Option.some.inj (hacc.base_eq.symm.trans hb)
      subst e
      apply key
      rw [hacc.emitted_split]
      exact List.mem_append_left _ hv
  · intro c hc v hv
    by_cases h5 : N < 5
    · rw [(h3 h5).2] at hc
      simp at hc
    · obtain ⟨b1, hacc, _⟩ := h4 (by omega)
      apply key
      rw [hacc.emitted_split]
      apply List.mem_append_right
      rw [List.mem_flatten]
      exact ⟨c.emitted, List.mem_map_of_mem _ hc, hv⟩

theorem siv64_emits_only_primes_witness :
    30 ≤ 2 ^ 64 - 2 ^ 32 ∧ ∃ r, Siv64Returns 30 r ∧ SivReturns 30 r ∧
      (∀ v, v ∈ r.emitted → 1 < v ∧ v < 30 ∧ ∀ d, d ∣ v → d = 1 ∨ d = v) ∧
      (∀ b, r.base = some b →
        ∀ v, v ∈ b.emitted → 1 < v ∧ v < 30 ∧ ∀ d, d ∣ v → d = 1 ∨ d = v) ∧
      (∀ c, c ∈ r.calls →
        ∀ v, v ∈ c.emitted → 1 < v ∧ v < 30 ∧ ∀ d, d ∣ v → d = 1 ∨ d = v) :=
  ⟨by norm_num, siv64_emits_only_primes 30 (by norm_num)⟩

/-- C3, at `N = 2^64 - 1`: in 64-bit arithmetic the driver returns for no fuel, so it
reports no final count: the window start wraps to `0` after the window that begins at
`2^64 - 2^32`, and after any number `k` of passes through the window loop the loop
variable is still below the bound. -/
theorem siv64_reports_no_count :
    2 ^ 64 - 1 < 2 ^ 64 ∧ (∀ fuel, siv64 fuel (2 ^ 64 - 1) = none) ∧
      ∀ k, ∃ st, sivPrefix64 (2 ^ 33) k (2 ^ 64 - 1) = some st ∧ st.i < 2 ^ 64 - 1 ∧
        st.acc.calls.length = k := by
  refine ⟨by norm_num, siv64_beyond (2 ^ 64 - 1) (by norm_num) (by norm_num), ?_⟩
  intro k
  obtain ⟨st, _, e, hi, _, _, hl, _⟩ :=
    sivPrefix64_beyond (2 ^ 64 - 1) (2 ^ 33) k (by norm_num) (by norm_num) (le_refl _)
  refine ⟨st, e, ?_, hl⟩
  rw [hi]
  omega

theorem printLoop64_count (seg : List Bool) (start : Nat) : ∀ n i c, c + n < 2 ^ 64 →
    (printLoop64 seg start n i c).2 = c + (printLoop64 seg start n i c).1.length := by
  intro n
  induction n with
  | zero => intro i c _; rfl
  | succ n ih =>
    intro i c h
    unfold printLoop64
    by_cases hm : seg.getD i false = true
    · rw [if_pos hm]
      simp only [List.length_cons]
      rw [Nat.mod_eq_of_lt (by omega : c + 1 < 2 ^ 64), ih _ _ (by omega)]
      omega
    · rw [if_neg hm]
      exact ih _ _ (by omega)

/-- C3, amended: for every bound `N ≤ 2^64 - 2^32` the driver returns in 64-bit arithmetic
and the count it reports is the number of values it has emitted; the value returned by
the base sieve is the number of values it printed, the value returned by each segment
sieve call is the number of values the call printed, and for `N ≥ 5` the reported count
is the sum of these return values, while for `N < 5` no sieve is called and the count
is at most 2.  The two sieves return the number of values they print on any arguments,
in exact arithmetic and, for a window size below `2^64`, in 64-bit arithmetic. -/
theorem siv64_count_eq_length (N : Nat) (hN : N ≤ 2 ^ 64 - 2 ^ 32) :
    (∃ r, Siv64Returns N r ∧ SivReturns N r ∧ r.numof_primes = r.emitted.length ∧
      (∀ b, r.base = some b → b.found = b.emitted.length) ∧
      (∀ c, c ∈ r.calls → c.count = c.emitted.length) ∧
      (5 ≤ N → ∃ b, r.base = some b ∧
        r.numof_primes = b.found + (r.calls.map (fun c => c.count)).sum) ∧
      (N < 5 → r.base = none ∧ r.calls = [] ∧ r.numof_primes ≤ 2)) ∧
    (∀ fuel primes next S b, sivfirstseg fuel primes next S = some b →
      b.found = b.emitted.length) ∧
    (∀ fuel xprimes next W n start x, sivseg fuel xprimes next W n start = some x →
      x.count = x.emitted.length) ∧
    (∀ fuel primes next S b, sivfirstseg64 fuel primes next S = some b →
      b.found = b.emitted.length) ∧
    (∀ fuel xprimes next W n start x, W < 2 ^ 64 →
      sivseg64 fuel xprimes next W n start = some x → x.count = x.emitted.length) := by
  have hfirst : ∀ fuel primes next S b, sivfirstseg fuel primes next S = some b →
      b.found = b.emitted.length := by
    intro fuel primes next S b h
    unfold sivfirstseg at h
    cases hc : sivfirstsegLoop fuel S (firstSegment S) 2
      { primes := primes, next := next, found := 0 } with
    | none =>
      rw [hc] at h
      exact Option.noConfusion h
    | some st =>
      rw [hc] at h
      have e := Option.some.inj h
      rw [← e]
      simp
  have hseg : ∀ fuel xprimes next W n start x, sivseg fuel xprimes next W n start = some x →
      x.count = x.emitted.length := by
    intro fuel xprimes next W n start x h
    unfold sivseg at h
    cases hc : sieveLoop fuel xprimes W (List.replicate W true) next n 0 with
    | none =>
      rw [hc] at h
      exact Option.noConfusion h
    | some y =>
      rw [hc] at h
      have e := Option.some.inj h
      rw [← e]
      simp [printLoop_spec]
  have hfirst64 : ∀ fuel primes next S b, sivfirstseg64 fuel primes next S = some b →
      b.found = b.emitted.length := by
    intro fuel primes next S b h
    unfold sivfirstseg64 at h
    cases hc : sivfirstsegLoop64 fuel S (firstSegment S) 2
      { primes := primes, next := next, found := 0 } with
    | none =>
      rw [hc] at h
      exact Option.noConfusion h
    | some st =>
      rw [hc] at h
      have e := Option.some.inj h
      rw [← e]
      simp
  have hseg64 : ∀ fuel xprimes next W n start x, W < 2 ^ 64 →
      sivseg64 fuel xprimes next W n start = some x → x.count = x.emitted.length := by
    intro fuel xprimes next W n start x hW h
    unfold sivseg64 at h
    cases hc : sieveLoop64 fuel xprimes W (List.replicate W true) next n 0 with
    | none =>
      rw [hc] at h
      exact Option.noConfusion h
    | some y =>
      rw [hc] at h
      have e := Option.some.inj h
      rw [← e]
      simp only []
      rw [printLoop64_count _ _ _ _ _ (by omega), Nat.zero_add]
  refine ⟨?_, hfirst, hseg, hfirst64, hseg64⟩
  obtain ⟨r, hr64, hr, h1, h2, h3, h4⟩ := siv64_outcome N hN
  refine ⟨r, hr64, hr, by rw [h2, h1], ?_, ?_, ?_, ?_⟩
  · intro b hb
    by_cases h5 : N < 5
    · rw [(h3 h5).1] at hb
      exact Option.noConfusion hb
    · obtain ⟨b1, hacc, hb1, hb2, _⟩ := h4 (by omega)
      have e : b1 = b := Option.some.inj (hacc.base_eq.symm.trans hb)
      subst e
      rw [hb2, hb1]
  · intro c hc
    by_cases h5 : N < 5
    · rw [(h3 h5).2] at hc
      simp at hc
    · obtain ⟨b1, hacc, _⟩ := h4 (by omega)
      exact (hacc.calls_ok c hc).count_eq
  · intro h5
    obtain ⟨b1, hacc, _⟩ := h4 h5
    exact ⟨b1, hacc.base_eq, hacc.numof_split⟩
  · intro h5
    refine ⟨(h3 h5).1, (h3 h5).2, ?_⟩
    rw [h2]
    have : (primesBelow N).length + 2 ≤ N ∨ N < 2 := length_primesBelow_le N
    rcases this with h | h
    · omega
    · have : N = 0 ∨ N = 1 := by omega
      rcases this with rfl | rfl
      · simp [primesBelow]
      · rw [primesBelow_eq_of_no_prime 0 1 (by omega)
          (by intro m _ hm hp; have := hp.two_le; omega)]
        simp [primesBelow]

theorem siv64_count_eq_length_witness :
    30 ≤ 2 ^ 64 - 2 ^ 32 ∧
      ((∃ r, Siv64Returns 30 r ∧ SivReturns 30 r ∧ r.numof_primes = r.emitted.length ∧
        (∀ b, r.base = some b → b.found = b.emitted.length) ∧
        (∀ c, c ∈ r.calls → c.count = c.emitted.length) ∧
        (5 ≤ 30 → ∃ b, r.base = some b ∧
          r.numof_primes = b.found + (r.calls.map (fun c => c.count)).sum) ∧
        (30 < 5 → r.base = none ∧ r.calls = [] ∧ r.numof_primes ≤ 2)) ∧
      (∀ fuel primes next S b, sivfirstseg fuel primes next S = some b →
        b.found = b.emitted.length) ∧
      (∀ fuel xprimes next W n start x, sivseg fuel xprimes next W n start = some x →
        x.count = x.emitted.length) ∧
      (∀ fuel primes next S b, sivfirstseg64 fuel primes next S = some b →
        b.found = b.emitted.length) ∧
      (∀ fuel xprimes next W n start x, W < 2 ^ 64 →
        sivseg64 fuel xprimes next W n start = some x → x.count = x.emitted.length)) :=
  ⟨by norm_num, siv64_count_eq_length 30 (by norm_num)⟩

theorem IsCarry.lt_of_sq_le {p start c : Nat} (h : IsCarry p start c) (hp : 0 < p)
    (hs : p * p ≤ start) : c < p := by
  obtain ⟨⟨t0, e0⟩, hl⟩ := h
  cases t0 with
  | zero =>
    simp only [Nat.zero_mul, Nat.add_zero] at e0
    omega
  | succ u =>
    rw [Nat.add_mul, Nat.one_mul] at e0
    by_cases hs1 : start ≤ p * p + u * p
    · have := hl u hs1
      omega
    · omega

/-- One more pass through the window loop after `k` passes. -/
theorem sivLoopPrefix64_succ (fuel N : Nat) (xp : List Nat) (n : Nat) : ∀ k st s1,
    sivLoopPrefix64 fuel N xp n k st = some s1 →
    sivLoopPrefix64 fuel N xp n (k + 1) st = sivLoopPrefix64 fuel N xp n 1 s1 := by
  intro k
  induction k with
  | zero =>
    intro st s1 h
    have e : st = s1 := Option.some.inj h
    rw [e]
  | succ k ih =>
    intro st s1 h
    rw [sivLoopPrefix64.eq_2] at h
    conv_lhs => rw [sivLoopPrefix64.eq_2]
    by_cases hc : st.i < N
    · rw [if_pos hc] at h ⊢
      cases hs : sivseg64 fuel xp st.next
          (if (st.i + st.segsize) % 2 ^ 64 > N then (N + 2 ^ 64 - st.i) % 2 ^ 64
            else st.segsize) n st.i with
      | none =>
        simp only [hs] at h
        exact Option.noConfusion h
      | some r =>
        simp only [hs] at h ⊢
        exact ih _ _ h
    · rw [if_neg hc] at h ⊢
      have e : st = s1 := Option.some.inj h
      rw [← e, sivLoopPrefix64.eq_2, if_neg hc]

/-- One pass through the window loop with a window that is not truncated. -/
theorem sivLoopPrefix64_one (fuel N : Nat) (xp : List Nat) (n : Nat) (st : LoopState)
    (r : SegResult) (h1 : st.i < N) (h2 : ¬ ((st.i + st.segsize) % 2 ^ 64 > N))
    (h3 : sivseg64 fuel xp st.next st.segsize n st.i = some r) :
    sivLoopPrefix64 fuel N xp n 1 st =
      some { segsize := st.segsize, i := (st.i + st.segsize) % 2 ^ 64, next := r.next,
             acc :=
               { emitted := st.acc.emitted ++ r.emitted,
                 numof_primes := (st.acc.numof_primes + r.count) % 2 ^ 64,
                 base := st.acc.base,
                 calls := st.acc.calls ++
                   [{ segsizeIn := st.segsize, segsize := st.segsize, startnum := st.i,
                      xprimes := xp, numof_xprimes := n,
                      next := st.next, emitted := r.emitted, count := r.count }] } } := by
  rw [sivLoopPrefix64.eq_2, if_pos h1]
  simp only [h2, if_false, h3]
  rw [sivLoopPrefix64.eq_1]

/-- The run of `siv` in 64-bit arithmetic on a bound above `2^64 - 2^32`, after the base
sieve and `2^32` passes through the window loop: the last window begins at `0`, after
the window that begins at `2^64 - 2^32`, and the call for it prints every `j < 2^32`
for which `2^64 + j` is prime, after all the primes below `2^64`. -/
theorem sivPrefix64_wrap (N fuel : Nat) (h1 : 2 ^ 64 - 2 ^ 32 < N) (h2 : N < 2 ^ 64)
    (hf : 2 ^ 33 ≤ fuel) :
    ∃ (st : LoopState) (c d : SegCall), sivPrefix64 fuel (2 ^ 32 - 1 + 1) N = some st ∧
      st.acc.emitted = primesBelow (2 ^ 64) ++ d.emitted ∧
      st.acc.calls[2 ^ 32 - 2]? = some c ∧ st.acc.calls[2 ^ 32 - 2 + 1]? = some d ∧
      c.startnum = 2 ^ 64 - 2 ^ 32 ∧ c.segsize = 2 ^ 32 ∧ d.startnum = 0 ∧
      d.segsize = 2 ^ 32 ∧
      ∀ j, j < 2 ^ 32 → (2 ^ 64 + j).Prime → j ∈ d.emitted := by
  have e33 : (2 : Nat) ^ 33 = 2 * 2 ^ 32 := by norm_num
  have e64 : 2 ^ 32 * (1 + (2 ^ 32 - 1)) = 2 ^ 64 := by norm_num
  have hsq : ∀ a, a < 2 ^ 32 → a * a < 2 ^ 64 := by
    intro a ha
    have h3 : a ≤ 2 ^ 32 - 1 := by omega
    have h4 := Nat.mul_le_mul h3 h3
    have h5 : (2 ^ 32 - 1) * (2 ^ 32 - 1) < 2 ^ 64 := by norm_num
    omega
  obtain ⟨b, eb, b1, b2, b3, b4, b5, b6, b7⟩ :=
    sivfirstseg_spec (2 ^ 32) fuel (List.replicate (2 ^ 32) 0) (List.replicate (2 ^ 32) 0)
      (by norm_num) (by omega) (by rw [List.length_replicate])
      (by rw [List.length_replicate])
  rw [List.length_replicate] at b5
  obtain ⟨sa, ea, g1, g2, g3, g4, ⟨L, g5, g6, g7⟩, g8⟩ :=
    sivLoopPrefix64_beyond N b.found fuel b.primes h1 h2 (by omega) b3 b2 (2 ^ 32 - 1) 1
      { segsize := 2 ^ 32, i := 2 ^ 32, next := b.next,
        acc := { emitted := b.emitted, numof_primes := b.found, base := some b, calls := [] } }
      rfl (by norm_num) (by simp only []; omega)
      (by simpa using b7)
  simp only [List.nil_append] at g5
  rw [e64] at g2 g4
  have hi : sa.i = 0 := by
    rw [g2]
    norm_num
  have g8a := g8 (le_refl _) (by norm_num)
  simp only [Nat.mul_one] at g8a
  obtain ⟨hA, _⟩ := xprimes_facts _ _ _ b3 b2
  have hb : ∀ j, j < b.found →
      2 ^ 32 + b.primes.getD j 0 ≤ 2 ^ 64 ∧ sa.next.getD j 0 < 2 ^ 64 := by
    intro j hj
    have a1 := (hA j hj).2
    have a2 := (g4 j hj).le_sq (hA j hj).1.pos
    have a3 := hsq _ a1
    exact ⟨by omega, by omega⟩
  obtain ⟨r, er, _, _, hm, _⟩ :=
    sivseg_crossing_rule_exact (2 ^ 32) fuel b.found 0 b.primes sa.next
      (fun k hk => (hA k hk).1.pos) g3 (by omega)
  have er64 : sivseg64 fuel b.primes sa.next sa.segsize b.found sa.i = some r := by
    rw [g1, hi, sivseg64_eq fuel (2 ^ 32) b.found 0 b.primes sa.next hb (by norm_num)
      (by norm_num)]
    exact er
  obtain ⟨c, q1, q2, q3, _⟩ := g7 (2 ^ 32 - 2) (by norm_num)
  have hone := sivLoopPrefix64_one fuel N b.primes b.found sa r (by omega)
    (by rw [g1, hi]; omega) er64
  refine ⟨{ segsize := sa.segsize, i := (sa.i + sa.segsize) % 2 ^ 64, next := r.next,
            acc :=
              { emitted := sa.acc.emitted ++ r.emitted,
                numof_primes := (sa.acc.numof_primes + r.count) % 2 ^ 64,
                base := sa.acc.base,
                calls := sa.acc.calls ++
                  [{ segsizeIn := sa.segsize, segsize := sa.segsize, startnum := sa.i,
                     xprimes := b.primes, numof_xprimes := b.found,
                     next := sa.next, emitted := r.emitted, count := r.count }] } }, c,
    { segsizeIn := sa.segsize, segsize := sa.segsize, startnum := sa.i,
      xprimes := b.primes, numof_xprimes := b.found,
      next := sa.next, emitted := r.emitted, count := r.count }, ?_, ?_, ?_, ?_, ?_, q3, hi,
    g1, ?_⟩
  · unfold sivPrefix64
    rw [ceilSqrt_beyond N h1 h2]
    simp only []
    rw [sivfirstseg64_eq (2 ^ 32) fuel _ _ (by norm_num) (le_refl _), eb]
    simp only []
    rw [sivLoopPrefix64_succ fuel N b.primes b.found _ _ _ ea]
    exact hone
  · simp only []
    rw [g8a, b1,
      (congrArg primesBelow
        (by norm_num : (2 : Nat) ^ 64 = 2 ^ 32 + 2 ^ 32 * (2 ^ 32 - 1))).trans
        (primesBelow_add _ _)]
  · simp only []
    rw [g5, List.getElem?_append_left (by rw [g6]; norm_num)]
    exact q1
  · simp only []
    rw [g5, List.getElem?_append_right (by rw [g6]; norm_num), g6]
    rfl
  · rw [q2]
    norm_num
  · intro j hj hp
    refine (hm j).mpr ⟨j, hj, rfl, ?_⟩
    rintro ⟨k, t, hk, hh⟩
    have a1 := ((g4 k hk).hit_iff (hA k hk).1.pos j).mp ⟨t, hh⟩
    have a2 := (Nat.prime_dvd_prime_iff_eq (hA k hk).1 hp).mp a1.2
    have a3 := (hA k hk).2
    omega

/-- C4, at `N = 2^64 - 1`: in 64-bit arithmetic the driver, after the base sieve and
`2^32` passes through its window loop, has made a call for the window that begins at
`2^64 - 2^32` and then a call for a window that begins at `0`, and what it has printed
is not increasing: the value `6465` follows the prime `2^64 - 59`. -/
theorem siv64_emitted_not_increasing :
    2 ^ 64 - 1 < 2 ^ 64 ∧
      ∃ fuel k st i c d, sivPrefix64 fuel k (2 ^ 64 - 1) = some st ∧
        ¬ st.acc.emitted.Pairwise (fun a b => a < b) ∧
        st.acc.calls[i]? = some c ∧ st.acc.calls[i + 1]? = some d ∧
        c.startnum = 2 ^ 64 - 2 ^ 32 ∧ c.segsize = 2 ^ 32 ∧ d.startnum = 0 ∧
        ¬ (c.startnum + c.segsize ≤ d.startnum) ∧ ¬ (ceilSqrt (2 ^ 64 - 1) ≤ d.startnum) := by
  refine ⟨by norm_num, 2 ^ 33, 2 ^ 32 - 1 + 1, ?_⟩
  obtain ⟨st, c, d, e, hem, hc, hd, c1, c2, d1, _, hj⟩ :=
    sivPrefix64_wrap (2 ^ 64 - 1) (2 ^ 33) (by norm_num) (by norm_num) (le_refl _)
  refine ⟨st, 2 ^ 32 - 2, c, d, e, ?_, hc, hd, c1, c2, d1, ?_, ?_⟩
  · rw [hem, List.pairwise_append]
    rintro ⟨_, _, h⟩
    have := h 18446744073709551557
      ((mem_primesBelow _ _).mpr ⟨by norm_num, prime_below_two_pow⟩) 6465
      (hj 6465 (by norm_num) prime_above_two_pow)
    omega
  · rw [c1, c2, d1]
    norm_num
  · rw [d1, ceilSqrt_beyond _ (by norm_num) (by norm_num)]
    norm_num

/-- C4, amended: for every bound `N ≤ 2^64 - 2^32` the driver returns in 64-bit arithmetic
(with the result of the exact run) and the sequence it has emitted is strictly
increasing; the base sieve prints strictly increasing values below `S = ceilSqrt N`,
each segment sieve call prints strictly increasing values of its window
`[startnum, startnum + segsize)`, and the windows, taken in call order, begin at `S`,
follow one another without gap or overlap, and are not empty. -/
theorem siv64_emitted_increasing (N : Nat) (hN : N ≤ 2 ^ 64 - 2 ^ 32) :
    ∃ r, Siv64Returns N r ∧ SivReturns N r ∧ r.emitted.Pairwise (fun a b => a < b) ∧
      (∀ b, r.base = some b →
        b.emitted.Pairwise (fun a b => a < b) ∧ ∀ v, v ∈ b.emitted → v < ceilSqrt N) ∧
      (∀ c, c ∈ r.calls → c.emitted.Pairwise (fun a b => a < b) ∧ 1 ≤ c.segsize ∧
        ∀ v, v ∈ c.emitted → c.startnum ≤ v ∧ v < c.startnum + c.segsize) ∧
      r.calls.Pairwise (fun c d => c.startnum + c.segsize ≤ d.startnum) ∧
      (∀ c, c ∈ r.calls → ceilSqrt N ≤ c.startnum) ∧
      (5 ≤ N → Tiles (ceilSqrt N) N r.calls) := by
  obtain ⟨r, hr64, hr, h1, _, h3, h4⟩ := siv64_outcome N hN
  refine ⟨r, hr64, hr, by rw [h1]; exact primesBelow_pairwise N, ?_⟩
  by_cases h5 : N < 5
  · obtain ⟨e1, e2⟩ := h3 h5
    rw [e1, e2]
    refine ⟨fun b hb => Option.noConfusion hb, fun c hc => by simp at hc, List.Pairwise.nil,
      fun c hc => by simp at hc, fun h => by omega⟩
  · obtain ⟨b1, hacc, hb1, _⟩ := h4 (by omega)
    have hS := ceilSqrt_ge_three N (by omega)
    refine ⟨?_, ?_, hacc.tiles.pairwise, hacc.tiles.start_ge, fun _ => hacc.tiles⟩
    · intro b hb
      have e : b1 = b := Option.some.inj (hacc.base_eq.symm.trans hb)
      subst e
      rw [hb1]
      exact ⟨primesBelow_pairwise _, fun v hv => ((mem_primesBelow _ _).mp hv).1⟩
    · intro c hc
      have hok := hacc.calls_ok c hc
      rw [hok.emitted_eq]
      refine ⟨primesIn_pairwise _ _, (hok.size_bounds (by omega)).1, ?_⟩
      intro v hv
      exact ((mem_primesIn _ _ _).mp hv).1

theorem siv64_emitted_increasing_witness :
    30 ≤ 2 ^ 64 - 2 ^ 32 ∧
      ∃ r, Siv64Returns 30 r ∧ SivReturns 30 r ∧ r.emitted.Pairwise (fun a b => a < b) ∧
        (∀ b, r.base = some b →
          b.emitted.Pairwise (fun a b => a < b) ∧ ∀ v, v ∈ b.emitted → v < ceilSqrt 30) ∧
        (∀ c, c ∈ r.calls → c.emitted.Pairwise (fun a b => a < b) ∧ 1 ≤ c.segsize ∧
          ∀ v, v ∈ c.emitted → c.startnum ≤ v ∧ v < c.startnum + c.segsize) ∧
        r.calls.Pairwise (fun c d => c.startnum + c.segsize ≤ d.startnum) ∧
        (∀ c, c ∈ r.calls → ceilSqrt 30 ≤ c.startnum) ∧
        (5 ≤ 30 → Tiles (ceilSqrt 30) 30 r.calls) :=
  ⟨by norm_num, siv64_emitted_increasing 30 (by norm_num)⟩

/-- C12, at `N = 2^64 - 1`: in 64-bit arithmetic the driver, after the base sieve and
`2^32` passes through its window loop, has called the segment sieve for a window that
begins at `0`, and at this call no base prime has the carry of the claim: the carry
`c_k` is below `p_k`, and `c_k + 0` is not an element of `{p_k², p_k² + p_k, ...}`. -/
theorem siv64_carries_wrap :
    5 ≤ 2 ^ 64 - 1 ∧ 2 ^ 64 - 1 < 2 ^ 64 ∧
      ∃ fuel k st d, sivPrefix64 fuel k (2 ^ 64 - 1) = some st ∧ d ∈ st.acc.calls ∧
        d.startnum = 0 ∧ 0 < d.numof_xprimes ∧
        ∀ j, j < d.numof_xprimes →
          d.next.getD j 0 < d.xprimes.getD j 0 ∧
          ¬ IsCarry (d.xprimes.getD j 0) d.startnum (d.next.getD j 0) := by
  refine ⟨by norm_num, by norm_num, 2 ^ 33, 2 ^ 32, ?_⟩
  obtain ⟨st, b, e, _, hx, hn, _, hcalls, _⟩ :=
    sivPrefix64_beyond (2 ^ 64 - 1) (2 ^ 33) (2 ^ 32) (by norm_num) (by norm_num) (le_refl _)
  obtain ⟨d, d1, d2, _, d4, d5, d6⟩ := hcalls (2 ^ 32 - 1) (by norm_num)
  obtain ⟨hA, hB⟩ := xprimes_facts _ _ _ hx hn
  have hsq : ∀ a, a < 2 ^ 32 → a * a < 2 ^ 64 := by
    intro a ha
    have h3 : a ≤ 2 ^ 32 - 1 := by omega
    have h4 := Nat.mul_le_mul h3 h3
    have h5 : (2 ^ 32 - 1) * (2 ^ 32 - 1) < 2 ^ 64 := by norm_num
    omega
  have e64 : 2 ^ 32 * (1 + (2 ^ 32 - 1)) = 2 ^ 64 := by norm_num
  rw [e64] at d2 d6
  have hd0 : d.startnum = 0 := by
    rw [d2]
    norm_num
  refine ⟨st, d, e, List.mem_iff_getElem?.mpr ⟨_, d1⟩, hd0, ?_, ?_⟩
  · rw [d5]
    obtain ⟨k, hk, _⟩ := hB 2 Nat.prime_two (by norm_num)
    omega
  · intro j hj
    rw [d5] at hj
    rw [d4, hd0]
    have hp := (hA j hj).1
    have hlt := (d6 j hj).lt_of_sq_le hp.pos (by have := hsq _ (hA j hj).2; omega)
    refine ⟨hlt, ?_⟩
    intro hcar
    have := hcar.eq_sq (Nat.zero_le _)
    have h4 : b.primes.getD j 0 ≤ b.primes.getD j 0 * b.primes.getD j 0 := Nat.le_mul_self _
    omega

/-- C12, amended: for every bound `N` with `5 ≤ N ≤ 2^64 - 2^32` the driver returns in
64-bit arithmetic (with the result of the exact run); its windows begin at
`S = ceilSqrt N` and follow one another up to `N`; at every call of the segment sieve,
for a window beginning at `startnum`, each base prime `p` has a carry `c` in `next` such
that `c + startnum` is the least element of `{p², p² + p, p² + 2p, ...}` that is at least
`startnum`; the same holds right after the base sieve with `startnum = S`, where a
prime with `p² ≥ S` has carry exactly `p² - S`. -/
theorem siv64_carry_invariant (N : Nat) (h5 : 5 ≤ N) (hN : N ≤ 2 ^ 64 - 2 ^ 32) :
    ∃ r b, Siv64Returns N r ∧ SivReturns N r ∧ r.base = some b ∧
      b.primes.take b.found = primesBelow (ceilSqrt N) ∧
      Tiles (ceilSqrt N) N r.calls ∧
      (∀ c, c ∈ r.calls → c.xprimes = b.primes ∧ c.numof_xprimes = b.found ∧
        ∀ k, k < b.found → IsCarry (b.primes.getD k 0) c.startnum (c.next.getD k 0)) ∧
      (∀ k, k < b.found → IsCarry (b.primes.getD k 0) (ceilSqrt N) (b.next.getD k 0)) ∧
      (∀ k, k < b.found → ceilSqrt N ≤ b.primes.getD k 0 * b.primes.getD k 0 →
        b.next.getD k 0 = b.primes.getD k 0 * b.primes.getD k 0 - ceilSqrt N) := by
  obtain ⟨r, hr64, hr, _, _, _, h4⟩ := siv64_outcome N hN
  obtain ⟨b, hacc, _, _, hb3, _, _, hb6, _⟩ := h4 h5
  refine ⟨r, b, hr64, hr, hacc.base_eq, hb3, hacc.tiles, ?_, hb6, ?_⟩
  · intro c hc
    have hok := hacc.calls_ok c hc
    exact ⟨hok.xprimes_eq, hok.numof_eq, hok.carries⟩
  · intro k hk hsq
    exact (hb6 k hk).eq_sq hsq

theorem siv64_carry_invariant_witness :
    5 ≤ 30 ∧ 30 ≤ 2 ^ 64 - 2 ^ 32 ∧
      ∃ r b, Siv64Returns 30 r ∧ SivReturns 30 r ∧ r.base = some b ∧
        b.primes.take b.found = primesBelow (ceilSqrt 30) ∧
        Tiles (ceilSqrt 30) 30 r.calls ∧
        (∀ c, c ∈ r.calls → c.xprimes = b.primes ∧ c.numof_xprimes = b.found ∧
          ∀ k, k < b.found → IsCarry (b.primes.getD k 0) c.startnum (c.next.getD k 0)) ∧
        (∀ k, k < b.found → IsCarry (b.primes.getD k 0) (ceilSqrt 30) (b.next.getD k 0)) ∧
        (∀ k, k < b.found → ceilSqrt 30 ≤ b.primes.getD k 0 * b.primes.getD k 0 →
          b.next.getD k 0 = b.primes.getD k 0 * b.primes.getD k 0 - ceilSqrt 30) :=
  ⟨by norm_num, by norm_num, siv64_carry_invariant 30 (by norm_num) (by norm_num)⟩

/-! ## Claims on the two sieves, for the 64-bit program -/

theorem prime_1462116529 : Nat.Prime 1462116529 := by
  apply lucas_cert 1462116529 7 [2, 2, 2, 2, 3, 3, 3, 3384529]
    (by norm_num) (by norm_num) (by norm_num)
  · intro x hx
    simp only [List.mem_cons, List.mem_singleton, List.not_mem_nil, or_false] at hx
    rcases hx with rfl | rfl | rfl | rfl | rfl | rfl | rfl | rfl <;> norm_num
  · decide
  · decide


/-- The prime `137438953727 = 128849019105 + 2 * 4294967311`. -/
theorem prime_137438953727 : Nat.Prime 137438953727 := by
  apply lucas_cert 137438953727 5 [2, 47, 1462116529]
    (by norm_num) (by norm_num) (by norm_num)
  · intro x hx
    simp only [List.mem_cons, List.mem_singleton, List.not_mem_nil, or_false] at hx
    rcases hx with rfl | rfl | rfl
    · norm_num
    · norm_num
    · exact prime_1462116529
  · decide
  · decide


/-- The least prime above `2^32`, `2^32 + 15`. -/
theorem prime_4294967311 : Nat.Prime 4294967311 := by
  apply lucas_cert 4294967311 3 [2, 3, 3, 5, 131, 364289]
    (by norm_num) (by norm_num) (by norm_num)
  · intro x hx
    simp only [List.mem_cons, List.mem_singleton, List.not_mem_nil, or_false] at hx
    rcases hx with rfl | rfl | rfl | rfl | rfl | rfl <;> norm_num
  · decide
  · decide


/-- C7, at `S = 2` and beyond `S = 2^32`: for `S = 2` the base sieve prints `2` and
returns `1`, although no prime is below `2`.  For a size above `2^32` the square `i * i`
of a cursor is taken modulo `2^64`: for `S = 137438953728` and the prime cursor
`4294967311` the crossing-out loop begins at `128849019105` and clears the position
`137438953727`, which is a prime below `S`. -/
theorem sivfirstseg64_two_emits_two :
    (∃ b, sivfirstseg64 4 [0, 0] [0, 0] 2 = some b ∧ b.emitted = [2] ∧ b.found = 1 ∧
      b.emitted ≠ primesBelow 2 ∧ b.found ≠ (primesBelow 2).length) ∧
    Nat.Prime 4294967311 ∧ Nat.Prime 137438953727 ∧
    (4294967311 * 4294967311) % 2 ^ 64 = 128849019105 ∧
    ∀ segment, ∃ fuel seg1 j,
      crossOut64 fuel segment 137438953728 4294967311
          ((4294967311 * 4294967311) % 2 ^ 64) = some (seg1, j) ∧
        seg1.getD 137438953727 false = false := by
  refine ⟨⟨{ emitted := [2], found := 1, primes := [2, 0], next := [2, 0] }, by decide, rfl,
    rfl, ?_, ?_⟩, prime_4294967311, prime_137438953727, by norm_num, ?_⟩
  · rw [primesBelow_two]; decide
  · rw [primesBelow_two]; decide
  · intro segment
    have e : (4294967311 * 4294967311) % 2 ^ 64 = 128849019105 := by norm_num
    rw [e]
    obtain ⟨seg1, t, h1, h2, _, h4⟩ :=
      crossOut_spec 137438953728 4294967311 (by norm_num) 137438953729 segment 128849019105
        (by norm_num)
    refine ⟨137438953729, seg1, 128849019105 + t * 4294967311, ?_, ?_⟩
    · rw [crossOut64_eq 137438953728 4294967311 (by norm_num)]
      exact h1
    · rw [Bool.eq_false_iff]
      intro hc
      have h5 := ((h4 137438953727).mp hc).2 2 (by omega)
      omega


/-- C7, amended: for every segment size `S` with `3 ≤ S ≤ 2^32`, the base sieve in 64-bit
arithmetic, called with arrays of at least `S` cells, returns; it has printed exactly
the increasing list of all primes below `S`, has stored that list in
`primes[0 .. found)`, and its return value `found` is the length of the list. -/
theorem sivfirstseg64_primes_below (S fuel : Nat) (primes next : List Nat) (hS : 3 ≤ S)
    (hS2 : S ≤ 2 ^ 32) (hf : 2 * S ≤ fuel) (hlp : S ≤ primes.length)
    (hln : S ≤ next.length) :
    ∃ b, sivfirstseg64 fuel primes next S = some b ∧
      (∀ g b1, sivfirstseg64 g primes next S = some b1 → b1 = b) ∧
      b.emitted = primesBelow S ∧ b.primes.take b.found = primesBelow S ∧
      b.found = (primesBelow S).length := by
  obtain ⟨b, e, b1, b2, b3, _⟩ := sivfirstseg_spec S fuel primes next hS hf hlp hln
  refine ⟨b, by rw [sivfirstseg64_eq S fuel primes next hS hS2]; exact e, ?_, b1, b3, b2⟩
  intro g c hc
  rw [sivfirstseg64_eq S g primes next hS hS2] at hc
  have h1 := sivfirstseg_mono S g (max g fuel) primes next c hc (Nat.le_max_left _ _)
  have h2 := sivfirstseg_mono S fuel (max g fuel) primes next b e (Nat.le_max_right _ _)
  rw [h1] at h2
  exact Option.some.inj h2


theorem sivfirstseg64_primes_below_witness :
    3 ≤ 10 ∧ 10 ≤ 2 ^ 32 ∧ 2 * 10 ≤ 20 ∧
      ∃ b, sivfirstseg64 20 (List.replicate 10 0) (List.replicate 10 0) 10 = some b ∧
        (∀ g b1, sivfirstseg64 g (List.replicate 10 0) (List.replicate 10 0) 10 = some b1 →
          b1 = b) ∧
        b.emitted = primesBelow 10 ∧ b.primes.take b.found = primesBelow 10 ∧
        b.found = (primesBelow 10).length :=
  ⟨by decide, by norm_num, by decide,
    sivfirstseg64_primes_below 10 20 (List.replicate 10 0) (List.replicate 10 0) (by decide)
      (by norm_num) (by decide) (by decide) (by decide)⟩


theorem printLoop64_lt (seg : List Bool) (start : Nat) : ∀ n i c v,
    v ∈ (printLoop64 seg start n i c).1 → v < 2 ^ 64 := by
  intro n
  induction n with
  | zero =>
    intro i c v h
    simp [printLoop64] at h
  | succ n ih =>
    intro i c v h
    unfold printLoop64 at h
    by_cases hm : seg.getD i false = true
    · rw [if_pos hm] at h
      simp only [List.mem_cons] at h
      rcases h with rfl | h
      · exact Nat.mod_lt _ (by norm_num)
      · exact ih _ _ _ h
    · rw [if_neg hm] at h
      exact ih _ _ _ h


theorem exists_carry (p start : Nat) (hp : 0 < p) : ∃ c, IsCarry p start c := by
  have hex : ∃ t, start ≤ p * p + t * p :=
    ⟨start, le_trans (Nat.le_mul_of_pos_right start hp) (Nat.le_add_left _ _)⟩
  refine ⟨p * p + Nat.find hex * p - start, ⟨Nat.find hex, ?_⟩, ?_⟩
  · have := Nat.find_spec hex
    omega
  · intro t ht
    have h1 := Nat.find_min' hex ht
    have h2 := Nat.mul_le_mul_right p h1
    have := Nat.find_spec hex
    omega


theorem exists_carries (start n : Nat) (xprimes : List Nat)
    (hpos : ∀ k, k < n → 0 < xprimes.getD k 0) :
    ∃ next : List Nat, next.length = n ∧
      ∀ k, k < n → IsCarry (xprimes.getD k 0) start (next.getD k 0) := by
  have h : ∀ k, ∃ c, k < n → IsCarry (xprimes.getD k 0) start c := by
    intro k
    by_cases hk : k < n
    · obtain ⟨c, hc⟩ := exists_carry _ start (hpos k hk)
      exact ⟨c, fun _ => hc⟩
    · exact ⟨0, fun h => absurd h hk⟩
  choose f hf using h
  refine ⟨(List.range n).map f, by simp, ?_⟩
  intro k hk
  have e : ((List.range n).map f).getD k 0 = f k := by
    rw [List.getD_eq_getElem?_getD, List.getElem?_map, List.getElem?_range hk]
    rfl
  rw [e]
  exact hf k hk


/-- With the primes below `S = 2^32 + 1` as base primes there are carries for the start
`2^64 - 1`, all below `2^64`, and with them the segment sieve in 64-bit arithmetic
returns on the window of `6467` positions that begins at `2^64 - 1`; every value it
prints is below `2^64`, so it does not print the prime `2^64 + 6465`. -/
theorem sivseg64_above_two_pow (S n : Nat) (xprimes : List Nat) (hS : S = 2 ^ 32 + 1)
    (hx : xprimes.take n = primesBelow S) (hn : n = (primesBelow S).length) :
    ∃ next,
      (∀ k, k < n → IsCarry (xprimes.getD k 0) (2 ^ 64 - 1) (next.getD k 0)) ∧
      (∀ k, k < n → xprimes.getD k 0 < 2 ^ 64 ∧ next.getD k 0 < 2 ^ 64) ∧
      ∃ r, sivseg64 6468 xprimes next 6467 n (2 ^ 64 - 1) = some r ∧
        (∀ v, v ∈ r.emitted → v < 2 ^ 64) ∧
        18446744073709558081 ∈ primesIn (2 ^ 64 - 1) 6467 ∧
        r.emitted ≠ primesIn (2 ^ 64 - 1) 6467 := by
  obtain ⟨hA, _⟩ := xprimes_facts S n xprimes hx hn
  have hp32 : ∀ k, k < n → xprimes.getD k 0 < 2 ^ 32 := by
    intro k hk
    obtain ⟨a1, a2⟩ := hA k hk
    by_contra hc
    have e : xprimes.getD k 0 = 2 ^ 32 := by omega
    rw [e] at a1
    have := (Nat.prime_dvd_prime_iff_eq Nat.prime_two a1).mp (by norm_num)
    norm_num at this
  have hsq : ∀ a, a < 2 ^ 32 → a * a < 2 ^ 64 := by
    intro a ha
    have h3 : a ≤ 2 ^ 32 - 1 := by omega
    have h4 := Nat.mul_le_mul h3 h3
    have h5 : (2 ^ 32 - 1) * (2 ^ 32 - 1) < 2 ^ 64 := by norm_num
    omega
  obtain ⟨next, hlen, hcar⟩ := exists_carries (2 ^ 64 - 1) n xprimes
    (fun k hk => (hA k hk).1.pos)
  have hb : ∀ k, k < n → 6467 + xprimes.getD k 0 ≤ 2 ^ 64 ∧ next.getD k 0 < 2 ^ 64 := by
    intro k hk
    have a1 := hp32 k hk
    have a2 := (hcar k hk).le_sq (hA k hk).1.pos
    have a3 := hsq _ a1
    exact ⟨by omega, by omega⟩
  obtain ⟨seg1, next1, e, _⟩ :=
    sieveLoop_spec 6468 6467 xprimes (by norm_num) n (List.replicate 6467 true) next 0
      (fun k _ hk => (hA k (by omega)).1.pos)
  have hmem : 18446744073709558081 ∈ primesIn (2 ^ 64 - 1) 6467 :=
    (mem_primesIn _ _ _).mpr ⟨⟨by norm_num, by norm_num⟩, prime_above_two_pow⟩
  have hlt : ∀ v, v ∈ (printLoop64 seg1 (2 ^ 64 - 1) 6467 0 0).1 → v < 2 ^ 64 :=
    printLoop64_lt seg1 (2 ^ 64 - 1) 6467 0 0
  refine ⟨next, hcar, fun k hk => ⟨by have := hp32 k hk; omega, (hb k hk).2⟩,
    { emitted := (printLoop64 seg1 (2 ^ 64 - 1) 6467 0 0).1,
      count := (printLoop64 seg1 (2 ^ 64 - 1) 6467 0 0).2, next := next1 }, ?_, hlt, hmem, ?_⟩
  · unfold sivseg64
    rw [sieveLoop64_eq 6468 6467 xprimes _ _ next 0 (fun k _ hk => hb k (by omega)), e]
  · intro h
    simp only [] at h
    rw [← h] at hmem
    have := hlt _ hmem
    omega

/-- C8, at `S = 2^32 + 1`, `start = 2^64 - 1`, `W = 6467`: with the primes below `S` as
base primes and their carries for `start`, the segment sieve in 64-bit arithmetic
returns, and every value it has printed is below `2^64`; the prime `2^64 + 6465` of the
window `[start, start + W)` is not printed. -/
theorem sivseg64_misses_prime :
    ∃ xprimes next n,
      3 ≤ 2 ^ 32 + 1 ∧ 2 ^ 32 + 1 ≤ 2 ^ 64 - 1 ∧ 1 ≤ 6467 ∧
      2 ^ 64 - 1 + 6467 ≤ (2 ^ 32 + 1) * (2 ^ 32 + 1) ∧
      xprimes.take n = primesBelow (2 ^ 32 + 1) ∧ n = (primesBelow (2 ^ 32 + 1)).length ∧
      (∀ k, k < n → IsCarry (xprimes.getD k 0) (2 ^ 64 - 1) (next.getD k 0)) ∧
      (∀ k, k < n → xprimes.getD k 0 < 2 ^ 64 ∧ next.getD k 0 < 2 ^ 64) ∧
      ∃ r, sivseg64 6468 xprimes next 6467 n (2 ^ 64 - 1) = some r ∧
        (∀ v, v ∈ r.emitted → v < 2 ^ 64) ∧
        18446744073709558081 ∈ primesIn (2 ^ 64 - 1) 6467 ∧
        r.emitted ≠ primesIn (2 ^ 64 - 1) 6467 :=
  have n1 : 3 ≤ 2 ^ 32 + 1 := by norm_num
  have n2 : 2 ^ 32 + 1 ≤ 2 ^ 64 - 1 := by norm_num
  have n3 : 1 ≤ 6467 := by norm_num
  have n4 : 2 ^ 64 - 1 + 6467 ≤ (2 ^ 32 + 1) * (2 ^ 32 + 1) := by norm_num
  Exists.elim
    (sivseg64_above_two_pow (2 ^ 32 + 1) (primesBelow (2 ^ 32 + 1)).length
      (primesBelow (2 ^ 32 + 1)) rfl (List.take_length _) rfl)
    (fun next h =>
      ⟨primesBelow (2 ^ 32 + 1), next, (primesBelow (2 ^ 32 + 1)).length, n1, n2, n3, n4,
        List.take_length _, rfl, h⟩)

/-- C8, amended: for every `S` with `3 ≤ S ≤ 2^32`, window start `start ≥ S` and size
`W ≥ 1` with `start + W ≤ S * S`: when `xprimes[0 .. n)` is the increasing list of all
primes below `S` and `next[k] + start` is, for every `k < n`, the least element of
`{p², p² + p, p² + 2p, ...}` (`p = xprimes[k]`) that is at least `start`, the segment
sieve in 64-bit arithmetic returns; it returns the number of primes in
`[start, start + W)` and has printed exactly those primes, in increasing order, each as
`offset + start`.  `W` need not be `S`. -/
theorem sivseg64_primes_in_window (S start W n fuel : Nat) (xprimes next : List Nat)
    (hS : 3 ≤ S) (hS2 : S ≤ 2 ^ 32) (hst : S ≤ start) (_hW1 : 1 ≤ W)
    (hW : start + W ≤ S * S)
    (hx : xprimes.take n = primesBelow S) (hn : n = (primesBelow S).length)
    (hc : ∀ k, k < n → IsCarry (xprimes.getD k 0) start (next.getD k 0)) (hf : W < fuel) :
    ∃ r, sivseg64 fuel xprimes next W n start = some r ∧
      (∀ g r1, sivseg64 g xprimes next W n start = some r1 → r1 = r) ∧
      r.count = (primesIn start W).length ∧ r.emitted = primesIn start W ∧
      r.emitted = ((List.range W).filter (fun j => decide (j + start).Prime)).map
        (fun j => j + start) := by
  obtain ⟨hA, _⟩ := xprimes_facts S n xprimes hx hn
  have hSS : S * S ≤ 2 ^ 64 := by
    have := Nat.mul_le_mul hS2 hS2
    have e : (2 : Nat) ^ 32 * 2 ^ 32 = 2 ^ 64 := by norm_num
    omega
  have hb : ∀ k, k < n → W + xprimes.getD k 0 ≤ 2 ^ 64 ∧ next.getD k 0 < 2 ^ 64 := by
    intro k hk
    obtain ⟨a1, a2⟩ := hA k hk
    have a3 := (hc k hk).le_sq a1.pos
    have a4 : xprimes.getD k 0 * xprimes.getD k 0 ≤ (S - 1) * (S - 1) :=
      Nat.mul_le_mul (by omega) (by omega)
    have a5 : (S - 1) * (S - 1) < S * S := Nat.mul_self_lt_mul_self (by omega)
    exact ⟨by omega, by omega⟩
  have heq : ∀ g, sivseg64 g xprimes next W n start = sivseg g xprimes next W n start :=
    fun g => sivseg64_eq g W n start xprimes next hb (by omega) (by omega)
  obtain ⟨r, e, r1, r2, _⟩ :=
    sivseg_spec S start W n fuel xprimes next (by omega) hst hW hx hn hc hf
  refine ⟨r, by rw [heq]; exact e, ?_, r2, r1, ?_⟩
  · intro g c hc1
    rw [heq] at hc1
    have h1 := sivseg_mono g (max g fuel) W n start xprimes next c hc1 (Nat.le_max_left _ _)
    have h2 := sivseg_mono fuel (max g fuel) W n start xprimes next r e (Nat.le_max_right _ _)
    rw [h1] at h2
    exact Option.some.inj h2
  · rw [r1]
    unfold primesIn
    rw [List.range'_eq_map_range start W, List.filter_map]
    have hfun : (fun x => start + x) = (fun j => j + start) := by
      funext x; exact Nat.add_comm _ _
    rw [hfun]
    rfl


theorem sivseg64_primes_in_window_witness :
    3 ≤ 4 ∧ 4 ≤ 2 ^ 32 ∧ 4 ≤ 4 ∧ 1 ≤ 4 ∧ 4 + 4 ≤ 4 * 4 ∧ 4 < 5 ∧
      ∃ r, sivseg64 5 [2, 3, 0, 0] [0, 5, 0, 0] 4 2 4 = some r ∧
        (∀ g r1, sivseg64 g [2, 3, 0, 0] [0, 5, 0, 0] 4 2 4 = some r1 → r1 = r) ∧
        r.count = (primesIn 4 4).length ∧ r.emitted = primesIn 4 4 ∧
        r.emitted = ((List.range 4).filter (fun j => decide (j + 4).Prime)).map
          (fun j => j + 4) :=
  ⟨by decide, by norm_num, by decide, by decide, by decide, by decide,
    sivseg64_primes_in_window 4 4 4 2 5 [2, 3, 0, 0] [0, 5, 0, 0] (by decide) (by norm_num)
      (by decide) (by decide) (by decide) (by rw [primesBelow_four]; rfl)
      (by rw [primesBelow_four]; rfl)
      (by
        intro k hk
        have : k = 0 ∨ k = 1 := by omega
        rcases this with rfl | rfl
        · exact ⟨⟨0, by decide⟩, fun t _ => by simp⟩
        · exact ⟨⟨0, by decide⟩, fun t _ => by simp⟩)
      (by decide)⟩


set_option maxRecDepth 100000 in
/-- C13, at `W = 60`, `p = 2^64 - 59`, `c = 59`: the least `t` with `c + t * p ≥ W` is
`1`, so the claim gives the carry `c + p - W = 2^64 - 60`, which the run in exact
arithmetic stores; in 64-bit arithmetic `j += xprimes[i]` wraps to `0`, the loop clears
offset `0` as well, and the segment sieve stores `2^64 - 119`. -/
theorem sivseg64_carry_wraps :
    Nat.Prime 18446744073709551557 ∧ 18446744073709551557 < 2 ^ 64 ∧
      (60 ≤ 59 + 1 * 18446744073709551557 ∧
        ∀ s, s < 1 → 59 + s * 18446744073709551557 < 60) ∧
      (sivseg64 61 [18446744073709551557] [59] 60 1 0).map (fun r => r.next) =
        some [18446744073709551497] ∧
      18446744073709551497 ≠ 59 + 1 * 18446744073709551557 - 60 ∧
      (sivseg 61 [18446744073709551557] [59] 60 1 0).map (fun r => r.next) =
        some [59 + 1 * 18446744073709551557 - 60] :=
  ⟨prime_below_two_pow, by norm_num, by decide, by decide, by decide, by decide⟩


/-- In 64-bit arithmetic the segment sieve stores the carries of the exact run when each
`W + xprimes[k]` is at most `2^64` and each incoming carry is below `2^64`. -/
theorem sivseg64_next (fuel W n start : Nat) (xprimes next : List Nat)
    (hb : ∀ k, k < n → W + xprimes.getD k 0 ≤ 2 ^ 64 ∧ next.getD k 0 < 2 ^ 64)
    (r : SegResult) (h : sivseg fuel xprimes next W n start = some r) :
    ∃ r64, sivseg64 fuel xprimes next W n start = some r64 ∧ r64.next = r.next := by
  unfold sivseg at h
  unfold sivseg64
  rw [sieveLoop64_eq fuel W xprimes n _ next 0 (fun k _ hk => hb k (by omega))]
  cases hc : sieveLoop fuel xprimes W (List.replicate W true) next n 0 with
  | none =>
    rw [hc] at h
    exact Option.noConfusion h
  | some y =>
    rw [hc] at h
    refine ⟨_, rfl, ?_⟩
    rw [← Option.some.inj h]


/-- C13, amended: for every window size `W ≥ 1` and base primes `xprimes[k] ≥ 1`, `k < n`,
with carries `next[k] < 2^64` and `W + xprimes[k] ≤ 2^64`, the segment sieve in 64-bit
arithmetic returns and the carry it has stored for the prime `p = xprimes[k]` with
incoming carry `c = next[k]` is `(c + t * p) - W` for the least `t` with
`c + t * p ≥ W`; it is `c - W` when `c ≥ W` and is below `p` when `c < W`. -/
theorem sivseg64_carry_update (W fuel n start : Nat) (xprimes next : List Nat) (hW : 1 ≤ W)
    (hpos : ∀ k, k < n → 1 ≤ xprimes.getD k 0) (hlen : n ≤ next.length) (hf : W < fuel)
    (hb : ∀ k, k < n → W + xprimes.getD k 0 ≤ 2 ^ 64 ∧ next.getD k 0 < 2 ^ 64) :
    ∃ r, sivseg64 fuel xprimes next W n start = some r ∧
      ∀ k, k < n →
        (∃ t, (W ≤ next.getD k 0 + t * xprimes.getD k 0 ∧
            ∀ s, s < t → next.getD k 0 + s * xprimes.getD k 0 < W) ∧
          r.next.getD k 0 = next.getD k 0 + t * xprimes.getD k 0 - W) ∧
        (W ≤ next.getD k 0 → r.next.getD k 0 = next.getD k 0 - W) ∧
        (next.getD k 0 < W → r.next.getD k 0 < xprimes.getD k 0) := by
  obtain ⟨r, e, h⟩ := sivseg_carry_update_exact W fuel n start xprimes next hW hpos hlen hf
  obtain ⟨r64, e64, en⟩ := sivseg64_next fuel W n start xprimes next hb r e
  refine ⟨r64, e64, ?_⟩
  rw [en]
  exact h


theorem sivseg64_carry_update_witness :
    1 ≤ 4 ∧ 4 < 5 ∧ ∃ r, sivseg64 5 [2, 3] [0, 5] 4 2 4 = some r ∧
      ∀ k, k < 2 →
        (∃ t, (4 ≤ [0, 5].getD k 0 + t * [2, 3].getD k 0 ∧
            ∀ s, s < t → [0, 5].getD k 0 + s * [2, 3].getD k 0 < 4) ∧
          r.next.getD k 0 = [0, 5].getD k 0 + t * [2, 3].getD k 0 - 4) ∧
        (4 ≤ [0, 5].getD k 0 → r.next.getD k 0 = [0, 5].getD k 0 - 4) ∧
        ([0, 5].getD k 0 < 4 → r.next.getD k 0 < [2, 3].getD k 0) :=
  ⟨by decide, by decide,
    sivseg64_carry_update 4 5 2 4 [2, 3] [0, 5] (by decide)
      (by
        intro k hk
        have : k = 0 ∨ k = 1 := by omega
        rcases this with rfl | rfl <;> decide)
      (by decide) (by decide)
      (by
        intro k hk
        have : k = 0 ∨ k = 1 := by omega
        rcases this with rfl | rfl <;> decide)⟩


set_option maxRecDepth 100000 in
/-- C14, at two inputs.  At `W = 60`, `p = 2^64 - 59`, `c = 59`, `start = 0` the only
offset below `60` of the form `c + t * p` is `59`, so `59` offsets are left, but in
64-bit arithmetic the segment sieve crosses out offset `0` as well and returns `58`.
At `W = 4`, `p = 2`, `c = 0`, `start = 2^64 - 2` the offsets left are `1` and `3`; the
segment sieve prints `2^64 - 1` and then `1`, not `3 + start`. -/
theorem sivseg64_crossing_wraps :
    ((sivseg64 61 [18446744073709551557] [59] 60 1 0).map (fun r => r.count) = some 58 ∧
      ((List.range 60).filter (fun j =>
        decide (¬ (59 ≤ j ∧ 18446744073709551557 ∣ j - 59)))).length = 59) ∧
    ((sivseg64 5 [2] [0] 4 1 18446744073709551614).map (fun r => r.emitted) =
        some [18446744073709551615, 1] ∧
      ((List.range 4).filter (fun j => decide (¬ (0 ≤ j ∧ 2 ∣ j - 0)))).map
          (fun j => j + 18446744073709551614) =
        [18446744073709551615, 18446744073709551617]) :=
  ⟨⟨by decide, by decide⟩, by decide, by decide⟩


/-- C14, amended: for every window size `W < 2^64`, start with `start + W ≤ 2^64`,
positive base primes `xprimes[k]` with `W + xprimes[k] ≤ 2^64` and carries
`next[k] < 2^64`, `k < n`, the segment sieve in 64-bit arithmetic returns; it has
printed `j + startnum`, in increasing order of `j`, for exactly the offsets `j < W` that
are of the form `next[k] + t * xprimes[k]` for no `k < n` and no `t`, and it returns the
number of these offsets. -/
theorem sivseg64_crossing_rule (W fuel n start : Nat) (xprimes next : List Nat)
    (hpos : ∀ k, k < n → 0 < xprimes.getD k 0) (hlen : n ≤ next.length) (hf : W < fuel)
    (hb : ∀ k, k < n → W + xprimes.getD k 0 ≤ 2 ^ 64 ∧ next.getD k 0 < 2 ^ 64)
    (hs : start + W ≤ 2 ^ 64) (hW : W < 2 ^ 64) :
    ∃ r, sivseg64 fuel xprimes next W n start = some r ∧
      r.emitted = ((List.range W).filter (fun j => decide (∀ k, k < n →
          ¬ (next.getD k 0 ≤ j ∧ xprimes.getD k 0 ∣ j - next.getD k 0)))).map
        (fun j => j + start) ∧
      r.count = ((List.range W).filter (fun j => decide (∀ k, k < n →
          ¬ (next.getD k 0 ≤ j ∧ xprimes.getD k 0 ∣ j - next.getD k 0)))).length ∧
      (∀ v, v ∈ r.emitted ↔ ∃ j, j < W ∧ v = j + start ∧
        ¬ ∃ k t, k < n ∧ j = next.getD k 0 + t * xprimes.getD k 0) ∧
      r.emitted.Pairwise (fun a b => a < b) := by
  rw [sivseg64_eq fuel W n start xprimes next hb hs hW]
  exact sivseg_crossing_rule_exact W fuel n start xprimes next hpos hlen hf


theorem sivseg64_crossing_rule_witness :
    4 < 5 ∧ 4 + 4 ≤ 2 ^ 64 ∧ 4 < 2 ^ 64 ∧
      ∃ r, sivseg64 5 [2, 3] [0, 5] 4 2 4 = some r ∧
      r.emitted = ((List.range 4).filter (fun j => decide (∀ k, k < 2 →
          ¬ ([0, 5].getD k 0 ≤ j ∧ [2, 3].getD k 0 ∣ j - [0, 5].getD k 0)))).map
        (fun j => j + 4) ∧
      r.count = ((List.range 4).filter (fun j => decide (∀ k, k < 2 →
          ¬ ([0, 5].getD k 0 ≤ j ∧ [2, 3].getD k 0 ∣ j - [0, 5].getD k 0)))).length ∧
      (∀ v, v ∈ r.emitted ↔ ∃ j, j < 4 ∧ v = j + 4 ∧
        ¬ ∃ k t, k < 2 ∧ j = [0, 5].getD k 0 + t * [2, 3].getD k 0) ∧
      r.emitted.Pairwise (fun a b => a < b) :=
  ⟨by decide, by norm_num, by norm_num,
    sivseg64_crossing_rule 4 5 2 4 [2, 3] [0, 5]
      (by
        intro k hk
        have : k = 0 ∨ k = 1 := by omega
        rcases this with rfl | rfl <;> decide)
      (by decide) (by decide)
      (by
        intro k hk
        have : k = 0 ∨ k = 1 := by omega
        rcases this with rfl | rfl <;> decide)
      (by norm_num) (by norm_num)⟩



end Primesieve
